import Mathlib

/-!
# Dancing Links (`dlx.go`): a shallow embedding and its verification

The Go package keeps the sparse matrix as a mesh of `dlxNode` objects linked
through pointers.  The embedding below keeps the objects in an explicit memory:

* an object is named by its address, a natural number; address `0` is the nil
  interface value, and `Heap.alloc` hands out the addresses `1, 2, 3, ...` in
  allocation order, with every field at its Go zero value;
* a method call on nil, and a call of one of the header-only accessors
  (`getName`, `setName`, `getSize`, `increaseSize`, `decreaseSize`) on a plain
  `*node`, panics in Go: the embedded operations return `none` there;
* Go loops whose termination depends on the shape of the mesh are run with a
  fuel counter, and `none` is also the answer when the fuel runs out; the
  theorems that say that the code returns give a fuel bound from which the
  result is `some _`;
* the slices of `searchAllSolution` are modelled with their backing arrays
  (`Slice`, `Arrays`), because `append` may write into an array that a recorded
  solution still shares.
-/

namespace Dlx

/-! ## Memory of `dlxNode` objects -/

/-- Pointwise update of a field table. -/
def upd {α : Type} (f : Nat → α) (a : Nat) (v : α) : Nat → α :=
  fun x => if x = a then v else f x

/-- The memory: `count` objects are allocated, at the addresses `1..count`;
`isColumn n` tells whether object `n` is a `*ColumnNode` (otherwise a `*node`);
the other tables hold the fields of `node` and `ColumnNode`. -/
structure Heap where
  count : Nat
  isColumn : Nat → Bool
  left : Nat → Nat
  right : Nat → Nat
  up : Nat → Nat
  down : Nat → Nat
  column : Nat → Nat
  size : Nat → Int
  name : Nat → String

/-- The memory before any allocation. -/
def Heap.empty : Heap :=
  { count := 0, isColumn := fun _ => false, left := fun _ => 0, right := fun _ => 0,
    up := fun _ => 0, down := fun _ => 0, column := fun _ => 0, size := fun _ => 0,
    name := fun _ => "" }

/-- Allocation `&node{}` (`col = false`) or `&ColumnNode{}` (`col = true`): the
next address, all fields at their zero value. -/
def Heap.alloc (h : Heap) (col : Bool) : Heap × Nat :=
  let n := h.count + 1
  ({ count := n
     isColumn := upd h.isColumn n col
     left := upd h.left n 0
     right := upd h.right n 0
     up := upd h.up n 0
     down := upd h.down n 0
     column := upd h.column n 0
     size := upd h.size n 0
     name := upd h.name n "" }, n)

/-! ### The methods of `dlxNode` -/

def getLeft (h : Heap) (n : Nat) : Option Nat := if n = 0 then none else some (h.left n)

def getRight (h : Heap) (n : Nat) : Option Nat := if n = 0 then none else some (h.right n)

def getUp (h : Heap) (n : Nat) : Option Nat := if n = 0 then none else some (h.up n)

def getDown (h : Heap) (n : Nat) : Option Nat := if n = 0 then none else some (h.down n)

def getColumn (h : Heap) (n : Nat) : Option Nat := if n = 0 then none else some (h.column n)

def setLeft (h : Heap) (n nd : Nat) : Option Heap :=
  if n = 0 then none else some { h with left := upd h.left n nd }

def setRight (h : Heap) (n nd : Nat) : Option Heap :=
  if n = 0 then none else some { h with right := upd h.right n nd }

def setUp (h : Heap) (n nd : Nat) : Option Heap :=
  if n = 0 then none else some { h with up := upd h.up n nd }

def setDown (h : Heap) (n nd : Nat) : Option Heap :=
  if n = 0 then none else some { h with down := upd h.down n nd }

def setColumn (h : Heap) (n nd : Nat) : Option Heap :=
  if n = 0 then none else some { h with column := upd h.column n nd }

/-- The method is `(*ColumnNode).getName`; `(*node).getName` panics. -/
def getName (h : Heap) (n : Nat) : Option String :=
  if n = 0 then none else if h.isColumn n then some (h.name n) else none

def setName (h : Heap) (n : Nat) (name : String) : Option Heap :=
  if n = 0 then none
  else if h.isColumn n then some { h with name := upd h.name n name } else none

def getSize (h : Heap) (n : Nat) : Option Int :=
  if n = 0 then none else if h.isColumn n then some (h.size n) else none

def increaseSize (h : Heap) (n : Nat) : Option Heap :=
  if n = 0 then none
  else if h.isColumn n then some { h with size := upd h.size n (h.size n + 1) } else none

def decreaseSize (h : Heap) (n : Nat) : Option Heap :=
  if n = 0 then none
  else if h.isColumn n then some { h with size := upd h.size n (h.size n - 1) } else none

/-- Sequencing: the second step runs on the result of the first, and is skipped once
the first has panicked. -/
@[inline] def obind {α β : Type} (x : Option α) (f : α → Option β) : Option β :=
  match x with
  | none => none
  | some a => f a

/-! ### The loop `for x != stop { body; x = x.next() }` -/

/-- The Go loop `for x != stop { body(x); x = next(x) }` over a state `σ`,
`next` being read in the state the body leaves. -/
def forRing {σ : Type} (next : σ → Nat → Option Nat) (body : σ → Nat → Option σ)
    (stop : Nat) : Nat → σ → Nat → Option σ
  | 0, _, _ => none
  | fuel + 1, s, x =>
    if x = stop then some s
    else obind (body s x) fun s1 => obind (next s1 x) fun x1 => forRing next body stop fuel s1 x1

/-! ## Building the mesh -/

/-- The Go `error` result: `none` is the nil error. -/
abbrev GoError := Option String

def checkInputValue (matrix : List (List Bool)) (columnNames : List String) : GoError :=
  if matrix.length = 0 || (matrix.headD []).length = 0 then
    some "empty matrix: func Initialize"
  else if (matrix.headD []).length ≠ columnNames.length then
    some "number of column names doesn't match with the matrix size : func Initialize"
  else none

/-- One turn of the loop of `initColumnHeaders`, for one name. -/
def initColumnHeadersStep (st : Heap × Nat) (name : String) : Option (Heap × Nat) :=
  let (h0, leftNode) := st
  let (h1, newColumnNode) := h0.alloc true
  obind (setUp h1 newColumnNode newColumnNode) fun h2 =>
  obind (setDown h2 newColumnNode newColumnNode) fun h3 =>
  obind (setColumn h3 newColumnNode newColumnNode) fun h4 =>
  obind (setName h4 newColumnNode name) fun h5 =>
  obind (getRight h5 leftNode) fun r =>
  obind (setRight h5 newColumnNode r) fun h6 =>
  obind (getRight h6 newColumnNode) fun r1 =>
  obind (setLeft h6 r1 newColumnNode) fun h7 =>
  obind (setLeft h7 newColumnNode leftNode) fun h8 =>
  obind (setRight h8 leftNode newColumnNode) fun h9 =>
  some (h9, newColumnNode)

/-- The loop `for _, name := range columnNames` of `initColumnHeaders`. -/
def initColumnHeadersLoop : Heap × Nat → List String → Option (Heap × Nat)
  | st, [] => some st
  | st, name :: rest => obind (initColumnHeadersStep st name) fun st1 => initColumnHeadersLoop st1 rest

def initColumnHeaders (h0 : Heap) (columnNames : List String) : Option (Heap × Nat) :=
  let (h1, header) := h0.alloc true
  obind (setLeft h1 header header) fun h2 =>
  obind (setRight h2 header header) fun h3 =>
  obind (initColumnHeadersLoop (h3, header) columnNames) fun st =>
  some (st.1, header)

/-- The loop `for idx := 0; idx < j; idx++ { columnHead = columnHead.getRight() }`. -/
def walkRight (h : Heap) : Nat → Nat → Option Nat
  | 0, columnHead => some columnHead
  | j + 1, columnHead => obind (getRight h columnHead) fun r => walkRight h j r

/-- The loop `for upperNode.getDown() != columnHead { upperNode = upperNode.getDown() }`. -/
def findUpperNode (h : Heap) (columnHead : Nat) : Nat → Nat → Option Nat
  | 0, _ => none
  | fuel + 1, upperNode =>
    obind (getDown h upperNode) fun d =>
    if d ≠ columnHead then obind (getDown h upperNode) fun d1 => findUpperNode h columnHead fuel d1
    else some upperNode

/-- The local variables of the row loop of `initNodes`. -/
structure RowVars where
  heap : Heap
  leftNode : Nat
  isThereNodeInRow : Bool

/-- The body of `for j, state := range row` in `initNodes`. -/
def initNodesCell (fuel : Nat) (header : Nat) (v : RowVars) (j : Nat) (state : Bool) :
    Option RowVars :=
  if state then
    let (h1, newNode) := v.heap.alloc false
    obind (getRight h1 header) fun c0 =>
    obind (walkRight h1 j c0) fun columnHead =>
    obind (setColumn h1 newNode columnHead) fun h2 =>
    obind (increaseSize h2 columnHead) fun h3 =>
    obind (findUpperNode h3 columnHead fuel columnHead) fun upperNode =>
    obind (getDown h3 upperNode) fun d =>
    obind (setDown h3 newNode d) fun h4 =>
    obind (getDown h4 newNode) fun d1 =>
    obind (setUp h4 d1 newNode) fun h5 =>
    obind (setUp h5 newNode upperNode) fun h6 =>
    obind (setDown h6 upperNode newNode) fun h7 =>
    if v.isThereNodeInRow then
      obind (getRight h7 v.leftNode) fun r =>
      obind (setRight h7 newNode r) fun h8 =>
      obind (getRight h8 newNode) fun r1 =>
      obind (setLeft h8 r1 newNode) fun h9 =>
      obind (setLeft h9 newNode v.leftNode) fun h10 =>
      obind (setRight h10 v.leftNode newNode) fun h11 =>
      some { heap := h11, leftNode := newNode, isThereNodeInRow := true }
    else
      obind (setLeft h7 newNode newNode) fun h8 =>
      obind (setRight h8 newNode newNode) fun h9 =>
      some { heap := h9, leftNode := newNode, isThereNodeInRow := true }
  else some v

/-- The loop `for j, state := range row`, from index `j` on. -/
def initNodesRow (fuel : Nat) (header : Nat) : RowVars → Nat → List Bool → Option RowVars
  | v, _, [] => some v
  | v, j, state :: rest =>
    obind (initNodesCell fuel header v j state) fun v1 => initNodesRow fuel header v1 (j + 1) rest

/-- The loop `for _, row := range matrix` of `initNodes`. -/
def initNodesLoop (fuel : Nat) (header : Nat) : Heap → List (List Bool) → Option Heap
  | h, [] => some h
  | h, row :: rest =>
    obind (initNodesRow fuel header { heap := h, leftNode := 0, isThereNodeInRow := false } 0 row)
      fun v => initNodesLoop fuel header v.heap rest

def initNodes (fuel : Nat) (h : Heap) (matrix : List (List Bool)) (header : Nat) : Option Heap :=
  initNodesLoop fuel header h matrix

/-- The result of `Initialize`: the memory, the returned `dlxNode` and the error. -/
def Initialize (fuel : Nat) (matrix : List (List Bool)) (columnNames : List String) :
    Option (Heap × Nat × GoError) :=
  match checkInputValue matrix columnNames with
  | some err =>
    let (h, n) := Heap.empty.alloc false
    some (h, n, some err)
  | none =>
    obind (initColumnHeaders Heap.empty columnNames) fun (h1, header) =>
    obind (initNodes fuel h1 matrix header) fun h2 =>
    some (h2, header, none)

/-! ## Column choice, cover and uncover -/

def chooseColumn (fuel : Nat) (h : Heap) (header : Nat) : Option Nat :=
  obind (getRight h header) fun j =>
  obind (getSize h j) fun size =>
  obind (forRing (fun _ j => getRight h j)
    (fun (st : Int × Nat) j =>
      obind (getSize h j) fun sj =>
      if st.1 > sj then obind (getSize h j) fun sj1 => some (sj1, j) else some st)
    header fuel (size, j) j) fun st =>
  some st.2

/-- The three statements that take `j` out of its column in `coverColumn`. -/
def unlinkNode (h : Heap) (j : Nat) : Option Heap :=
  obind (getDown h j) fun d =>
  obind (getUp h j) fun u =>
  obind (setUp h d u) fun h1 =>
  obind (getUp h1 j) fun u1 =>
  obind (getDown h1 j) fun d1 =>
  obind (setDown h1 u1 d1) fun h2 =>
  obind (getColumn h2 j) fun c =>
  decreaseSize h2 c

def coverColumn (fuel : Nat) (h : Heap) (c : Nat) : Option Heap :=
  obind (getRight h c) fun r =>
  obind (getLeft h c) fun l =>
  obind (setLeft h r l) fun h1 =>
  obind (getLeft h1 c) fun l1 =>
  obind (getRight h1 c) fun r1 =>
  obind (setRight h1 l1 r1) fun h2 =>
  obind (getDown h2 c) fun i =>
  forRing getDown
    (fun h3 i => obind (getRight h3 i) fun j => forRing getRight unlinkNode i fuel h3 j)
    c fuel h2 i

/-- The three statements that put `j` back into its column in `uncoverColumn`. -/
def relinkNode (h : Heap) (j : Nat) : Option Heap :=
  obind (getColumn h j) fun c =>
  obind (increaseSize h c) fun h1 =>
  obind (getDown h1 j) fun d =>
  obind (setUp h1 d j) fun h2 =>
  obind (getUp h2 j) fun u =>
  setDown h2 u j

def uncoverColumn (fuel : Nat) (h : Heap) (c : Nat) : Option Heap :=
  obind (getUp h c) fun i =>
  obind (forRing getUp
    (fun h1 i => obind (getLeft h1 i) fun j => forRing getLeft relinkNode i fuel h1 j)
    c fuel h i) fun h2 =>
  obind (getRight h2 c) fun r =>
  obind (setLeft h2 r c) fun h3 =>
  obind (getLeft h3 c) fun l =>
  setRight h3 l c

/-- The loop `j := r.getRight(); for j != r { coverColumn(j.getColumn()); j = j.getRight() }`
of both searches. -/
def coverRowColumns (fuel : Nat) (h : Heap) (r : Nat) : Option Heap :=
  obind (getRight h r) fun j =>
  forRing getRight (fun h1 j => obind (getColumn h1 j) fun c => coverColumn fuel h1 c) r fuel h j

/-- The loop `j = r.getLeft(); for j != r { uncoverColumn(j.getColumn()); j = j.getLeft() }`
of both searches. -/
def uncoverRowColumns (fuel : Nat) (h : Heap) (r : Nat) : Option Heap :=
  obind (getLeft h r) fun j =>
  forRing getLeft (fun h1 j => obind (getColumn h1 j) fun c => uncoverColumn fuel h1 c) r fuel h j

/-! ## Slices of `dlxNode` -/

/-- A slice header `[]dlxNode`: the backing array, the length and the capacity. -/
structure Slice where
  array : Nat
  len : Nat
  cap : Nat
deriving DecidableEq, Repr

/-- The backing arrays allocated so far: array `k` is the `k`-th list, as long as its
capacity, unused places holding nil. -/
abbrev Arrays := List (List Nat)

/-- The elements of a slice, read in the arrays. -/
def Slice.elems (arrays : Arrays) (s : Slice) : List Nat :=
  (arrays.getD s.array []).take s.len

/-- The literal `[]dlxNode{}`: no element, no capacity. -/
def Slice.empty : Slice := { array := 0, len := 0, cap := 0 }

/-- The builtin `append(s, v)`: with spare capacity the element is written into the
backing array of `s` in place; otherwise a new array is allocated, of capacity
`grow s.cap` (at least `s.len + 1`), and the elements are copied.  The growth policy
`grow` belongs to the Go runtime, not to the package. -/
def appendSlice (grow : Nat → Nat) (arrays : Arrays) (s : Slice) (v : Nat) : Arrays × Slice :=
  if s.len < s.cap then
    (arrays.set s.array ((arrays.getD s.array []).set s.len v), { s with len := s.len + 1 })
  else
    let cap1 := max (grow s.cap) (s.len + 1)
    (arrays ++ [s.elems arrays ++ v :: List.replicate (cap1 - (s.len + 1)) 0],
     { array := arrays.length, len := s.len + 1, cap := cap1 })

/-- The growth of `append` in the Go runtime for small slices: the capacity doubles. -/
def growslice (cap : Nat) : Nat := if cap = 0 then 1 else 2 * cap

/-! ## The two searches -/

/-- What `searchAllSolution` works on: the mesh, the backing arrays of the slices, and
`*solutions`, the slice headers recorded so far. -/
structure AllState where
  heap : Heap
  arrays : Arrays
  solutions : List Slice

def searchAllSolution (grow : Nat → Nat) : Nat → AllState → Nat → Slice → Option AllState
  | 0, _, _, _ => none
  | fuel + 1, st, header, solution =>
    obind (getRight st.heap header) fun r0 =>
    if r0 = header then some { st with solutions := st.solutions ++ [solution] }
    else
      obind (chooseColumn fuel st.heap header) fun c =>
      obind (coverColumn fuel st.heap c) fun h1 =>
      obind (getDown h1 c) fun r =>
      obind (forRing (fun (v : AllState × Slice) r => getDown v.1.heap r)
        (fun v r =>
          let app := appendSlice grow v.1.arrays v.2 r
          obind (coverRowColumns fuel v.1.heap r) fun h2 =>
          obind (searchAllSolution grow fuel
              { v.1 with heap := h2, arrays := app.1 } header app.2) fun st1 =>
          obind (uncoverRowColumns fuel st1.heap r) fun h3 =>
          some ({ st1 with heap := h3 }, { app.2 with len := app.2.len - 1 }))
        c fuel ({ st with heap := h1 }, solution) r) fun v =>
      obind (getColumn v.1.heap c) fun cc =>
      obind (uncoverColumn fuel v.1.heap cc) fun h4 =>
      some { v.1 with heap := h4 }

mutual

/-- The result is the memory, the returned slice (by value: the slice of
`searchOnlySolution` is local to one activation and shared with nobody) and the
error. -/
def searchOnlySolution : Nat → Heap → Nat → Option (Heap × List Nat × GoError)
  | 0, _, _ => none
  | fuel + 1, h, header =>
    obind (getRight h header) fun r0 =>
    if r0 = header then some (h, [], none)
    else
      obind (chooseColumn fuel h header) fun c =>
      obind (coverColumn fuel h c) fun h1 =>
      obind (getDown h1 c) fun r =>
      searchOnlyRows fuel h1 header c [] r

/-- The loop `for r != c` of `searchOnlySolution`, with the statements after it. -/
def searchOnlyRows : Nat → Heap → Nat → Nat → List Nat → Nat → Option (Heap × List Nat × GoError)
  | 0, _, _, _, _, _ => none
  | fuel + 1, h, header, c, solution, r =>
    if r = c then
      obind (getColumn h c) fun cc =>
      obind (uncoverColumn fuel h cc) fun h1 =>
      some (h1, solution, some "this node is not a solution")
    else
      obind (coverRowColumns fuel h r) fun h1 =>
      obind (searchOnlySolution fuel h1 header) fun res =>
      if res.2.2 = none then some (res.1, (solution ++ [r]) ++ res.2.1, none)
      else
        obind (uncoverRowColumns fuel res.1 r) fun h2 =>
        obind (getDown h2 r) fun r1 =>
        searchOnlyRows fuel h2 header c (solution ++ [r]).dropLast r1

end

/-- The function value that `SearchFunction` returns: the closure of the `getAll`
branch with its captured variables `solution` and `solutions`, or the closure of the
other branch, which captures nothing. -/
inductive SearchFn where
  | all (solution : Slice) (solutions : List Slice)
  | only

def SearchFunction (getAll : Bool) : SearchFn :=
  if getAll then SearchFn.all Slice.empty [] else SearchFn.only

/-- What a call of the returned function leaves: the function value with its captured
variables, the mesh, the backing arrays, and the returned `[][]dlxNode`, read at the
return. -/
structure CallResult where
  fn : SearchFn
  heap : Heap
  arrays : Arrays
  result : List (List Nat)

/-- The call `f(header)` of a function value returned by `SearchFunction`. -/
def SearchFn.call (grow : Nat → Nat) (fuel : Nat) (f : SearchFn) (h : Heap) (arrays : Arrays)
    (header : Nat) : Option CallResult :=
  match f with
  | SearchFn.all solution solutions =>
    obind (searchAllSolution grow fuel
        { heap := h, arrays := arrays, solutions := solutions } header solution) fun st =>
    some { fn := SearchFn.all solution st.solutions, heap := st.heap, arrays := st.arrays,
           result := st.solutions.map (Slice.elems st.arrays) }
  | SearchFn.only =>
    obind (searchOnlySolution fuel h header) fun res =>
    some { fn := SearchFn.only, heap := res.1, arrays := arrays, result := [res.2.1] }

/-! ## Resolving solutions -/

/-- The inner `for` of `ResolveSolutions`: the result of `row.getRight()` is dropped,
so `row` stays the cell it was. -/
def resolveRow (h : Heap) (row firstRow : Nat) : Nat → List String → Option (List String)
  | 0, _ => none
  | fuel + 1, rowResult =>
    obind (getColumn h row) fun c =>
    obind (getName h c) fun columnName =>
    obind (getRight h row) fun _ =>
    if row = firstRow then some (rowResult ++ [columnName])
    else resolveRow h row firstRow fuel (rowResult ++ [columnName])

/-- The loop `for _, row := range solution`. -/
def resolveSolution (fuel : Nat) (h : Heap) : List (List String) → List Nat →
    Option (List (List String))
  | aResolved, [] => some aResolved
  | aResolved, row :: rest =>
    obind (resolveRow h row row fuel []) fun rowResult =>
    resolveSolution fuel h (aResolved ++ [rowResult]) rest

/-- The loop `for _, solution := range *solutions`. -/
def resolveLoop (fuel : Nat) (h : Heap) : List (List (List String)) → List (List Nat) →
    Option (List (List (List String)))
  | result, [] => some result
  | result, solution :: rest =>
    obind (resolveSolution fuel h [] solution) fun aResolved =>
    resolveLoop fuel h (result ++ [aResolved]) rest

def ResolveSolutions (fuel : Nat) (h : Heap) (solutions : List (List Nat)) :
    Option (List (List (List String))) :=
  resolveLoop fuel h [] solutions

end Dlx

namespace Dlx

/-! ## The matrix and the addresses of its cells -/

/-- The entry of the matrix at row `i`, column `j`; false outside the matrix. -/
def entry (matrix : List (List Bool)) (i j : Nat) : Bool := (matrix.getD i []).getD j false

/-- The number of true entries of row `i` in the columns before `j`. -/
def rowCount (ent : Nat → Nat → Bool) (i j : Nat) : Nat := ((List.range j).filter (ent i)).length

/-- The number of true entries in the rows before `i`, columns `0..K-1`. -/
def cellsBefore (ent : Nat → Nat → Bool) (K i : Nat) : Nat :=
  ((List.range i).map fun i1 => rowCount ent i1 K).sum

/-- The address of the root: the first object that `initColumnHeaders` allocates. -/
def rootAddr : Nat := 1

/-- The address of the header of column `j`: the headers are allocated after the root,
in the order of the names. -/
def colAddr (j : Nat) : Nat := j + 2

/-- The address of the cell of the true entry `(i, j)`: `initNodes` allocates the cells
after the `K` headers, row by row and left to right. -/
def cellAddr (ent : Nat → Nat → Bool) (K i j : Nat) : Nat :=
  K + 2 + (cellsBefore ent K i + rowCount ent i j)

/-! ## Exact covers -/

/-- The rows `rows` (a list without repetition of row numbers) are an exact cover:
every column has exactly one selected row with a true entry. -/
def ExactCover (ent : Nat → Nat → Bool) (R K : Nat) (rows : List Nat) : Prop :=
  rows.Nodup ∧ (∀ i ∈ rows, i < R) ∧ ∀ j < K, (rows.filter fun i => ent i j).length = 1

instance (ent : Nat → Nat → Bool) (R K : Nat) (rows : List Nat) :
    Decidable (ExactCover ent R K rows) := by
  unfold ExactCover; infer_instance

/-- A matrix is rectangular, of width `K`. -/
def Rectangular (matrix : List (List Bool)) (K : Nat) : Prop := ∀ row ∈ matrix, row.length = K

instance (matrix : List (List Bool)) (K : Nat) : Decidable (Rectangular matrix K) := by
  unfold Rectangular; infer_instance

/-! ## Rings -/

/-- The objects `xs` are linked in this order between `a` and `b`: `nxt` leads from `a`
through `xs` to `b`, and `prv` leads back. -/
def Chain (nxt prv : Nat → Nat) : Nat → List Nat → Nat → Prop
  | a, [], b => nxt a = b ∧ prv b = a
  | a, x :: xs, b => nxt a = x ∧ prv x = a ∧ Chain nxt prv x xs b

instance Chain.decidable (nxt prv : Nat → Nat) : (a : Nat) → (xs : List Nat) → (b : Nat) →
    Decidable (Chain nxt prv a xs b)
  | a, [], b => by unfold Chain; infer_instance
  | a, x :: xs, b => by
    unfold Chain
    have := Chain.decidable nxt prv x xs b
    infer_instance

/-- The different objects `l` form a ring in this order: `nxt` leads from each to the
next and from the last to the first, and `prv` leads back. -/
def Ring (nxt prv : Nat → Nat) (l : List Nat) : Prop :=
  l.Nodup ∧ match l with
    | [] => True
    | a :: xs => Chain nxt prv a xs a

instance (nxt prv : Nat → Nat) (l : List Nat) : Decidable (Ring nxt prv l) := by
  unfold Ring
  cases l <;> infer_instance

end Dlx

namespace Dlx

/-! ## The shape of the mesh -/

/-- The columns of the true entries of row `i`, in increasing order. -/
def rowCols (ent : Nat → Nat → Bool) (K i : Nat) : List Nat := (List.range K).filter (ent i)

/-- The columns of the true entries of row `i` other than `d`, in the order in which
`right` visits them from the cell of column `d`: the later ones, then the earlier ones. -/
def rowOthers (ent : Nat → Nat → Bool) (K i d : Nat) : List Nat :=
  (rowCols ent K i).filter (fun j => d < j) ++ (rowCols ent K i).filter (fun j => j < d)

/-- The cells have different addresses, after those of the root and the headers. -/
structure AddrOk (K : Nat) (addr : Nat → Nat → Nat) (ent : Nat → Nat → Bool) : Prop where
  inj : ∀ i j i1 j1, j < K → j1 < K → ent i j = true → ent i1 j1 = true →
    addr i j = addr i1 j1 → i = i1 ∧ j = j1
  ge : ∀ i j, K + 2 ≤ addr i j

/-- The mesh `h` has this shape: the headers of the columns `act` are in the ring of the
root, in this order; the column ring of every column `d` holds, under its header, the
cells of the rows `V d`, in this order, and its size is their number; the cells of every
row form a ring, in the order of the columns; every cell refers to its header. -/
structure Shape (K : Nat) (addr : Nat → Nat → Nat) (ent : Nat → Nat → Bool)
    (names : List String) (act : List Nat) (V : Nat → List Nat) (h : Heap) : Prop where
  root_is : h.isColumn rootAddr = true
  hring : Ring h.right h.left (rootAddr :: act.map colAddr)
  act_lt : ∀ d ∈ act, d < K
  col_is : ∀ d, d < K → h.isColumn (colAddr d) = true
  col_col : ∀ d, d < K → h.column (colAddr d) = colAddr d
  col_name : ∀ d, d < K → h.name (colAddr d) = names.getD d ""
  vring : ∀ d, d < K → Ring h.down h.up (colAddr d :: (V d).map fun i => addr i d)
  vent : ∀ d, d < K → ∀ i ∈ V d, ent i d = true
  size : ∀ d, d < K → h.size (colAddr d) = (V d).length
  cell_col : ∀ i j, j < K → ent i j = true → h.column (addr i j) = colAddr j
  cell_is : ∀ i j, j < K → ent i j = true → h.isColumn (addr i j) = false
  rring : ∀ i, Ring h.right h.left ((rowCols ent K i).map (addr i))

/-- The memory after the three statements of `coverColumn` on the cell `j`. -/
def unlinkPure (h : Heap) (j : Nat) : Heap :=
  { h with
    up := upd h.up (h.down j) (h.up j)
    down := upd h.down (h.up j) (h.down j)
    size := upd h.size (h.column j) (h.size (h.column j) - 1) }

/-- The memory after the two statements of `coverColumn` on the header `c`. -/
def unlinkHeader (h : Heap) (c : Nat) : Heap :=
  { h with
    left := upd h.left (h.right c) (h.left c)
    right := upd h.right (h.left c) (h.right c) }

/-- The rows of `V d` that are left once the cells `ps` (row, column) are taken out. -/
def Vrem (V : Nat → List Nat) (ps : List (Nat × Nat)) : Nat → List Nat :=
  fun d => (V d).filter fun i => (i, d) ∉ ps

/-- The cells (row, column) that `coverColumn` takes out for the rows `rows` of column `d`,
in the order of the two loops. -/
def coverOps (ent : Nat → Nat → Bool) (K d : Nat) (rows : List Nat) : List (Nat × Nat) :=
  rows.flatMap fun i => (rowOthers ent K i d).map fun j => (i, j)

/-- The memory after taking out the cells `ps`. -/
def unlinkAll (addr : Nat → Nat → Nat) (h : Heap) (ps : List (Nat × Nat)) : Heap :=
  ps.foldl (fun h1 p => unlinkPure h1 (addr p.1 p.2)) h

/-- The memory after `coverColumn` on the header of column `d`, from its rows. -/
def coverPure (addr : Nat → Nat → Nat) (ent : Nat → Nat → Bool) (K : Nat) (h : Heap)
    (d : Nat) (rows : List Nat) : Heap :=
  unlinkAll addr (unlinkHeader h (colAddr d)) (coverOps ent K d rows)

/-! ## The mesh of a matrix with some columns covered -/

/-- Row `i` has no true entry in the columns `C`. -/
def aliveRow (ent : Nat → Nat → Bool) (C : List Nat) (i : Nat) : Bool := C.all fun c => !ent i c

/-- The columns that are not covered, in increasing order. -/
def actCols (K : Nat) (C : List Nat) : List Nat := (List.range K).filter fun d => decide (d ∉ C)

/-- The rows in the column ring of `d`, when the columns `C` have been covered in this
order: the rows with a true entry in column `d` and none in the columns covered before
`d` was (all of `C` when `d` is not covered). -/
def colRows (ent : Nat → Nat → Bool) (R : Nat) (C : List Nat) (d : Nat) : List Nat :=
  (List.range R).filter fun i => ent i d && aliveRow ent (C.takeWhile fun c => decide (c ≠ d)) i

/-- The mesh `h` is that of the matrix `ent` (of `R` rows and `K` columns), with the
columns `C` covered in this order. -/
def Repr (R K : Nat) (ent : Nat → Nat → Bool) (names : List String) (C : List Nat)
    (h : Heap) : Prop :=
  Shape K (cellAddr ent K) ent names (actCols K C) (colRows ent R C) h

end Dlx

namespace Dlx

/-- The memory after `coverColumn` on the header of the column `d` of the mesh of a matrix
with the columns `C` covered. -/
def coverM (ent : Nat → Nat → Bool) (R K : Nat) (C : List Nat) (h : Heap) (d : Nat) : Heap :=
  coverPure (cellAddr ent K) ent K h d (colRows ent R C d)

/-- The memory after `coverColumn` on the headers of the columns `ds`, one after the
other. -/
def coverManyM (ent : Nat → Nat → Bool) (R K : Nat) : List Nat → Heap → List Nat → Heap
  | _, h, [] => h
  | C, h, d :: ds => coverManyM ent R K (C ++ [d]) (coverM ent R K C h d) ds

end Dlx

namespace Dlx

/-! ## The mesh while it is built -/

/-- The matrix with only its entries before `(i, j)`, in the order of the rows and then of
the columns: the entries for which `initNodes` has made the cells when it reaches `(i, j)`. -/
def truncEnt (ent : Nat → Nat → Bool) (i j : Nat) : Nat → Nat → Bool :=
  fun i1 j1 => ent i1 j1 && (decide (i1 < i) || (decide (i1 = i) && decide (j1 < j)))

/-- The rows in the column ring of `d` when `initNodes` reaches `(i, j)`. -/
def buildRows (ent : Nat → Nat → Bool) (i j d : Nat) : List Nat :=
  (List.range i).filter (fun i1 => ent i1 d) ++ (if d < j ∧ ent i d = true then [i] else [])

/-- The memory after the body of the column loop of `initNodes` for a true entry: the new
cell `n` is under `upper` in the ring of the header `a`, and after `last` in the ring of
its row, which begins with `first`, or alone in its row. -/
def insertCell (h : Heap) (n a upper : Nat) (inRow : Bool) (first last : Nat) : Heap :=
  { count := n
    isColumn := upd h.isColumn n false
    left := if inRow then upd (upd h.left first n) n last else upd h.left n n
    right := if inRow then upd (upd h.right n first) last n else upd h.right n n
    up := upd (upd h.up a n) n upper
    down := upd (upd h.down n a) upper n
    column := upd h.column n a
    size := upd (upd h.size n 0) a (h.size a + 1)
    name := upd h.name n "" }

/-- The memory after one turn of the loop of `initColumnHeaders`: the new header `n`, of
name `name`, is after `last` in the ring of the root. -/
def insertHeader (h : Heap) (n last : Nat) (name : String) : Heap :=
  { count := n
    isColumn := upd h.isColumn n true
    left := upd (upd h.left rootAddr n) n last
    right := upd (upd h.right n rootAddr) last n
    up := upd h.up n n
    down := upd h.down n n
    column := upd h.column n n
    size := upd h.size n 0
    name := upd h.name n name }

/-- What holds when `initNodes` reaches the entry `(i, j)`. -/
structure CellInv (ent : Nat → Nat → Bool) (K : Nat) (names : List String) (i j : Nat)
    (v : RowVars) : Prop where
  count : v.heap.count = K + 1 + (cellsBefore ent K i + rowCount ent i j)
  shape : Shape K (cellAddr ent K) (truncEnt ent i j) names (List.range K) (buildRows ent i j)
    v.heap
  flag : v.isThereNodeInRow = decide (0 < rowCount ent i j)
  left : ∀ first rest, (List.range j).filter (ent i) = first :: rest →
    v.leftNode = cellAddr ent K i ((first :: rest).getLast (List.cons_ne_nil _ _))

end Dlx

namespace Dlx

/-! ## The choice of the column -/

/-- The headers `cols` are the ring of `header`, in this order, and are column headers. -/
structure HeaderRing (h : Heap) (header : Nat) (cols : List Nat) : Prop where
  ring : Ring h.right h.left (header :: cols)
  header_ne : header ≠ 0
  col_ne : ∀ c ∈ cols, c ≠ 0
  col_is : ∀ c ∈ cols, h.isColumn c = true

/-- The scan of `chooseColumn` over the headers `js`, from the size and the column kept so
far. -/
def pickMin (sz : Nat → Int) : Int × Nat → List Nat → Int × Nat
  | st, [] => st
  | st, j :: js => pickMin sz (if st.1 > sz j then (sz j, j) else st) js

/-- The header `c` is the first one of least size in the list `cols`: it is at some place
`k`, no header is smaller, and the headers before place `k` are larger. -/
def FirstMin (sz : Nat → Int) (cols : List Nat) (c : Nat) : Prop :=
  ∃ k : Nat, cols[k]? = some c ∧ (∀ (m x : Nat), cols[m]? = some x → sz c ≤ sz x) ∧
    ∀ (m x : Nat), m < k → cols[m]? = some x → sz c < sz x

end Dlx

namespace Dlx

/-! ## Exact covers of the matrix with some columns covered -/

/-- The set `S` of rows is an exact cover of what is left of the matrix when the columns
`C` are covered: its rows have no true entry in the columns `C`, and every other column has
exactly one row of `S` with a true entry. -/
def IsCover (ent : Nat → Nat → Bool) (R K : Nat) (C : List Nat) (S : Finset Nat) : Prop :=
  (∀ i ∈ S, i < R ∧ aliveRow ent C i = true) ∧
    ∀ j, j < K → j ∉ C → (S.filter fun i => ent i j = true).card = 1

instance (ent : Nat → Nat → Bool) (R K : Nat) (C : List Nat) (S : Finset Nat) :
    Decidable (IsCover ent R K C S) := by
  unfold IsCover; infer_instance

/-- No row of `S` is all false. -/
def NoEmptyRow (ent : Nat → Nat → Bool) (K : Nat) (S : Finset Nat) : Prop :=
  ∀ i ∈ S, ∃ j, j < K ∧ ent i j = true

instance (ent : Nat → Nat → Bool) (K : Nat) (S : Finset Nat) : Decidable (NoEmptyRow ent K S) := by
  unfold NoEmptyRow; infer_instance

/-- The exact covers, without all-false rows, of what is left of the matrix when the
columns `C` are covered. -/
def coverSets (ent : Nat → Nat → Bool) (R K : Nat) (C : List Nat) : Finset (Finset Nat) :=
  (Finset.range R).powerset.filter fun S => IsCover ent R K C S ∧ NoEmptyRow ent K S

/-- The covered columns once the row `i` is chosen in the column `d`. -/
def pickCols (ent : Nat → Nat → Bool) (K : Nat) (C : List Nat) (d i : Nat) : List Nat :=
  C ++ [d] ++ rowOthers ent K i d

end Dlx

namespace Dlx

/-- The result of `searchOnlySolution` is a success: no error, the ring of the root is
empty, and the solution is made of one cell of each row of an exact cover of what was left
of the matrix. -/
def OnlySuccess (ent : Nat → Nat → Bool) (R K : Nat) (C : List Nat)
    (res : Heap × List Nat × GoError) : Prop :=
  res.2.2 = none ∧ res.1.right rootAddr = rootAddr ∧
    ∃ picks : List (Nat × Nat), res.2.1 = picks.map (fun p => cellAddr ent K p.1 p.2) ∧
      (∀ p ∈ picks, p.1 < R ∧ p.2 < K ∧ ent p.1 p.2 = true) ∧
      (picks.map Prod.fst).Nodup ∧ IsCover ent R K C (picks.map Prod.fst).toFinset

/-- The result of `searchOnlySolution` is a failure: an error, the memory `h` as it was,
an empty solution, and there is no exact cover of what was left of the matrix. -/
def OnlyFailure (ent : Nat → Nat → Bool) (R K : Nat) (C : List Nat) (h : Heap)
    (res : Heap × List Nat × GoError) : Prop :=
  res.2.2 ≠ none ∧ res.1 = h ∧ res.2.1 = [] ∧ ¬ ∃ S, IsCover ent R K C S

end Dlx

namespace Dlx

/-! ## Whole runs -/

/-- A fuel with which `Initialize` and both searches return on a matrix of `R` rows and
`K` columns. -/
def searchFuel (R K : Nat) : Nat := K * (R + 2) + R + K + 2

/-- `Initialize` and then, when it gives no error, the function of `SearchFunction getAll`
called on the returned root: the returned `[][]dlxNode`. -/
def searchResult (grow : Nat → Nat) (fuel : Nat) (getAll : Bool) (matrix : List (List Bool))
    (columnNames : List String) : Option (List (List Nat)) :=
  obind (Initialize fuel matrix columnNames) fun b =>
  if b.2.2 = none then
    obind ((SearchFunction getAll).call grow fuel b.1 [] b.2.1) fun r => some r.result
  else none

/-- `Initialize`, the function of `SearchFunction getAll` called on the returned root, and
`ResolveSolutions` on what it returns. -/
def resolvedResult (grow : Nat → Nat) (fuel : Nat) (getAll : Bool) (matrix : List (List Bool))
    (columnNames : List String) : Option (List (List (List String))) :=
  obind (Initialize fuel matrix columnNames) fun b =>
  if b.2.2 = none then
    obind ((SearchFunction getAll).call grow fuel b.1 [] b.2.1) fun r =>
    ResolveSolutions fuel r.heap r.result
  else none

/-- Calls of `coverColumn` on the headers `cs`, one after the other. -/
def coverSeq (fuel : Nat) : Heap → List Nat → Option Heap
  | h, [] => some h
  | h, c :: cs => obind (coverColumn fuel h c) fun h1 => coverSeq fuel h1 cs

/-- The number of rows of the matrix whose entry in column `j` is true. -/
def colCount (matrix : List (List Bool)) (j : Nat) : Nat :=
  (matrix.filter fun row => row.getD j false).length

/-- The mesh that `Initialize` builds for the matrix with the rows `[1,1]` and `[1,0]` and
the columns `a` and `b`. -/
def exampleHeap : Heap :=
  match Initialize 2 [[true, true], [true, false]] ["a", "b"] with
  | some b => b.1
  | none => Heap.empty

/-- The facts about the places of the mesh that the body of the column loop touches. -/
structure CellSite (ent : Nat → Nat → Bool) (K i j : Nat) (v : RowVars) (upper first : Nat) :
    Prop where
  n_eq : v.heap.count + 1 = cellAddr ent K i j
  upper_mem : upper ∈ colAddr j :: (buildRows ent i j j).map fun i1 => cellAddr ent K i1 j
  upper_last : upper = (colAddr j :: (buildRows ent i j j).map fun i1 => cellAddr ent K i1 j).getLast
    (List.cons_ne_nil _ _)
  upper_down : v.heap.down upper = colAddr j
  row_nil : v.isThereNodeInRow = false → (List.range j).filter (ent i) = []
  row_cons : v.isThereNodeInRow = true → ∃ fc rc, (List.range j).filter (ent i) = fc :: rc ∧
    first = cellAddr ent K i fc ∧
    v.leftNode = cellAddr ent K i ((fc :: rc).getLast (List.cons_ne_nil _ _)) ∧
    v.heap.right v.leftNode = first

end Dlx

namespace Dlx

/-! ## Two calls of one search function -/

/-- `Initialize`, `f := SearchFunction(true)`, and then two calls `f(root)`, the second one
in the memory and with the captured variables that the first one leaves: the two returned
`[][]dlxNode`, each read at its return. -/
def searchTwice (grow : Nat → Nat) (fuel : Nat) (matrix : List (List Bool))
    (columnNames : List String) : Option (List (List Nat) × List (List Nat)) :=
  obind (Initialize fuel matrix columnNames) fun b =>
  if b.2.2 = none then
    obind ((SearchFunction true).call grow fuel b.1 [] b.2.1) fun r1 =>
    obind (r1.fn.call grow fuel r1.heap r1.arrays b.2.1) fun r2 =>
    some (r1.result, r2.result)
  else none

end Dlx

namespace Dlx

/-! ## `ResolveSolutions` as a run on the memory -/

/-- What a call of `ResolveSolutions` can reach: the memory of the mesh, and the value of
`*solutions`. -/
structure ResolveState where
  heap : Heap
  solutions : List (List Nat)

/-- The method `getColumn` as a step of a run: `return n.column`, the state is left as it
is found. -/
def getColumnStep (s : ResolveState) (n : Nat) : Option (ResolveState × Nat) :=
  obind (getColumn s.heap n) fun c => some (s, c)

/-- The method `getName` as a step of a run: `return n.name`. -/
def getNameStep (s : ResolveState) (n : Nat) : Option (ResolveState × String) :=
  obind (getName s.heap n) fun name => some (s, name)

/-- The method `getRight` as a step of a run: `return n.right`. -/
def getRightStep (s : ResolveState) (n : Nat) : Option (ResolveState × Nat) :=
  obind (getRight s.heap n) fun r => some (s, r)

/-- The inner `for` of `ResolveSolutions`, every statement a step on the state. The
strings go to the new slice `rowResult`, which is no part of the state. -/
def resolveRowRun (row firstRow : Nat) :
    Nat → ResolveState → List String → Option (ResolveState × List String)
  | 0, _, _ => none
  | fuel + 1, s, rowResult =>
    obind (getColumnStep s row) fun v1 =>
    obind (getNameStep v1.1 v1.2) fun v2 =>
    obind (getRightStep v2.1 row) fun v3 =>
    if row = firstRow then some (v3.1, rowResult ++ [v2.2])
    else resolveRowRun row firstRow fuel v3.1 (rowResult ++ [v2.2])

/-- The loop `for _, row := range solution`, on the state. -/
def resolveSolutionRun (fuel : Nat) :
    ResolveState → List (List String) → List Nat → Option (ResolveState × List (List String))
  | s, aResolved, [] => some (s, aResolved)
  | s, aResolved, row :: rest =>
    obind (resolveRowRun row row fuel s []) fun v =>
    resolveSolutionRun fuel v.1 (aResolved ++ [v.2]) rest

/-- The loop `for _, solution := range *solutions`, on the state; the range expression
has been read once, before the loop. -/
def resolveLoopRun (fuel : Nat) :
    ResolveState → List (List (List String)) → List (List Nat) →
      Option (ResolveState × List (List (List String)))
  | s, result, [] => some (s, result)
  | s, result, solution :: rest =>
    obind (resolveSolutionRun fuel s [] solution) fun v =>
    resolveLoopRun fuel v.1 (result ++ [v.2]) rest

/-- The call `ResolveSolutions(solutions)` as a run: the state that it leaves and the
output. -/
def ResolveSolutionsRun (fuel : Nat) (s : ResolveState) :
    Option (ResolveState × List (List (List String))) :=
  resolveLoopRun fuel s [] s.solutions

/-- Two calls of `ResolveSolutions` one after the other, the second one on the state that
the first one leaves: the two outputs. -/
def resolveTwiceRun (fuel : Nat) (s : ResolveState) :
    Option (List (List (List String)) × List (List (List String))) :=
  obind (ResolveSolutionsRun fuel s) fun v1 =>
  obind (ResolveSolutionsRun fuel v1.1) fun v2 =>
  some (v1.2, v2.2)

/-! ## The size invariant -/

/-- The sizes agree with the column rings: the headers `cols` are those of the ring of
`root`, and each of them is a column header whose size is the number of the cells in its
own ring, the header apart. -/
def SizeInv (h : Heap) (root : Nat) : Prop :=
  ∃ cols : List Nat, Ring h.right h.left (root :: cols) ∧
    ∀ c ∈ cols, ∃ cells : List Nat, Ring h.down h.up (c :: cells) ∧
      getSize h c = some (cells.length : Int)

/-! ## The cells in the slices -/

/-- The object `v` is the cell of a true entry. -/
def IsCell (ent : Nat → Nat → Bool) (K : Nat) (v : Nat) : Prop :=
  ∃ i j, j < K ∧ ent i j = true ∧ v = cellAddr ent K i j

/-- The slice `s` is within its backing array, and its elements are cells. -/
def SliceOk (ent : Nat → Nat → Bool) (K : Nat) (arrays : Arrays) (s : Slice) : Prop :=
  s.len ≤ s.cap ∧ s.cap ≤ (arrays.getD s.array []).length ∧
    ∀ k, k < s.len → ∃ v, (arrays.getD s.array [])[k]? = some v ∧ IsCell ent K v

/-! ## The searches with a log of their calls -/

/-- One call of a search function: its depth in the recursion, and the memory at its
entry. -/
structure CallEntry where
  depth : Nat
  heap : Heap

/-- The function `searchAllSolution` with a log of its calls, which is not in the Go code:
every call adds its depth and the memory that it finds to the log, and does what
`searchAllSolution` does. -/
def searchAllTrace (grow : Nat → Nat) :
    Nat → Nat → AllState × List CallEntry → Nat → Slice → Option (AllState × List CallEntry)
  | 0, _, _, _, _ => none
  | fuel + 1, depth, w, header, solution =>
    obind (getRight w.1.heap header) fun r0 =>
    if r0 = header then
      some ({ w.1 with solutions := w.1.solutions ++ [solution] },
        w.2 ++ [{ depth := depth, heap := w.1.heap }])
    else
      obind (chooseColumn fuel w.1.heap header) fun c =>
      obind (coverColumn fuel w.1.heap c) fun h1 =>
      obind (getDown h1 c) fun r =>
      obind (forRing (fun (v : (AllState × List CallEntry) × Slice) r => getDown v.1.1.heap r)
        (fun v r =>
          let app := appendSlice grow v.1.1.arrays v.2 r
          obind (coverRowColumns fuel v.1.1.heap r) fun h2 =>
          obind (searchAllTrace grow fuel (depth + 1)
              ({ v.1.1 with heap := h2, arrays := app.1 }, v.1.2) header app.2) fun w1 =>
          obind (uncoverRowColumns fuel w1.1.heap r) fun h3 =>
          some (({ w1.1 with heap := h3 }, w1.2), { app.2 with len := app.2.len - 1 }))
        c fuel (({ w.1 with heap := h1 }, w.2 ++ [{ depth := depth, heap := w.1.heap }]),
          solution) r) fun v =>
      obind (getColumn v.1.1.heap c) fun cc =>
      obind (uncoverColumn fuel v.1.1.heap cc) fun h4 =>
      some ({ v.1.1 with heap := h4 }, v.1.2)

mutual

/-- The function `searchOnlySolution` with a log of its calls, which is not in the Go code:
every call adds its depth and the memory that it finds to the log, and does what
`searchOnlySolution` does. -/
def searchOnlyTrace : Nat → Nat → Heap → List CallEntry → Nat →
    Option ((Heap × List Nat × GoError) × List CallEntry)
  | 0, _, _, _, _ => none
  | fuel + 1, depth, h, log, header =>
    obind (getRight h header) fun r0 =>
    if r0 = header then some ((h, [], none), log ++ [{ depth := depth, heap := h }])
    else
      obind (chooseColumn fuel h header) fun c =>
      obind (coverColumn fuel h c) fun h1 =>
      obind (getDown h1 c) fun r =>
      searchOnlyRowsTrace fuel depth h1 (log ++ [{ depth := depth, heap := h }]) header c [] r

/-- The loop `for r != c` of `searchOnlySolution`, with the log. -/
def searchOnlyRowsTrace : Nat → Nat → Heap → List CallEntry → Nat → Nat → List Nat → Nat →
    Option ((Heap × List Nat × GoError) × List CallEntry)
  | 0, _, _, _, _, _, _, _ => none
  | fuel + 1, depth, h, log, header, c, solution, r =>
    if r = c then
      obind (getColumn h c) fun cc =>
      obind (uncoverColumn fuel h cc) fun h1 =>
      some ((h1, solution, some "this node is not a solution"), log)
    else
      obind (coverRowColumns fuel h r) fun h1 =>
      obind (searchOnlyTrace fuel (depth + 1) h1 log header) fun res =>
      if res.1.2.2 = none then some ((res.1.1, (solution ++ [r]) ++ res.1.2.1, none), res.2)
      else
        obind (uncoverRowColumns fuel res.1.1 r) fun h2 =>
        obind (getDown h2 r) fun r1 =>
        searchOnlyRowsTrace fuel depth h2 res.2 header c (solution ++ [r]).dropLast r1

end

end Dlx

namespace Dlx

/-! ## Field tables -/

@[simp] theorem upd_same {α : Type} (f : Nat → α) (a : Nat) (v : α) : upd f a v a = v := by
  simp [upd]

theorem upd_ne {α : Type} (f : Nat → α) {a x : Nat} (v : α) (hx : x ≠ a) : upd f a v x = f x := by
  simp [upd, hx]

theorem upd_apply {α : Type} (f : Nat → α) (a x : Nat) (v : α) :
    upd f a v x = if x = a then v else f x := rfl

@[simp] theorem upd_upd_same {α : Type} (f : Nat → α) (a : Nat) (v w : α) :
    upd (upd f a v) a w = upd f a w := by
  funext x; by_cases hx : x = a <;> simp [upd, hx]

@[simp] theorem upd_upd_upd_same {α : Type} (f : Nat → α) (a b : Nat) (v w u : α) :
    upd (upd (upd f a v) b w) a u = upd (upd f b w) a u := by
  funext x; by_cases hx : x = a <;> simp [upd, hx]

theorem upd_eq_self {α : Type} (f : Nat → α) (a : Nat) (v : α) (hv : f a = v) : upd f a v = f := by
  funext x; by_cases hx : x = a
  · subst hx; simp [hv]
  · simp [upd, hx]

/-! ## Sequencing -/

@[simp] theorem obind_some {α β : Type} (a : α) (f : α → Option β) : obind (some a) f = f a := rfl

@[simp] theorem obind_none {α β : Type} (f : α → Option β) : obind none f = none := rfl

theorem obind_eq_some {α β : Type} {x : Option α} {f : α → Option β} {b : β} :
    obind x f = some b ↔ ∃ a, x = some a ∧ f a = some b := by
  cases x <;> simp

/-! ## The loop rule -/

/-- The rule of the loop `forRing`: `I rem s` holds of the state `s` when the objects
`rem` remain to be visited; one turn of the loop visits the first of them and leaves the
pointer on the next one, or on `stop` after the last one. -/
theorem forRing_rule {σ : Type} (next : σ → Nat → Option Nat) (body : σ → Nat → Option σ)
    (stop : Nat) (I : List Nat → σ → Prop)
    (hstep : ∀ y ys s, I (y :: ys) s →
      y ≠ stop ∧ ∃ s1, body s y = some s1 ∧ next s1 y = some (ys.headD stop) ∧ I ys s1) :
    ∀ (xs : List Nat) (s : σ) (fuel : Nat), xs.length < fuel → I xs s →
      ∃ s1, forRing next body stop fuel s (xs.headD stop) = some s1 ∧ I [] s1 := by
  intro xs
  induction xs with
  | nil =>
    intro s fuel hf hI
    cases fuel with
    | zero => simp at hf
    | succ fuel => exact ⟨s, by simp [forRing], hI⟩
  | cons y ys ih =>
    intro s fuel hf hI
    cases fuel with
    | zero => simp at hf
    | succ fuel =>
      obtain ⟨hy, s1, hb, hn, hI1⟩ := hstep y ys s hI
      obtain ⟨s2, h2, hI2⟩ := ih s1 fuel (by simpa using hf) hI1
      refine ⟨s2, ?_, hI2⟩
      simp only [forRing, List.headD_cons, if_neg hy, hb, obind_some, hn]
      exact h2

/-! ## Chains and rings -/

theorem Chain.append {nxt prv : Nat → Nat} {a b y : Nat} {xs ys : List Nat} :
    Chain nxt prv a (xs ++ y :: ys) b ↔ Chain nxt prv a xs y ∧ Chain nxt prv y ys b := by
  induction xs generalizing a with
  | nil => simp [Chain, and_assoc]
  | cons x xs ih => simp [Chain, ih, and_assoc]

theorem Chain.snoc {nxt prv : Nat → Nat} {a b y : Nat} {xs : List Nat} :
    Chain nxt prv a (xs ++ [y]) b ↔ Chain nxt prv a xs y ∧ nxt y = b ∧ prv b = y := by
  rw [Chain.append]; simp [Chain]

theorem Chain.congr_fields {nxt prv nxt1 prv1 : Nat → Nat} {a b : Nat} {xs : List Nat}
    (hn : ∀ x ∈ a :: xs, nxt1 x = nxt x) (hp : ∀ x ∈ xs ++ [b], prv1 x = prv x)
    (hc : Chain nxt prv a xs b) : Chain nxt1 prv1 a xs b := by
  induction xs generalizing a with
  | nil =>
    simp only [Chain] at hc ⊢
    exact ⟨by rw [hn a (by simp)]; exact hc.1, by rw [hp b (by simp)]; exact hc.2⟩
  | cons x xs ih =>
    simp only [Chain] at hc ⊢
    refine ⟨by rw [hn a (by simp)]; exact hc.1, by rw [hp x (by simp)]; exact hc.2.1, ?_⟩
    exact ih (fun z hz => hn z (List.mem_cons_of_mem _ hz))
      (fun z hz => hp z (by simp at hz ⊢; tauto)) hc.2.2

theorem Chain.rev {nxt prv : Nat → Nat} {a b : Nat} {xs : List Nat}
    (hc : Chain nxt prv a xs b) : Chain prv nxt b xs.reverse a := by
  induction xs generalizing a with
  | nil => simp only [Chain, List.reverse_nil] at hc ⊢; exact ⟨hc.2, hc.1⟩
  | cons x xs ih =>
    simp only [Chain] at hc
    rw [List.reverse_cons, Chain.snoc]
    exact ⟨ih hc.2.2, hc.2.1, hc.1⟩

theorem Chain.next_head {nxt prv : Nat → Nat} {a b : Nat} {xs : List Nat}
    (hc : Chain nxt prv a xs b) : nxt a = xs.headD b := by
  cases xs with
  | nil => exact hc.1
  | cons x xs => exact hc.1

/-- In a chain, `nxt` leads from a member to the member after it, or to the end. -/
theorem Chain.next_mid {nxt prv : Nat → Nat} {a b y : Nat} {pre ys : List Nat}
    (hc : Chain nxt prv a (pre ++ y :: ys) b) : nxt y = ys.headD b :=
  (Chain.append.1 hc).2.next_head

theorem Chain.prev_last {nxt prv : Nat → Nat} {a b : Nat} {xs : List Nat}
    (hc : Chain nxt prv a xs b) : prv b = (a :: xs).getLast (by simp) := by
  induction xs generalizing a with
  | nil => exact hc.2
  | cons x xs ih =>
    simp only [Chain] at hc
    rw [ih hc.2.2]
    simp [List.getLast_cons]

theorem Chain.prev_mid {nxt prv : Nat → Nat} {a b y : Nat} {pre ys : List Nat}
    (hc : Chain nxt prv a (pre ++ y :: ys) b) : prv y = (a :: pre).getLast (by simp) :=
  (Chain.append.1 hc).1.prev_last

theorem getLast_cons_mem {a : Nat} {xs : List Nat} (hxs : xs ≠ []) :
    (a :: xs).getLast (by simp) ∈ xs := by
  rw [List.getLast_cons hxs]
  exact List.getLast_mem hxs

/-- Taking `x` out of a chain: its neighbours are linked to each other. -/
theorem Chain.unlink_mid {nxt prv : Nat → Nat} {a b x : Nat} {pre post : List Nat}
    (hc : Chain nxt prv a (pre ++ x :: post) b)
    (hnd : (a :: (pre ++ x :: post)).Nodup) (hnd2 : (pre ++ x :: post ++ [b]).Nodup) :
    Chain (upd nxt (prv x) (nxt x)) (upd prv (nxt x) (prv x)) a (pre ++ post) b := by
  induction pre generalizing a with
  | nil =>
    simp only [List.nil_append, Chain] at hc
    obtain ⟨h1, h2, h3⟩ := hc
    simp only [List.nil_append] at hnd hnd2 ⊢
    rw [h2]
    cases post with
    | nil =>
      simp only [Chain] at h3 ⊢
      rw [h3.1]; simp
    | cons y post =>
      simp only [Chain] at h3 ⊢
      obtain ⟨h4, h5, h6⟩ := h3
      rw [h4]
      refine ⟨by simp, by simp, ?_⟩
      refine Chain.congr_fields ?_ ?_ h6
      · intro z hz
        have : z ≠ a := by
          rintro rfl
          simp only [List.nodup_cons, List.mem_cons] at hnd hz
          tauto
        simp [upd, this]
      · intro z hz
        have : z ≠ y := by
          rintro rfl
          simp only [List.cons_append, List.nodup_cons, List.mem_append, List.mem_singleton,
            List.mem_cons] at hnd2 hz
          tauto
        simp [upd, this]
  | cons z pre ih =>
    simp only [List.cons_append, Chain] at hc
    obtain ⟨h1, h2, h3⟩ := hc
    have hx : prv x ∈ z :: pre := by
      rw [h3.prev_mid]
      cases pre with
      | nil => simp
      | cons w pre => exact List.mem_cons_of_mem _ (getLast_cons_mem (by simp))
    have hq : nxt x ∈ post ++ [b] := by
      rw [h3.next_mid]
      cases post <;> simp
    simp only [List.cons_append, Chain]
    refine ⟨?_, ?_, ?_⟩
    · have : a ≠ prv x := by
        rintro h
        rw [← h] at hx
        simp only [List.cons_append, List.nodup_cons, List.mem_cons, List.mem_append] at hnd hx
        tauto
      simp [upd, this, h1]
    · have : z ≠ nxt x := by
        rintro h
        rw [← h] at hq
        simp only [List.cons_append, List.nodup_cons, List.mem_cons, List.mem_append,
          List.mem_singleton] at hnd2 hq
        tauto
      simp [upd, this, h2]
    · exact ih h3 (List.Nodup.of_cons hnd) (by
        simp only [List.cons_append] at hnd2; exact List.Nodup.of_cons hnd2)

/-- Putting the new object `n` in after the last one of a chain. -/
theorem Chain.insert_last {nxt prv : Nat → Nat} {a b n : Nat} {xs : List Nat}
    (hc : Chain nxt prv a xs b) (hnd : (a :: xs).Nodup) (hn : n ∉ a :: xs) (hnb : n ≠ b)
    (hb : b ∉ xs) :
    Chain (upd (upd nxt n b) ((a :: xs).getLast (by simp)) n)
      (upd (upd prv b n) n ((a :: xs).getLast (by simp))) a (xs ++ [n]) b := by
  induction xs generalizing a with
  | nil =>
    simp only [Chain] at hc
    simp only [List.mem_singleton] at hn
    simp only [List.getLast_singleton, List.nil_append, Chain, upd_same, true_and]
    refine ⟨?_, ?_⟩
    · simp [upd, hn]
    · simp [upd, Ne.symm hnb]
  | cons x xs ih =>
    simp only [Chain] at hc
    obtain ⟨h1, h2, h3⟩ := hc
    have hl : (a :: x :: xs).getLast (by simp) = (x :: xs).getLast (by simp) := by
      simp [List.getLast_cons]
    have hlm : (x :: xs).getLast (by simp) ∈ x :: xs := List.getLast_mem _
    simp only [List.cons_append, Chain]
    rw [hl]
    simp only [List.mem_cons, not_or] at hn hb
    refine ⟨?_, ?_, ?_⟩
    · have h4 : a ≠ (x :: xs).getLast (by simp) := by
        intro h
        rw [← h] at hlm
        exact (List.nodup_cons.1 hnd).1 hlm
      have h5 : a ≠ n := fun h => hn.1 h.symm
      simp [upd, h4, h5, h1]
    · have h4 : x ≠ n := fun h => hn.2.1 h.symm
      have h5 : x ≠ b := fun h => hb.1 h.symm
      simp [upd, h4, h5, h2]
    · exact ih h3 (List.Nodup.of_cons hnd) (by simp; tauto) hb.2

theorem Ring.nodup {nxt prv : Nat → Nat} {l : List Nat} (hr : Ring nxt prv l) : l.Nodup := hr.1

theorem Ring.chain {nxt prv : Nat → Nat} {a : Nat} {xs : List Nat} (hr : Ring nxt prv (a :: xs)) :
    Chain nxt prv a xs a := hr.2

theorem Ring.congr {nxt prv nxt1 prv1 : Nat → Nat} {l : List Nat}
    (hn : ∀ x ∈ l, nxt1 x = nxt x) (hp : ∀ x ∈ l, prv1 x = prv x)
    (hr : Ring nxt prv l) : Ring nxt1 prv1 l := by
  cases l with
  | nil => exact ⟨List.nodup_nil, trivial⟩
  | cons a xs =>
    refine ⟨hr.1, Chain.congr_fields hn (fun x hx => hp x ?_) hr.2⟩
    simp at hx ⊢; tauto

/-- A ring may be read from any of its members. -/
theorem Ring.rotate {nxt prv : Nat → Nat} {l1 l2 : List Nat} (hr : Ring nxt prv (l1 ++ l2)) :
    Ring nxt prv (l2 ++ l1) := by
  have hnd : (l2 ++ l1).Nodup := (List.nodup_append_comm).1 hr.1
  cases l1 with
  | nil => simpa using hr
  | cons a pre =>
    cases l2 with
    | nil => simpa using hr
    | cons y post =>
      refine ⟨hnd, ?_⟩
      have hc : Chain nxt prv a (pre ++ y :: post) a := hr.2
      have h1 := Chain.append.1 hc
      show Chain nxt prv y (post ++ a :: pre) y
      exact Chain.append.2 ⟨h1.2, h1.1⟩

theorem Ring.reverse {nxt prv : Nat → Nat} {a : Nat} {xs : List Nat}
    (hr : Ring nxt prv (a :: xs)) : Ring prv nxt (a :: xs.reverse) := by
  refine ⟨?_, hr.2.rev⟩
  have := hr.1
  simp only [List.nodup_cons, List.mem_reverse, List.nodup_reverse] at this ⊢
  exact this

/-- Taking the member `x` out of a ring: what the two statements of `coverColumn` do. -/
theorem Ring.unlink_node {nxt prv : Nat → Nat} {a x : Nat} {xs : List Nat}
    (hr : Ring nxt prv (a :: xs)) (hx : x ∈ xs) :
    Ring (upd nxt (prv x) (nxt x)) (upd prv (nxt x) (prv x)) (a :: xs.erase x) := by
  obtain ⟨pre, post, hsplit⟩ := List.append_of_mem hx
  subst hsplit
  have hnd := hr.1
  have hpre : x ∉ pre := by
    intro hmem
    have h1 := List.nodup_append.1 (List.nodup_cons.1 hnd).2
    exact h1.2.2 hmem (List.mem_cons_self _ _)
  have herase : (pre ++ x :: post).erase x = pre ++ post := by
    rw [List.erase_append_right _ hpre]; simp
  rw [herase]
  have hsub : (pre ++ post).Sublist (pre ++ x :: post) :=
    List.Sublist.append (List.Sublist.refl pre) (List.sublist_cons_self x post)
  refine ⟨hnd.sublist (hsub.cons₂ a), Chain.unlink_mid hr.2 hnd ?_⟩
  have h2 : ([a] ++ (pre ++ x :: post)).Nodup := hnd
  have h3 := List.nodup_append_comm.1 h2
  simpa using h3

end Dlx

namespace Dlx

/-! ## Members of a ring -/

theorem Ring.from_mem {nxt prv : Nat → Nat} {l : List Nat} {x : Nat} (hr : Ring nxt prv l)
    (hx : x ∈ l) : ∃ rest, Ring nxt prv (x :: rest) ∧ (∀ y, y ∈ x :: rest ↔ y ∈ l) ∧
      rest.length + 1 = l.length := by
  obtain ⟨pre, post, rfl⟩ := List.append_of_mem hx
  refine ⟨post ++ pre, ?_, ?_, ?_⟩
  · have := Ring.rotate hr
    simpa using this
  · intro y; simp only [List.mem_cons, List.mem_append]; tauto
  · simp; omega

theorem Ring.next_mem {nxt prv : Nat → Nat} {l : List Nat} {x : Nat} (hr : Ring nxt prv l)
    (hx : x ∈ l) : nxt x ∈ l := by
  obtain ⟨rest, h1, h2, _⟩ := hr.from_mem hx
  rw [← h2, h1.chain.next_head]
  cases rest <;> simp

theorem Ring.prev_next {nxt prv : Nat → Nat} {l : List Nat} {x : Nat} (hr : Ring nxt prv l)
    (hx : x ∈ l) : prv (nxt x) = x := by
  obtain ⟨rest, h1, _, _⟩ := hr.from_mem hx
  have hc := h1.chain
  cases rest with
  | nil => simp only [Chain] at hc; rw [hc.1]; exact hc.2
  | cons y r => simp only [Chain] at hc; rw [hc.1]; exact hc.2.1

theorem Ring.next_ne {nxt prv : Nat → Nat} {l : List Nat} {x : Nat} (hr : Ring nxt prv l)
    (hx : x ∈ l) (hl : 2 ≤ l.length) : nxt x ≠ x := by
  obtain ⟨rest, h1, _, h3⟩ := hr.from_mem hx
  have hc := h1.chain
  cases rest with
  | nil => simp at h3; omega
  | cons y r =>
    simp only [Chain] at hc
    rw [hc.1]
    have := h1.nodup
    simp only [List.nodup_cons, List.mem_cons, not_or] at this
    exact fun h => this.1.1 h.symm

theorem Ring.swap {nxt prv : Nat → Nat} {l : List Nat} (hr : Ring nxt prv l) :
    ∃ l1, Ring prv nxt l1 ∧ (∀ y, y ∈ l1 ↔ y ∈ l) ∧ l1.length = l.length := by
  cases l with
  | nil => exact ⟨[], hr, by simp, rfl⟩
  | cons a xs => exact ⟨a :: xs.reverse, hr.reverse, by simp, by simp⟩

theorem Ring.prev_mem {nxt prv : Nat → Nat} {l : List Nat} {x : Nat} (hr : Ring nxt prv l)
    (hx : x ∈ l) : prv x ∈ l := by
  obtain ⟨l1, h1, h2, _⟩ := hr.swap
  exact (h2 _).1 (h1.next_mem ((h2 _).2 hx))

theorem Ring.next_prev {nxt prv : Nat → Nat} {l : List Nat} {x : Nat} (hr : Ring nxt prv l)
    (hx : x ∈ l) : nxt (prv x) = x := by
  obtain ⟨l1, h1, h2, _⟩ := hr.swap
  exact h1.prev_next ((h2 _).2 hx)

theorem Ring.prev_ne {nxt prv : Nat → Nat} {l : List Nat} {x : Nat} (hr : Ring nxt prv l)
    (hx : x ∈ l) (hl : 2 ≤ l.length) : prv x ≠ x := by
  obtain ⟨l1, h1, h2, h3⟩ := hr.swap
  exact h1.next_ne ((h2 _).2 hx) (by omega)

theorem map_erase_of_injOn {f : Nat → Nat} {l : List Nat} {a : Nat}
    (hf : ∀ x ∈ l, f x = f a → x = a) : (l.erase a).map f = (l.map f).erase (f a) := by
  induction l with
  | nil => simp
  | cons x l ih =>
    by_cases hxa : x = a
    · subst hxa; simp
    · have hne : f x ≠ f a := fun h => hxa (hf x (by simp) h)
      rw [List.erase_cons_tail (by simpa using hxa), List.map_cons, List.map_cons,
        List.erase_cons_tail (by simpa using hne), ih (fun y hy => hf y (List.mem_cons_of_mem _ hy))]

/-! ## The objects of the mesh -/

theorem colAddr_ne_zero (d : Nat) : colAddr d ≠ 0 := by simp [colAddr]

theorem colAddr_inj {d d1 : Nat} (h : colAddr d = colAddr d1) : d = d1 := by
  simpa [colAddr] using h

theorem AddrOk.ne_zero {K : Nat} {addr : Nat → Nat → Nat} {ent : Nat → Nat → Bool}
    (ok : AddrOk K addr ent) (i j : Nat) : addr i j ≠ 0 := by
  have := ok.ge i j; omega

theorem AddrOk.ne_col {K : Nat} {addr : Nat → Nat → Nat} {ent : Nat → Nat → Bool}
    (ok : AddrOk K addr ent) (i j : Nat) {d : Nat} (hd : d < K) : addr i j ≠ colAddr d := by
  have := ok.ge i j; simp only [colAddr]; omega

theorem AddrOk.ne_root {K : Nat} {addr : Nat → Nat → Nat} {ent : Nat → Nat → Bool}
    (ok : AddrOk K addr ent) (i j : Nat) : addr i j ≠ rootAddr := by
  have := ok.ge i j; simp only [rootAddr]; omega

/-- The rings of two different columns share no object. -/
theorem Shape.col_disjoint {K : Nat} {addr : Nat → Nat → Nat} {ent : Nat → Nat → Bool}
    {names : List String} {act : List Nat} {V : Nat → List Nat} {h : Heap}
    (ok : AddrOk K addr ent) (sh : Shape K addr ent names act V h) {d d1 x : Nat}
    (hd : d < K) (hd1 : d1 < K)
    (hx : x ∈ colAddr d :: (V d).map fun i => addr i d)
    (hx1 : x ∈ colAddr d1 :: (V d1).map fun i => addr i d1) : d = d1 := by
  simp only [List.mem_cons, List.mem_map] at hx hx1
  rcases hx with hx | ⟨i, hi, hx⟩ <;> rcases hx1 with hx1 | ⟨i1, hi1, hx1⟩
  · exact colAddr_inj (hx.symm.trans hx1)
  · exact absurd (hx1.trans hx) (ok.ne_col _ _ hd)
  · exact absurd (hx.trans hx1) (ok.ne_col _ _ hd1)
  · exact (ok.inj i d i1 d1 hd hd1 (sh.vent d hd i hi) (sh.vent d1 hd1 i1 hi1)
      (hx.trans hx1.symm)).2

theorem AddrOk.col_node_ne_zero {K : Nat} {addr : Nat → Nat → Nat} {ent : Nat → Nat → Bool}
    {V : Nat → List Nat} (ok : AddrOk K addr ent) {d x : Nat}
    (hx : x ∈ colAddr d :: (V d).map fun i => addr i d) : x ≠ 0 := by
  simp only [List.mem_cons, List.mem_map] at hx
  rcases hx with hx | ⟨i, _, hx⟩
  · rw [hx]; exact colAddr_ne_zero d
  · rw [← hx]; exact ok.ne_zero _ _

/-- The three statements of `coverColumn` on a cell that is in its column ring: they run,
and the cell is out of the ring. -/
theorem Shape.unlink {K : Nat} {addr : Nat → Nat → Nat} {ent : Nat → Nat → Bool}
    {names : List String} {act : List Nat} {V : Nat → List Nat} {h : Heap}
    (ok : AddrOk K addr ent) (sh : Shape K addr ent names act V h) {d i : Nat}
    (hd : d < K) (hi : i ∈ V d) :
    unlinkNode h (addr i d) = some (unlinkPure h (addr i d)) ∧
      Shape K addr ent names act (upd V d ((V d).erase i)) (unlinkPure h (addr i d)) := by
  have hr := sh.vring d hd
  have hent := sh.vent d hd i hi
  have hj : addr i d ∈ colAddr d :: (V d).map fun i => addr i d :=
    List.mem_cons_of_mem _ (List.mem_map_of_mem _ hi)
  have hjc : addr i d ∈ (V d).map fun i => addr i d := List.mem_map_of_mem _ hi
  have hlen : 2 ≤ (colAddr d :: (V d).map fun i => addr i d).length := by
    have := List.length_pos_of_mem hi
    simp; omega
  have hdn := hr.next_mem hj
  have hup := hr.prev_mem hj
  have hdn0 : h.down (addr i d) ≠ 0 := ok.col_node_ne_zero (V := V) hdn
  have hup0 : h.up (addr i d) ≠ 0 := ok.col_node_ne_zero (V := V) hup
  have hdnj : h.down (addr i d) ≠ addr i d := hr.next_ne hj hlen
  have hupj : h.up (addr i d) ≠ addr i d := hr.prev_ne hj hlen
  have hj0 : addr i d ≠ 0 := ok.ne_zero _ _
  have hcol := sh.cell_col i d hd hent
  refine ⟨?_, ?_⟩
  · simp [unlinkNode, unlinkPure, getDown, getUp, setUp, setDown, getColumn, decreaseSize, hj0,
      hdn0, hup0, hcol, colAddr_ne_zero, sh.col_is d hd, upd_ne _ _ (Ne.symm hdnj),
      upd_ne _ _ (Ne.symm hupj)]
  · have hinj : ∀ x ∈ V d, addr x d = addr i d → x = i := fun x hx hxe =>
      (ok.inj x d i d hd hd (sh.vent d hd x hx) hent hxe).1
    refine
      { root_is := sh.root_is, hring := sh.hring, act_lt := sh.act_lt, col_is := sh.col_is,
        col_col := sh.col_col, col_name := sh.col_name, cell_col := sh.cell_col,
        cell_is := sh.cell_is, rring := sh.rring, vring := ?_, vent := ?_, size := ?_ }
    · intro d1 hd1
      by_cases hdd : d1 = d
      · subst hdd
        have := Ring.unlink_node hr hjc
        simp only [upd_same, unlinkPure]
        rw [map_erase_of_injOn hinj]
        exact this
      · simp only [upd_ne _ _ hdd, unlinkPure]
        refine Ring.congr ?_ ?_ (sh.vring d1 hd1)
        · intro x hx
          refine upd_ne _ _ ?_
          rintro rfl
          exact hdd (Shape.col_disjoint ok sh hd1 hd hx hup)
        · intro x hx
          refine upd_ne _ _ ?_
          rintro rfl
          exact hdd (Shape.col_disjoint ok sh hd1 hd hx hdn)
    · intro d1 hd1 i1 hi1
      by_cases hdd : d1 = d
      · subst hdd
        simp only [upd_same] at hi1
        exact sh.vent d1 hd1 i1 (List.mem_of_mem_erase hi1)
      · simp only [upd_ne _ _ hdd] at hi1
        exact sh.vent d1 hd1 i1 hi1
    · intro d1 hd1
      by_cases hdd : d1 = d
      · subst hdd
        simp only [unlinkPure, hcol, upd_same, sh.size d1 hd1, List.length_erase_of_mem hi]
        have := List.length_pos_of_mem hi
        omega
      · have : colAddr d1 ≠ colAddr d := fun h => hdd (colAddr_inj h)
        simp only [unlinkPure, hcol, upd_ne _ _ this, upd_ne _ _ hdd, sh.size d1 hd1]

/-! ## Lists of columns and rows -/

theorem sorted_split {l : List Nat} (hl : l.Pairwise (· < ·)) {d : Nat} (hd : d ∈ l) :
    l = l.filter (fun j => decide (j < d)) ++ d :: l.filter (fun j => decide (d < j)) := by
  induction l with
  | nil => simp at hd
  | cons x t ih =>
    rw [List.pairwise_cons] at hl
    by_cases hxd : d = x
    · subst hxd
      have h1 : t.filter (fun j => decide (j < d)) = [] := by
        rw [List.filter_eq_nil_iff]
        intro y hy
        have := hl.1 y hy
        simp; omega
      have h2 : t.filter (fun j => decide (d < j)) = t := by
        rw [List.filter_eq_self]
        intro y hy
        simpa using hl.1 y hy
      simp [h1, h2]
    · have hdt : d ∈ t := by
        rcases List.mem_cons.1 hd with h | h
        · exact absurd h hxd
        · exact h
      have hx : x < d := hl.1 d hdt
      have hx2 : ¬ d < x := by omega
      have := ih hl.2 hdt
      simp only [List.filter_cons, hx, hx2, decide_True, decide_False, if_true, if_false,
        List.cons_append, Bool.false_eq_true]
      rw [← this]

theorem rowCols_pairwise (ent : Nat → Nat → Bool) (K i : Nat) :
    (rowCols ent K i).Pairwise (· < ·) :=
  List.Pairwise.filter _ (List.pairwise_lt_range K)

theorem mem_rowCols {ent : Nat → Nat → Bool} {K i j : Nat} :
    j ∈ rowCols ent K i ↔ j < K ∧ ent i j = true := by
  simp [rowCols]

theorem mem_rowOthers {ent : Nat → Nat → Bool} {K i d j : Nat} :
    j ∈ rowOthers ent K i d ↔ j < K ∧ ent i j = true ∧ j ≠ d := by
  simp only [rowOthers, List.mem_append, List.mem_filter, mem_rowCols, decide_eq_true_eq]
  constructor
  · rintro (⟨⟨h1, h2⟩, h3⟩ | ⟨⟨h1, h2⟩, h3⟩) <;> exact ⟨h1, h2, by omega⟩
  · rintro ⟨h1, h2, h3⟩
    rcases Nat.lt_or_gt_of_ne h3 with h | h
    · exact Or.inr ⟨⟨h1, h2⟩, h⟩
    · exact Or.inl ⟨⟨h1, h2⟩, h⟩

theorem rowCols_split {ent : Nat → Nat → Bool} {K i d : Nat} (hd : d < K) (he : ent i d = true) :
    rowCols ent K i =
      (rowCols ent K i).filter (fun j => decide (j < d)) ++
        d :: (rowCols ent K i).filter (fun j => decide (d < j)) :=
  sorted_split (rowCols_pairwise ent K i) (mem_rowCols.2 ⟨hd, he⟩)

theorem rowCols_nodup (ent : Nat → Nat → Bool) (K i : Nat) : (rowCols ent K i).Nodup :=
  (List.nodup_range K).filter _

theorem rowOthers_nodup {ent : Nat → Nat → Bool} {K i d : Nat} (hd : d < K)
    (he : ent i d = true) : (rowOthers ent K i d).Nodup := by
  have h1 := rowCols_nodup ent K i
  rw [rowCols_split hd he] at h1
  have h2 := List.nodup_append_comm.1 h1
  simp only [List.cons_append, List.nodup_cons] at h2
  exact h2.2

theorem rowOthers_length_lt {ent : Nat → Nat → Bool} {K i d : Nat} (hd : d < K)
    (he : ent i d = true) : (rowOthers ent K i d).length < K := by
  have h1 : (rowCols ent K i).length ≤ K := by
    have := List.length_filter_le (ent i) (List.range K)
    simpa [rowCols] using this
  have h2 := congrArg List.length (rowCols_split (K := K) hd he)
  simp only [List.length_append, List.length_cons] at h2
  simp only [rowOthers, List.length_append]
  omega

/-- The row ring, read from the cell of column `d`. -/
theorem Shape.row_chain {K : Nat} {addr : Nat → Nat → Nat} {ent : Nat → Nat → Bool}
    {names : List String} {act : List Nat} {V : Nat → List Nat} {h : Heap}
    (sh : Shape K addr ent names act V h) {i d : Nat} (hd : d < K) (he : ent i d = true) :
    Chain h.right h.left (addr i d) ((rowOthers ent K i d).map (addr i)) (addr i d) := by
  have hr := sh.rring i
  rw [rowCols_split hd he, List.map_append] at hr
  have h2 := Ring.rotate hr
  simp only [List.map_cons, List.cons_append] at h2
  have h3 := h2.chain
  simpa [rowOthers] using h3

theorem Shape.v_nodup {K : Nat} {addr : Nat → Nat → Nat} {ent : Nat → Nat → Bool}
    {names : List String} {act : List Nat} {V : Nat → List Nat} {h : Heap}
    (sh : Shape K addr ent names act V h) {d : Nat} (hd : d < K) : (V d).Nodup := by
  have := (sh.vring d hd).nodup
  exact List.Nodup.of_map _ (List.nodup_cons.1 this).2

theorem Vrem_nil (V : Nat → List Nat) : Vrem V [] = V := by
  funext d; simp [Vrem]

theorem Vrem_snoc {V : Nat → List Nat} {ps : List (Nat × Nat)} {i d : Nat}
    (hnd : (V d).Nodup) :
    upd (Vrem V ps) d ((Vrem V ps d).erase i) = Vrem V (ps ++ [(i, d)]) := by
  funext d1
  by_cases hdd : d1 = d
  · subst hdd
    simp only [upd_same, Vrem]
    rw [List.Nodup.erase_eq_filter (hnd.filter _), List.filter_filter]
    apply List.filter_congr
    intro x _
    by_cases h1 : x = i <;> by_cases h2 : (x, d1) ∈ ps <;> simp [h1, h2]
  · simp only [upd_ne _ _ hdd, Vrem]
    apply List.filter_congr
    intro x _
    simp [hdd]

theorem unlinkAll_append (addr : Nat → Nat → Nat) (h : Heap) (ps qs : List (Nat × Nat)) :
    unlinkAll addr h (ps ++ qs) = unlinkAll addr (unlinkAll addr h ps) qs := by
  simp [unlinkAll, List.foldl_append]

theorem coverOps_snoc (ent : Nat → Nat → Bool) (K d : Nat) (rows : List Nat) (i : Nat) :
    coverOps ent K d (rows ++ [i]) =
      coverOps ent K d rows ++ (rowOthers ent K i d).map fun j => (i, j) := by
  simp [coverOps]

theorem mem_coverOps {ent : Nat → Nat → Bool} {K d : Nat} {rows : List Nat} {p : Nat × Nat} :
    p ∈ coverOps ent K d rows ↔ p.1 ∈ rows ∧ p.2 ∈ rowOthers ent K p.1 d := by
  obtain ⟨a, b⟩ := p
  simp only [coverOps, List.mem_flatMap, List.mem_map, Prod.mk.injEq]
  constructor
  · rintro ⟨i, hi, j, hj, rfl, rfl⟩; exact ⟨hi, hj⟩
  · rintro ⟨h1, h2⟩; exact ⟨a, h1, b, h2, rfl, rfl⟩

end Dlx

namespace Dlx

theorem hring_node_ne_zero {act : List Nat} {x : Nat}
    (hx : x ∈ rootAddr :: act.map colAddr) : x ≠ 0 := by
  simp only [List.mem_cons, List.mem_map] at hx
  rcases hx with hx | ⟨d, _, hx⟩
  · rw [hx]; simp [rootAddr]
  · rw [← hx]; exact colAddr_ne_zero d

theorem AddrOk.not_mem_hring {K : Nat} {addr : Nat → Nat → Nat} {ent : Nat → Nat → Bool}
    (ok : AddrOk K addr ent) {act : List Nat} (hact : ∀ d ∈ act, d < K) (i j : Nat) :
    addr i j ∉ rootAddr :: act.map colAddr := by
  intro hx
  simp only [List.mem_cons, List.mem_map] at hx
  rcases hx with hx | ⟨d, hd, hx⟩
  · exact ok.ne_root _ _ hx
  · exact ok.ne_col _ _ (hact d hd) hx.symm

/-- The two statements of `coverColumn` on the header of an active column. -/
theorem Shape.unlink_header {K : Nat} {addr : Nat → Nat → Nat} {ent : Nat → Nat → Bool}
    {names : List String} {act : List Nat} {V : Nat → List Nat} {h : Heap}
    (ok : AddrOk K addr ent) (sh : Shape K addr ent names act V h) {d : Nat} (hd : d ∈ act) :
    h.right (colAddr d) ≠ 0 ∧ h.left (colAddr d) ≠ 0 ∧ h.right (colAddr d) ≠ colAddr d ∧
      h.left (colAddr d) ≠ colAddr d ∧
      Shape K addr ent names (act.erase d) V (unlinkHeader h (colAddr d)) := by
  have hr := sh.hring
  have hcm : colAddr d ∈ act.map colAddr := List.mem_map_of_mem _ hd
  have hc : colAddr d ∈ rootAddr :: act.map colAddr := List.mem_cons_of_mem _ hcm
  have hlen : 2 ≤ (rootAddr :: act.map colAddr).length := by
    have := List.length_pos_of_mem hd
    simp; omega
  have hrm := hr.next_mem hc
  have hlm := hr.prev_mem hc
  refine ⟨hring_node_ne_zero hrm, hring_node_ne_zero hlm, hr.next_ne hc hlen,
    hr.prev_ne hc hlen, ?_⟩
  refine
    { root_is := sh.root_is, hring := ?_, act_lt := ?_, col_is := sh.col_is,
      col_col := sh.col_col, col_name := sh.col_name, cell_col := sh.cell_col,
      cell_is := sh.cell_is, rring := ?_, vring := sh.vring, vent := sh.vent, size := sh.size }
  · have := Ring.unlink_node hr hcm
    rw [← map_erase_of_injOn (fun x _ hx => colAddr_inj hx)] at this
    exact this
  · intro d1 hd1
    exact sh.act_lt d1 (List.mem_of_mem_erase hd1)
  · intro i
    refine Ring.congr ?_ ?_ (sh.rring i)
    · intro x hx
      refine upd_ne _ _ ?_
      rintro rfl
      obtain ⟨j, _, hj⟩ := List.mem_map.1 hx
      rw [← hj] at hlm
      exact ok.not_mem_hring sh.act_lt _ _ hlm
    · intro x hx
      refine upd_ne _ _ ?_
      rintro rfl
      obtain ⟨j, _, hj⟩ := List.mem_map.1 hx
      rw [← hj] at hrm
      exact ok.not_mem_hring sh.act_lt _ _ hrm

/-- The inner loop of `coverColumn`, on the row `i` of the column `d`: it takes the other
cells of the row out of their columns. -/
theorem Shape.cover_row {K : Nat} {addr : Nat → Nat → Nat} {ent : Nat → Nat → Bool}
    {names : List String} {act : List Nat} {V : Nat → List Nat} {t : Heap}
    {ps : List (Nat × Nat)} (ok : AddrOk K addr ent)
    (sh : Shape K addr ent names act (Vrem V ps) t) (hV : ∀ d, d < K → (V d).Nodup)
    {i d : Nat} (hd : d < K) (he : ent i d = true)
    (hin : ∀ j ∈ rowOthers ent K i d, i ∈ V j) (hfresh : ∀ j, (i, j) ∉ ps)
    {fuel : Nat} (hf : K ≤ fuel) :
    forRing getRight unlinkNode (addr i d) fuel t (t.right (addr i d)) =
        some (unlinkAll addr t ((rowOthers ent K i d).map fun j => (i, j))) ∧
      Shape K addr ent names act (Vrem V (ps ++ (rowOthers ent K i d).map fun j => (i, j)))
        (unlinkAll addr t ((rowOthers ent K i d).map fun j => (i, j))) := by
  have hnd := rowOthers_nodup hd he
  have hrule := forRing_rule getRight unlinkNode (addr i d)
    (fun rem s => ∃ done remC, done ++ remC = rowOthers ent K i d ∧ rem = remC.map (addr i) ∧
      s = unlinkAll addr t (done.map fun j => (i, j)) ∧
      Shape K addr ent names act (Vrem V (ps ++ done.map fun j => (i, j))) s)
    (by
      rintro y ys s ⟨done, remC, hsplit, hrem, hs, hsh⟩
      cases remC with
      | nil => simp at hrem
      | cons j rest =>
        simp only [List.map_cons, List.cons.injEq] at hrem
        obtain ⟨rfl, rfl⟩ := hrem
        have hjm : j ∈ rowOthers ent K i d := by rw [← hsplit]; simp
        obtain ⟨hjK, hje, hjd⟩ := mem_rowOthers.1 hjm
        have hjdone : j ∉ done := by
          rw [← hsplit] at hnd
          intro hmem
          exact (List.nodup_append.1 hnd).2.2 hmem (List.mem_cons_self _ _)
        have hiV : i ∈ Vrem V (ps ++ done.map fun j => (i, j)) j := by
          simp only [Vrem, List.mem_filter, decide_eq_true_eq, List.mem_append, List.mem_map,
            Prod.mk.injEq, true_and, exists_eq_right, not_or]
          exact ⟨hin j hjm, hfresh j, hjdone⟩
        obtain ⟨hun, hsh1⟩ := Shape.unlink ok hsh hjK hiV
        rw [Vrem_snoc (hV j hjK)] at hsh1
        refine ⟨?_, unlinkPure s (addr i j), hun, ?_, done ++ [j], rest, ?_, rfl, ?_, ?_⟩
        · intro heq
          exact hjd (ok.inj i j i d hjK hd hje he heq).2
        · have hc := hsh.row_chain hd he
          rw [← hsplit, List.map_append, List.map_cons] at hc
          have := hc.next_mid
          simp [getRight, ok.ne_zero, unlinkPure, this]
        · rw [← hsplit]; simp
        · rw [hs]
          simp [unlinkAll, List.foldl_append]
        · simpa [List.append_assoc] using hsh1)
    ((rowOthers ent K i d).map (addr i)) t fuel
    (by have := rowOthers_length_lt (K := K) hd he; simp; omega)
    ⟨[], rowOthers ent K i d, rfl, rfl, by simp [unlinkAll], by simpa using sh⟩
  obtain ⟨s1, hrun, done, remC, hsplit, hrem, hs, hsh⟩ := hrule
  have hremC : remC = [] := by
    cases remC with
    | nil => rfl
    | cons a b => simp at hrem
  subst hremC
  simp only [List.append_nil] at hsplit
  subst hsplit
  subst hs
  rw [(sh.row_chain hd he).next_head, hrun]
  exact ⟨rfl, hsh⟩

theorem Vrem_coverOps_self (V : Nat → List Nat) (ent : Nat → Nat → Bool) (K d : Nat)
    (rows : List Nat) : Vrem V (coverOps ent K d rows) d = V d := by
  simp only [Vrem]
  rw [List.filter_eq_self]
  intro x _
  simp only [decide_eq_true_eq]
  intro hmem
  have := (mem_coverOps.1 hmem).2
  exact (mem_rowOthers.1 this).2.2 rfl

theorem not_mem_coverOps_of_not_mem {ent : Nat → Nat → Bool} {K d : Nat} {rows : List Nat}
    {i : Nat} (hi : i ∉ rows) (j : Nat) : (i, j) ∉ coverOps ent K d rows := by
  intro hmem
  exact hi (mem_coverOps.1 hmem).1

/-- The whole of `coverColumn` on the header of an active column `d`: it runs, the header
is out of the ring of the root, and the rows of the column are out of the other columns. -/
theorem Shape.cover_column {K : Nat} {addr : Nat → Nat → Nat} {ent : Nat → Nat → Bool}
    {names : List String} {act : List Nat} {V : Nat → List Nat} {h : Heap}
    (ok : AddrOk K addr ent) (sh : Shape K addr ent names act V h) {d : Nat} (hd : d ∈ act)
    (hcons : ∀ i ∈ V d, ∀ j ∈ rowOthers ent K i d, i ∈ V j)
    {fuel : Nat} (hf1 : (V d).length < fuel) (hf2 : K ≤ fuel) :
    coverColumn fuel h (colAddr d) = some (coverPure addr ent K h d (V d)) ∧
      Shape K addr ent names (act.erase d) (Vrem V (coverOps ent K d (V d)))
        (coverPure addr ent K h d (V d)) := by
  have dK : d < K := sh.act_lt d hd
  obtain ⟨hr0, hl0, hrc, hlc, sh0⟩ := sh.unlink_header ok hd
  have hVnd : ∀ d, d < K → (V d).Nodup := fun d1 hd1 => sh.v_nodup hd1
  have hnd := hVnd d dK
  have hrule := forRing_rule getDown
    (fun h3 i => obind (getRight h3 i) fun j => forRing getRight unlinkNode i fuel h3 j)
    (colAddr d)
    (fun rem s => ∃ done remR, done ++ remR = V d ∧ rem = remR.map (fun i => addr i d) ∧
      s = unlinkAll addr (unlinkHeader h (colAddr d)) (coverOps ent K d done) ∧
      Shape K addr ent names (act.erase d) (Vrem V (coverOps ent K d done)) s)
    (by
      rintro y ys s ⟨done, remR, hsplit, hrem, hs, hsh⟩
      cases remR with
      | nil => simp at hrem
      | cons i rest =>
        simp only [List.map_cons, List.cons.injEq] at hrem
        obtain ⟨rfl, rfl⟩ := hrem
        have him : i ∈ V d := by rw [← hsplit]; simp
        have hie := sh.vent d dK i him
        have hidone : i ∉ done := by
          rw [← hsplit] at hnd
          intro hmem
          exact (List.nodup_append.1 hnd).2.2 hmem (List.mem_cons_self _ _)
        obtain ⟨hrow, hsh1⟩ := Shape.cover_row ok hsh hVnd dK hie (hcons i him)
          (not_mem_coverOps_of_not_mem hidone) hf2
        rw [← coverOps_snoc] at hsh1
        refine ⟨ok.ne_col _ _ dK, _, ?_, ?_, done ++ [i], rest, ?_, rfl, ?_, hsh1⟩
        · simp only [getRight, ok.ne_zero, if_false, obind_some]
          exact hrow
        · have hv := (hsh1.vring d dK).chain
          rw [Vrem_coverOps_self, ← hsplit, List.map_append, List.map_cons] at hv
          simp [getDown, ok.ne_zero, hv.next_mid]
        · rw [← hsplit]; simp
        · rw [hs, coverOps_snoc, unlinkAll_append])
    ((V d).map fun i => addr i d) (unlinkHeader h (colAddr d)) fuel (by simpa using hf1)
    ⟨[], V d, rfl, rfl, by simp [coverOps, unlinkAll], by simpa [coverOps, Vrem_nil] using sh0⟩
  obtain ⟨s1, hrun, done, remR, hsplit, hrem, hs, hsh⟩ := hrule
  have hremR : remR = [] := by
    cases remR with
    | nil => rfl
    | cons a b => simp at hrem
  subst hremR
  simp only [List.append_nil] at hsplit
  subst hsplit
  subst hs
  have hstart : (unlinkHeader h (colAddr d)).down (colAddr d) =
      ((V d).map fun i => addr i d).headD (colAddr d) := (sh0.vring d dK).chain.next_head
  rw [← hstart] at hrun
  refine ⟨?_, hsh⟩
  simp only [coverColumn, getRight, getLeft, setLeft, setRight, getDown, colAddr_ne_zero,
    if_false, obind_some, hr0, hl0, upd_ne _ _ (Ne.symm hrc), upd_ne _ _ (Ne.symm hlc)]
  exact hrun

end Dlx

namespace Dlx

theorem Heap.ext_fields {h1 h2 : Heap} (h_count : h1.count = h2.count)
    (h_is : h1.isColumn = h2.isColumn) (h_left : h1.left = h2.left)
    (h_right : h1.right = h2.right) (h_up : h1.up = h2.up) (h_down : h1.down = h2.down)
    (h_column : h1.column = h2.column) (h_size : h1.size = h2.size)
    (h_name : h1.name = h2.name) : h1 = h2 := by
  cases h1; cases h2; simp_all

/-- The three statements of `uncoverColumn` undo the three statements of `coverColumn` on
a cell that was in its column ring. -/
theorem Shape.relink_unlink {K : Nat} {addr : Nat → Nat → Nat} {ent : Nat → Nat → Bool}
    {names : List String} {act : List Nat} {V : Nat → List Nat} {h : Heap}
    (ok : AddrOk K addr ent) (sh : Shape K addr ent names act V h) {d i : Nat}
    (hd : d < K) (hi : i ∈ V d) :
    relinkNode (unlinkPure h (addr i d)) (addr i d) = some h := by
  have hr := sh.vring d hd
  have hent := sh.vent d hd i hi
  have hj : addr i d ∈ colAddr d :: (V d).map fun i => addr i d :=
    List.mem_cons_of_mem _ (List.mem_map_of_mem _ hi)
  have hlen : 2 ≤ (colAddr d :: (V d).map fun i => addr i d).length := by
    have := List.length_pos_of_mem hi
    simp; omega
  have hdn := hr.next_mem hj
  have hup := hr.prev_mem hj
  have hdn0 : h.down (addr i d) ≠ 0 := ok.col_node_ne_zero (V := V) hdn
  have hup0 : h.up (addr i d) ≠ 0 := ok.col_node_ne_zero (V := V) hup
  have hdnj : h.down (addr i d) ≠ addr i d := hr.next_ne hj hlen
  have hupj : h.up (addr i d) ≠ addr i d := hr.prev_ne hj hlen
  have hj0 : addr i d ≠ 0 := ok.ne_zero _ _
  have hcol := sh.cell_col i d hd hent
  have h1 : h.up (h.down (addr i d)) = addr i d := hr.prev_next hj
  have h2 : h.down (h.up (addr i d)) = addr i d := hr.next_prev hj
  simp only [relinkNode, unlinkPure, getColumn, increaseSize, getDown, setUp, getUp, setDown,
    hj0, hcol, colAddr_ne_zero, sh.col_is d hd, if_false, if_true, obind_some, hdn0, hup0,
    upd_ne _ _ (Ne.symm hdnj), upd_ne _ _ (Ne.symm hupj), upd_same, upd_upd_same,
    Option.some.injEq]
  apply Heap.ext_fields <;> simp only []
  · exact upd_eq_self _ _ _ h1
  · exact upd_eq_self _ _ _ h2
  · exact upd_eq_self _ _ _ (by omega)

/-- The two statements of `uncoverColumn` on the header undo those of `coverColumn`. -/
theorem Shape.relink_header {K : Nat} {addr : Nat → Nat → Nat} {ent : Nat → Nat → Bool}
    {names : List String} {act : List Nat} {V : Nat → List Nat} {h : Heap}
    (ok : AddrOk K addr ent) (sh : Shape K addr ent names act V h) {d : Nat} (hd : d ∈ act) :
    (obind (getRight (unlinkHeader h (colAddr d)) (colAddr d)) fun r =>
      obind (setLeft (unlinkHeader h (colAddr d)) r (colAddr d)) fun h3 =>
      obind (getLeft h3 (colAddr d)) fun l => setRight h3 l (colAddr d)) = some h := by
  obtain ⟨hr0, hl0, hrc, hlc, _⟩ := sh.unlink_header ok hd
  have hr := sh.hring
  have hc : colAddr d ∈ rootAddr :: act.map colAddr :=
    List.mem_cons_of_mem _ (List.mem_map_of_mem _ hd)
  have h1 : h.left (h.right (colAddr d)) = colAddr d := hr.prev_next hc
  have h2 : h.right (h.left (colAddr d)) = colAddr d := hr.next_prev hc
  simp only [unlinkHeader, getRight, setLeft, getLeft, setRight, colAddr_ne_zero, if_false,
    obind_some, hr0, hl0, upd_ne _ _ (Ne.symm hrc), upd_ne _ _ (Ne.symm hlc), upd_same,
    upd_upd_same, Option.some.injEq]
  apply Heap.ext_fields <;> simp only []
  · exact upd_eq_self _ _ _ h1
  · exact upd_eq_self _ _ _ h2

/-- The shape after taking out any cells that are in their column rings. -/
theorem Shape.unlink_all {K : Nat} {addr : Nat → Nat → Nat} {ent : Nat → Nat → Bool}
    {names : List String} {act : List Nat} {V : Nat → List Nat} {h : Heap}
    (ok : AddrOk K addr ent) (sh : Shape K addr ent names act V h) (ps : List (Nat × Nat))
    (hnd : ps.Nodup) (hmem : ∀ p ∈ ps, p.2 < K ∧ p.1 ∈ V p.2) :
    Shape K addr ent names act (Vrem V ps) (unlinkAll addr h ps) := by
  induction ps using List.reverseRecOn with
  | nil => simpa [Vrem_nil, unlinkAll] using sh
  | append_singleton ps p ih =>
    obtain ⟨i, j⟩ := p
    have hnd1 := List.Nodup.of_append_left hnd
    have ih1 := ih hnd1 (fun p hp => hmem p (List.mem_append_left _ hp))
    obtain ⟨hjK, hiV⟩ := hmem (i, j) (by simp)
    have hnot : (i, j) ∉ ps := by
      intro hm
      exact (List.nodup_append.1 hnd).2.2 hm (List.mem_singleton_self _)
    have hiV1 : i ∈ Vrem V ps j := by
      simp only [Vrem, List.mem_filter, decide_eq_true_eq]
      exact ⟨hiV, hnot⟩
    have := (Shape.unlink ok ih1 hjK hiV1).2
    rw [Vrem_snoc (sh.v_nodup hjK)] at this
    simpa [unlinkAll, List.foldl_append] using this

theorem coverOps_append (ent : Nat → Nat → Bool) (K d : Nat) (rows rows1 : List Nat) :
    coverOps ent K d (rows ++ rows1) = coverOps ent K d rows ++ coverOps ent K d rows1 := by
  simp [coverOps]

theorem coverOps_nodup {ent : Nat → Nat → Bool} {K d : Nat} {rows : List Nat}
    (hnd : rows.Nodup) (hd : d < K) (he : ∀ i ∈ rows, ent i d = true) :
    (coverOps ent K d rows).Nodup := by
  simp only [coverOps]
  rw [List.nodup_flatMap]
  refine ⟨?_, ?_⟩
  · intro i hi
    refine List.Nodup.map ?_ (rowOthers_nodup hd (he i hi))
    intro a b hab
    simpa using hab
  · refine List.Pairwise.imp_of_mem ?_ (List.Nodup.pairwise_of_forall_ne hnd (fun _ _ _ _ h => h))
    intro a b _ _ hab
    simp only [Function.onFun, List.Disjoint, List.mem_map]
    rintro p ⟨j, _, rfl⟩ ⟨j1, _, h1⟩
    simp only [Prod.mk.injEq] at h1
    exact hab h1.1.symm

/-- The inner loop of `uncoverColumn`, on the row `i` of the column `d`: it puts back the
cells that the inner loop of `coverColumn` took out, last one first. -/
theorem Shape.uncover_row {K : Nat} {addr : Nat → Nat → Nat} {ent : Nat → Nat → Bool}
    {names : List String} {act : List Nat} {V : Nat → List Nat} {h0 : Heap}
    (ok : AddrOk K addr ent) (sh : Shape K addr ent names act V h0)
    {ps : List (Nat × Nat)} {i d : Nat} (hd : d < K) (he : ent i d = true)
    (hnd : (ps ++ (rowOthers ent K i d).map fun j => (i, j)).Nodup)
    (hmem : ∀ p ∈ ps ++ (rowOthers ent K i d).map fun j => (i, j), p.2 < K ∧ p.1 ∈ V p.2)
    {fuel : Nat} (hf : K ≤ fuel) :
    forRing getLeft relinkNode (addr i d) fuel
        (unlinkAll addr h0 (ps ++ (rowOthers ent K i d).map fun j => (i, j)))
        ((unlinkAll addr h0 (ps ++ (rowOthers ent K i d).map fun j => (i, j))).left (addr i d)) =
      some (unlinkAll addr h0 ps) := by
  have hrule := forRing_rule getLeft relinkNode (addr i d)
    (fun rem t => ∃ doneRev remRev, doneRev ++ remRev = (rowOthers ent K i d).reverse ∧
      rem = remRev.map (addr i) ∧
      t = unlinkAll addr h0 (ps ++ remRev.reverse.map fun j => (i, j)))
    (by
      rintro y ys t ⟨doneRev, remRev, hsplit, hrem, ht⟩
      cases remRev with
      | nil => simp at hrem
      | cons j rest =>
        simp only [List.map_cons, List.cons.injEq] at hrem
        obtain ⟨rfl, rfl⟩ := hrem
        have hro : rowOthers ent K i d = rest.reverse ++ j :: doneRev.reverse := by
          have := congrArg List.reverse hsplit
          simpa using this.symm
        have hjm : j ∈ rowOthers ent K i d := by rw [hro]; simp
        obtain ⟨hjK, hje, hjd⟩ := mem_rowOthers.1 hjm
        have hpre : ps ++ (rowOthers ent K i d).map (fun j => (i, j)) =
            ((ps ++ rest.reverse.map fun j => (i, j)) ++ [(i, j)]) ++
              doneRev.reverse.map fun j => (i, j) := by
          rw [hro]; simp
        rw [hpre] at hnd hmem
        have hnd1 := List.Nodup.of_append_left hnd
        have hq := Shape.unlink_all ok sh (ps ++ rest.reverse.map fun j => (i, j))
          (List.Nodup.of_append_left hnd1)
          (fun p hp => hmem p (List.mem_append_left _ (List.mem_append_left _ hp)))
        have hiV : i ∈ V j := (hmem (i, j) (by simp)).2
        have hnot : (i, j) ∉ ps ++ rest.reverse.map fun j => (i, j) := by
          intro hm
          exact (List.nodup_append.1 hnd1).2.2 hm (List.mem_singleton_self _)
        have hiV1 : i ∈ Vrem V (ps ++ rest.reverse.map fun j => (i, j)) j := by
          simp only [Vrem, List.mem_filter, decide_eq_true_eq]
          exact ⟨hiV, hnot⟩
        have hre := Shape.relink_unlink ok hq hjK hiV1
        refine ⟨?_, _, ?_, ?_, doneRev ++ [j], rest, ?_, rfl, rfl⟩
        · intro heq
          exact hjd (ok.inj i j i d hjK hd hje he heq).2
        · rw [ht]
          simp only [List.reverse_cons, List.map_append, List.map_cons, List.map_nil,
            ← List.append_assoc]
          rw [unlinkAll_append]
          simpa [unlinkAll] using hre
        · have hc := (hq.row_chain hd he).rev
          rw [← List.map_reverse, ← hsplit, List.map_append, List.map_cons] at hc
          have hn := hc.next_mid
          simp only [getLeft, ok.ne_zero i j, if_false, hn]
        · rw [← hsplit]; simp)
    ((rowOthers ent K i d).reverse.map (addr i))
    (unlinkAll addr h0 (ps ++ (rowOthers ent K i d).map fun j => (i, j))) fuel
    (by have := rowOthers_length_lt (K := K) hd he; simp; omega)
    ⟨[], (rowOthers ent K i d).reverse, rfl, rfl, by simp⟩
  obtain ⟨s1, hrun, doneRev, remRev, hsplit, hrem, hs⟩ := hrule
  have hremR : remRev = [] := by
    cases remRev with
    | nil => rfl
    | cons a b => simp at hrem
  subst hremR
  simp only [List.reverse_nil, List.map_nil, List.append_nil] at hs
  subst hs
  have hfull := Shape.unlink_all ok sh _ hnd hmem
  have hc := (hfull.row_chain hd he).rev
  rw [← List.map_reverse] at hc
  rw [hc.next_head]
  exact hrun

theorem coverOps_mem_ok {K : Nat} {addr : Nat → Nat → Nat} {ent : Nat → Nat → Bool}
    {names : List String} {act : List Nat} {V : Nat → List Nat} {h : Heap}
    (_sh : Shape K addr ent names act V h) {d : Nat}
    (hcons : ∀ i ∈ V d, ∀ j ∈ rowOthers ent K i d, i ∈ V j) :
    ∀ p ∈ coverOps ent K d (V d), p.2 < K ∧ p.1 ∈ V p.2 := by
  intro p hp
  obtain ⟨h1, h2⟩ := mem_coverOps.1 hp
  exact ⟨(mem_rowOthers.1 h2).1, hcons _ h1 _ h2⟩

/-- The whole of `uncoverColumn` after `coverColumn`: the memory is again what it was
before `coverColumn`. -/
theorem Shape.uncover {K : Nat} {addr : Nat → Nat → Nat} {ent : Nat → Nat → Bool}
    {names : List String} {act : List Nat} {V : Nat → List Nat} {h : Heap}
    (ok : AddrOk K addr ent) (sh : Shape K addr ent names act V h) {d : Nat} (hd : d ∈ act)
    (hcons : ∀ i ∈ V d, ∀ j ∈ rowOthers ent K i d, i ∈ V j)
    {fuel : Nat} (hf1 : (V d).length < fuel) (hf2 : K ≤ fuel) :
    uncoverColumn fuel (coverPure addr ent K h d (V d)) (colAddr d) = some h := by
  have dK : d < K := sh.act_lt d hd
  obtain ⟨_, _, _, _, sh0⟩ := sh.unlink_header ok hd
  have hVd := sh.v_nodup dK
  have hallnd : (coverOps ent K d (V d)).Nodup := coverOps_nodup hVd dK (sh.vent d dK)
  have hallmem := coverOps_mem_ok sh hcons
  have hrule := forRing_rule getUp
    (fun h1 i => obind (getLeft h1 i) fun j => forRing getLeft relinkNode i fuel h1 j)
    (colAddr d)
    (fun rem s => ∃ doneRev remRev, doneRev ++ remRev = (V d).reverse ∧
      rem = remRev.map (fun i => addr i d) ∧
      s = unlinkAll addr (unlinkHeader h (colAddr d)) (coverOps ent K d remRev.reverse))
    (by
      rintro y ys s ⟨doneRev, remRev, hsplit, hrem, hs⟩
      cases remRev with
      | nil => simp at hrem
      | cons i rest =>
        simp only [List.map_cons, List.cons.injEq] at hrem
        obtain ⟨rfl, rfl⟩ := hrem
        have hV : V d = (rest.reverse ++ [i]) ++ doneRev.reverse := by
          have := congrArg List.reverse hsplit
          simpa using this.symm
        have him : i ∈ V d := by rw [hV]; simp
        have hie := sh.vent d dK i him
        have hpre : coverOps ent K d (V d) =
            (coverOps ent K d rest.reverse ++ (rowOthers ent K i d).map fun j => (i, j)) ++
              coverOps ent K d doneRev.reverse := by
          rw [hV, coverOps_append, coverOps_snoc]
        rw [hpre] at hallnd hallmem
        have hnd1 := List.Nodup.of_append_left hallnd
        have hmem1 : ∀ p ∈ coverOps ent K d rest.reverse ++
            (rowOthers ent K i d).map fun j => (i, j), p.2 < K ∧ p.1 ∈ V p.2 :=
          fun p hp => hallmem p (List.mem_append_left _ hp)
        have hrow := Shape.uncover_row ok sh0 dK hie hnd1 hmem1 hf2
        have hq := Shape.unlink_all ok sh0 (coverOps ent K d rest.reverse)
          (List.Nodup.of_append_left hnd1)
          (fun p hp => hmem1 p (List.mem_append_left _ hp))
        refine ⟨ok.ne_col _ _ dK, _, ?_, ?_, doneRev ++ [i], rest, ?_, rfl, rfl⟩
        · rw [hs]
          simp only [getLeft, ok.ne_zero i d, if_false, obind_some, List.reverse_cons,
            coverOps_snoc]
          exact hrow
        · have hv := (hq.vring d dK).reverse.chain
          rw [Vrem_coverOps_self, ← List.map_reverse, ← hsplit, List.map_append,
            List.map_cons] at hv
          have hn := hv.next_mid
          simp only [getUp, ok.ne_zero i d, if_false, hn]
        · rw [← hsplit]; simp)
    ((V d).reverse.map fun i => addr i d) (coverPure addr ent K h d (V d)) fuel
    (by simpa using hf1)
    ⟨[], (V d).reverse, rfl, rfl, by simp [coverPure]⟩
  obtain ⟨s1, hrun, doneRev, remRev, hsplit, hrem, hs⟩ := hrule
  have hremR : remRev = [] := by
    cases remRev with
    | nil => rfl
    | cons a b => simp at hrem
  subst hremR
  simp only [List.reverse_nil, coverOps, List.flatMap_nil, unlinkAll, List.foldl_nil] at hs
  subst hs
  have hfull := Shape.unlink_all ok sh0 _ hallnd hallmem
  have hv := (hfull.vring d dK).reverse.chain
  rw [Vrem_coverOps_self, ← List.map_reverse] at hv
  have hstart := hv.next_head
  simp only [uncoverColumn, getUp, colAddr_ne_zero, if_false, obind_some]
  rw [show (coverPure addr ent K h d (V d)).up (colAddr d) =
      ((V d).reverse.map fun i => addr i d).headD (colAddr d) from hstart, hrun]
  simp only [obind_some]
  exact Shape.relink_header ok sh hd

end Dlx

namespace Dlx

/-! ## The addresses of the cells -/

theorem rowCount_succ (ent : Nat → Nat → Bool) (i j : Nat) :
    rowCount ent i (j + 1) = rowCount ent i j + (if ent i j = true then 1 else 0) := by
  simp only [rowCount, List.range_succ, List.filter_append, List.length_append]
  by_cases h : ent i j = true <;> simp [h]

theorem rowCount_mono (ent : Nat → Nat → Bool) (i : Nat) {j j1 : Nat} (h : j ≤ j1) :
    rowCount ent i j ≤ rowCount ent i j1 := by
  induction h with
  | refl => exact Nat.le_refl _
  | step _ ih => rw [rowCount_succ]; omega

theorem rowCount_lt {ent : Nat → Nat → Bool} {i j j1 : Nat} (h : j < j1) (he : ent i j = true) :
    rowCount ent i j < rowCount ent i j1 := by
  have h1 := rowCount_mono ent i (Nat.succ_le_of_lt h)
  rw [rowCount_succ] at h1
  simp only [he, if_true] at h1
  omega

theorem cellsBefore_succ (ent : Nat → Nat → Bool) (K i : Nat) :
    cellsBefore ent K (i + 1) = cellsBefore ent K i + rowCount ent i K := by
  simp [cellsBefore, List.range_succ]

theorem cellsBefore_mono (ent : Nat → Nat → Bool) (K : Nat) {i i1 : Nat} (h : i ≤ i1) :
    cellsBefore ent K i ≤ cellsBefore ent K i1 := by
  induction h with
  | refl => exact Nat.le_refl _
  | step _ ih => rw [cellsBefore_succ]; omega

theorem cellAddr_lt_of_row_lt {ent : Nat → Nat → Bool} {K i j i1 j1 : Nat} (h : i < i1)
    (hj : j < K) (he : ent i j = true) : cellAddr ent K i j < cellAddr ent K i1 j1 := by
  have h1 := cellsBefore_mono ent K (Nat.succ_le_of_lt h)
  rw [cellsBefore_succ] at h1
  have h2 := rowCount_lt hj he
  simp only [cellAddr]
  omega

theorem cellAddr_ok (ent : Nat → Nat → Bool) (K : Nat) : AddrOk K (cellAddr ent K) ent := by
  refine ⟨?_, fun i j => by simp only [cellAddr]; omega⟩
  intro i j i1 j1 hj hj1 he he1 heq
  rcases Nat.lt_trichotomy i i1 with h | h | h
  · have := @cellAddr_lt_of_row_lt ent K i j i1 j1 h hj he; omega
  · subst h
    refine ⟨rfl, ?_⟩
    rcases Nat.lt_trichotomy j j1 with h | h | h
    · have := rowCount_lt h he; simp only [cellAddr] at heq; omega
    · exact h
    · have := rowCount_lt h he1; simp only [cellAddr] at heq; omega
  · have := @cellAddr_lt_of_row_lt ent K i1 j1 i j h hj1 he1; omega

/-! ## Covered columns -/

theorem takeWhile_ne_of_not_mem {C : List Nat} {d : Nat} (h : d ∉ C) :
    C.takeWhile (fun c => decide (c ≠ d)) = C := by
  rw [List.takeWhile_eq_self_iff]
  intro c hc
  simp only [decide_eq_true_eq]
  rintro rfl
  exact h hc

theorem takeWhile_ne_append_of_mem {C : List Nat} {d : Nat} (h : d ∈ C) (X : List Nat) :
    (C ++ X).takeWhile (fun c => decide (c ≠ d)) = C.takeWhile (fun c => decide (c ≠ d)) := by
  induction C with
  | nil => simp at h
  | cons c C ih =>
    by_cases hcd : c = d
    · subst hcd; simp [List.takeWhile]
    · have hm : d ∈ C := by
        rcases List.mem_cons.1 h with h1 | h1
        · exact absurd h1.symm hcd
        · exact h1
      have hp : decide (c ≠ d) = true := by simpa using hcd
      rw [List.cons_append, List.takeWhile_cons, List.takeWhile_cons]
      simp only [hp, if_true]
      rw [ih hm]

theorem aliveRow_iff {ent : Nat → Nat → Bool} {C : List Nat} {i : Nat} :
    aliveRow ent C i = true ↔ ∀ c ∈ C, ent i c = false := by
  simp [aliveRow]

theorem aliveRow_append {ent : Nat → Nat → Bool} {C D : List Nat} {i : Nat} :
    aliveRow ent (C ++ D) i = (aliveRow ent C i && aliveRow ent D i) := by
  simp [aliveRow]

theorem mem_actCols {K : Nat} {C : List Nat} {d : Nat} : d ∈ actCols K C ↔ d < K ∧ d ∉ C := by
  simp [actCols]

theorem actCols_nodup (K : Nat) (C : List Nat) : (actCols K C).Nodup :=
  (List.nodup_range K).filter _

theorem actCols_snoc (K : Nat) (C : List Nat) (d : Nat) :
    actCols K (C ++ [d]) = (actCols K C).erase d := by
  rw [List.Nodup.erase_eq_filter (actCols_nodup K C)]
  simp only [actCols, List.filter_filter]
  apply List.filter_congr
  intro x _
  by_cases h1 : x = d <;> by_cases h2 : x ∈ C <;> simp [h1, h2]

theorem colRows_of_not_mem {ent : Nat → Nat → Bool} {R : Nat} {C : List Nat} {d : Nat}
    (hd : d ∉ C) :
    colRows ent R C d = (List.range R).filter fun i => ent i d && aliveRow ent C i := by
  simp only [colRows, takeWhile_ne_of_not_mem hd]

theorem mem_colRows_of_not_mem {ent : Nat → Nat → Bool} {R : Nat} {C : List Nat} {d i : Nat}
    (hd : d ∉ C) : i ∈ colRows ent R C d ↔ i < R ∧ ent i d = true ∧ aliveRow ent C i = true := by
  rw [colRows_of_not_mem hd]
  simp only [List.mem_filter, List.mem_range, Bool.and_eq_true]

theorem colRows_length_le (ent : Nat → Nat → Bool) (R : Nat) (C : List Nat) (d : Nat) :
    (colRows ent R C d).length ≤ R := by
  have := List.length_filter_le
    (fun i => ent i d && aliveRow ent (C.takeWhile fun c => decide (c ≠ d)) i) (List.range R)
  simpa [colRows] using this

/-- A row of an active column is in the rings of all its columns. -/
theorem colRows_cons {ent : Nat → Nat → Bool} {R K : Nat} {C : List Nat} {d : Nat} (hd : d ∉ C) :
    ∀ i ∈ colRows ent R C d, ∀ j ∈ rowOthers ent K i d, i ∈ colRows ent R C j := by
  intro i hi j hj
  obtain ⟨h1, _, h3⟩ := (mem_colRows_of_not_mem hd).1 hi
  obtain ⟨_, hje, _⟩ := mem_rowOthers.1 hj
  have hjC : j ∉ C := by
    intro hm
    have := aliveRow_iff.1 h3 j hm
    rw [hje] at this
    cases this
  exact (mem_colRows_of_not_mem hjC).2 ⟨h1, hje, h3⟩

/-- The rows of the column rings after `coverColumn` on the active column `d`. -/
theorem colRows_snoc {ent : Nat → Nat → Bool} {R K : Nat} {C : List Nat} {d : Nat}
    (hd : d ∉ C) {d1 : Nat} (hd1 : d1 < K) :
    Vrem (colRows ent R C) (coverOps ent K d (colRows ent R C d)) d1 =
      colRows ent R (C ++ [d]) d1 := by
  by_cases hdd : d1 = d
  · subst hdd
    rw [Vrem_coverOps_self]
    simp only [colRows]
    congr 1
    funext i
    have h1 : (C ++ [d1]).takeWhile (fun c => decide (c ≠ d1)) = C := by
      rw [List.takeWhile_append, takeWhile_ne_of_not_mem hd]
      simp
    rw [h1, takeWhile_ne_of_not_mem hd]
  · by_cases hC : d1 ∈ C
    · have h1 : colRows ent R (C ++ [d]) d1 = colRows ent R C d1 := by
        simp only [colRows, takeWhile_ne_append_of_mem hC]
      rw [h1]
      simp only [Vrem]
      rw [List.filter_eq_self]
      intro i _
      simp only [decide_eq_true_eq]
      intro hm
      obtain ⟨h2, h3⟩ := mem_coverOps.1 hm
      have h4 := ((mem_colRows_of_not_mem hd).1 h2).2.2
      have h5 := aliveRow_iff.1 h4 d1 hC
      have h6 := (mem_rowOthers.1 h3).2.1
      simp only at h6
      rw [h6] at h5
      cases h5
    · have hC1 : d1 ∉ C ++ [d] := by simp [hC, hdd]
      simp only [Vrem]
      rw [colRows_of_not_mem hC, colRows_of_not_mem hC1, List.filter_filter]
      apply List.filter_congr
      intro i hi
      have hiR : i < R := List.mem_range.1 hi
      have hsingle : aliveRow ent [d] i = !ent i d := by simp [aliveRow]
      rw [aliveRow_append, hsingle]
      by_cases he1 : ent i d1 = true
      · by_cases ha : aliveRow ent C i = true
        · by_cases he : ent i d = true
          · have hm : (i, d1) ∈ coverOps ent K d (colRows ent R C d) := by
              refine mem_coverOps.2 ⟨(mem_colRows_of_not_mem hd).2 ⟨hiR, he, ha⟩, ?_⟩
              exact mem_rowOthers.2 ⟨hd1, he1, hdd⟩
            simp only [he1, ha, he, hm, not_true_eq_false, decide_False, Bool.false_and,
              Bool.not_true, Bool.and_false]
          · have hm : (i, d1) ∉ coverOps ent K d (colRows ent R C d) := by
              intro hm
              exact he ((mem_colRows_of_not_mem hd).1 (mem_coverOps.1 hm).1).2.1
            simp only [Bool.not_eq_true] at he
            simp only [he1, ha, he, hm, not_false_eq_true, decide_True, Bool.and_self,
              Bool.not_false]
        · simp only [Bool.not_eq_true] at ha
          simp only [he1, ha, Bool.and_false, Bool.false_and]
      · simp only [Bool.not_eq_true] at he1
        simp only [he1, Bool.false_and, Bool.and_false]

end Dlx

namespace Dlx

theorem Shape.congr_V {K : Nat} {addr : Nat → Nat → Nat} {ent : Nat → Nat → Bool}
    {names : List String} {act : List Nat} {V V1 : Nat → List Nat} {h : Heap}
    (hV : ∀ d, d < K → V d = V1 d) (sh : Shape K addr ent names act V h) :
    Shape K addr ent names act V1 h :=
  { root_is := sh.root_is, hring := sh.hring, act_lt := sh.act_lt, col_is := sh.col_is,
    col_col := sh.col_col, col_name := sh.col_name, cell_col := sh.cell_col,
    cell_is := sh.cell_is, rring := sh.rring,
    vring := fun d hd => by rw [← hV d hd]; exact sh.vring d hd
    vent := fun d hd => by rw [← hV d hd]; exact sh.vent d hd
    size := fun d hd => by rw [← hV d hd]; exact sh.size d hd }

/-- `coverColumn` on the header of a column that is not covered: it runs, the mesh is that
of the matrix with this column covered too, and `uncoverColumn` on the same header then
gives back the memory as it was. -/
theorem Repr.cover {R K : Nat} {ent : Nat → Nat → Bool} {names : List String} {C : List Nat}
    {h : Heap} (hr : Repr R K ent names C h) {d : Nat} (hd : d < K) (hdC : d ∉ C)
    {fuel : Nat} (hf1 : R < fuel) (hf2 : K ≤ fuel) :
    coverColumn fuel h (colAddr d) = some (coverM ent R K C h d) ∧
      Repr R K ent names (C ++ [d]) (coverM ent R K C h d) ∧
      uncoverColumn fuel (coverM ent R K C h d) (colAddr d) = some h := by
  have ok := cellAddr_ok ent K
  have hact : d ∈ actCols K C := mem_actCols.2 ⟨hd, hdC⟩
  have hlen : (colRows ent R C d).length < fuel :=
    Nat.lt_of_le_of_lt (colRows_length_le ent R C d) hf1
  have hcons := @colRows_cons ent R K _ _ hdC
  obtain ⟨h1, h2⟩ := Shape.cover_column ok hr hact hcons hlen hf2
  refine ⟨h1, ?_, Shape.uncover ok hr hact hcons hlen hf2⟩
  simp only [Repr]
  rw [actCols_snoc]
  exact Shape.congr_V (fun d1 hd1 => colRows_snoc hdC hd1) h2

theorem coverManyM_snoc (ent : Nat → Nat → Bool) (R K : Nat) (C : List Nat) (h : Heap)
    (ds : List Nat) (d : Nat) :
    coverManyM ent R K C h (ds ++ [d]) =
      coverM ent R K (C ++ ds) (coverManyM ent R K C h ds) d := by
  induction ds generalizing C h with
  | nil => simp [coverManyM]
  | cons x xs ih => simp [coverManyM, ih]

/-- The mesh after `coverColumn` on several columns that are not covered. -/
theorem Repr.coverMany {R K : Nat} {ent : Nat → Nat → Bool} {names : List String}
    {C : List Nat} {h : Heap} (hr : Repr R K ent names C h) (ds : List Nat)
    (hnd : ds.Nodup) (hds : ∀ d ∈ ds, d < K ∧ d ∉ C) :
    Repr R K ent names (C ++ ds) (coverManyM ent R K C h ds) := by
  induction ds using List.reverseRecOn with
  | nil => simpa [coverManyM] using hr
  | append_singleton ds d ih =>
    have hnd1 := List.Nodup.of_append_left hnd
    have ih1 := ih hnd1 (fun x hx => hds x (List.mem_append_left _ hx))
    obtain ⟨hdK, hdC⟩ := hds d (by simp)
    have hdds : d ∉ ds := fun hm =>
      (List.nodup_append.1 hnd).2.2 hm (List.mem_singleton_self _)
    rw [coverManyM_snoc, ← List.append_assoc]
    have hnot : d ∉ C ++ ds := by simp [hdC, hdds]
    exact (Repr.cover ih1 hdK hnot (by omega : R < R + K + 1) (by omega : K ≤ R + K + 1)).2.1

end Dlx

namespace Dlx

/-! ## The ring of the headers is built -/

theorem Chain.next_last {nxt prv : Nat → Nat} {a b : Nat} {xs : List Nat}
    (hc : Chain nxt prv a xs b) : nxt ((a :: xs).getLast (List.cons_ne_nil _ _)) = b := by
  induction xs generalizing a with
  | nil => exact hc.1
  | cons x xs ih =>
    simp only [Chain] at hc
    rw [List.getLast_cons (List.cons_ne_nil _ _)]
    exact ih hc.2.2

theorem Ring.single {nxt prv : Nat → Nat} {c : Nat} : Ring nxt prv [c] ↔ nxt c = c ∧ prv c = c := by
  simp [Ring, Chain]

theorem hring_getLast (k : Nat) :
    (rootAddr :: (List.range k).map colAddr).getLast (List.cons_ne_nil _ _) = k + 1 := by
  cases k with
  | zero => simp [rootAddr]
  | succ k =>
    rw [List.getLast_cons (by simp)]
    simp [List.range_succ, colAddr]

theorem rowCols_false (K i : Nat) : rowCols (fun _ _ => false) K i = [] := by
  simp [rowCols]

/-- One turn of the loop of `initColumnHeaders`. -/
theorem initColumnHeadersStep_shape {addr : Nat → Nat → Nat} {names : List String} {k : Nat}
    {h : Heap} {name : String} (hname : names.getD k "" = name) (hcount : h.count = k + 1)
    (sh : Shape k addr (fun _ _ => false) names (List.range k) (fun _ => []) h) :
    initColumnHeadersStep (h, k + 1) name = some (insertHeader h (k + 2) (k + 1) name, k + 2) ∧
      Shape (k + 1) addr (fun _ _ => false) names (List.range (k + 1)) (fun _ => [])
        (insertHeader h (k + 2) (k + 1) name) := by
  have hlast := hring_getLast k
  have hnext : h.right (k + 1) = rootAddr := by
    have := sh.hring.chain.next_last
    rwa [hlast] at this
  have hnr : (k + 2 : Nat) ≠ rootAddr := by simp [rootAddr]
  refine ⟨?_, ?_⟩
  · simp [initColumnHeadersStep, Heap.alloc, setUp, setDown, setColumn, setName, getRight,
      setRight, setLeft, insertHeader, hnext, rootAddr, upd_ne, hcount]
  · have hmem : ∀ d, d < k → colAddr d ≠ k + 2 := by
      intro d hd; simp only [colAddr]; omega
    refine
      { root_is := ?_, hring := ?_, act_lt := ?_, col_is := ?_, col_col := ?_, col_name := ?_,
        cell_col := ?_, cell_is := ?_, rring := ?_, vring := ?_, vent := ?_, size := ?_ }
    · simp only [insertHeader]
      rw [upd_ne _ _ (Ne.symm hnr)]
      exact sh.root_is
    · have hnd := sh.hring.nodup
      have hn : k + 2 ∉ rootAddr :: (List.range k).map colAddr := by
        simp only [List.mem_cons, List.mem_map, List.mem_range, not_or, not_exists, not_and]
        exact ⟨hnr, fun d hd => hmem d hd⟩
      have hb : rootAddr ∉ (List.range k).map colAddr := (List.nodup_cons.1 hnd).1
      have hc := Chain.insert_last sh.hring.chain hnd hn hnr hb
      rw [hlast] at hc
      refine ⟨?_, ?_⟩
      · simp only [List.range_succ, List.map_append, List.map_cons, List.map_nil]
        have h2 : (rootAddr :: (List.range k).map colAddr ++ [colAddr k]).Nodup := by
          rw [List.nodup_append]
          refine ⟨hnd, List.nodup_singleton _, ?_⟩
          intro x hx hx1
          simp only [List.mem_singleton] at hx1
          subst hx1
          exact hn hx
        simpa using h2
      · simp only [List.range_succ, List.map_append, List.map_cons, List.map_nil]
        exact hc
    · intro d hd
      exact List.mem_range.1 hd
    · intro d hd
      simp only [insertHeader]
      by_cases hdk : d = k
      · subst hdk; simp [colAddr]
      · rw [upd_ne _ _ (hmem d (by omega))]; exact sh.col_is d (by omega)
    · intro d hd
      simp only [insertHeader]
      by_cases hdk : d = k
      · subst hdk; simp [colAddr]
      · rw [upd_ne _ _ (hmem d (by omega))]; exact sh.col_col d (by omega)
    · intro d hd
      simp only [insertHeader]
      by_cases hdk : d = k
      · subst hdk; simp only [colAddr, upd_same]; exact hname.symm
      · rw [upd_ne _ _ (hmem d (by omega))]; exact sh.col_name d (by omega)
    · intro d hd
      simp only [List.map_nil, insertHeader]
      rw [Ring.single]
      by_cases hdk : d = k
      · subst hdk; simp [colAddr]
      · rw [upd_ne _ _ (hmem d (by omega)), upd_ne _ _ (hmem d (by omega))]
        have := sh.vring d (by omega)
        simp only [List.map_nil] at this
        exact Ring.single.1 this
    · intro d _ i hi; simp at hi
    · intro d hd
      simp only [insertHeader, List.length_nil, Nat.cast_zero]
      by_cases hdk : d = k
      · subst hdk; simp [colAddr]
      · rw [upd_ne _ _ (hmem d (by omega))]
        simpa using sh.size d (by omega)
    · intro i j _ he; cases he
    · intro i j _ he; cases he
    · intro i
      rw [rowCols_false]
      exact ⟨List.nodup_nil, trivial⟩

theorem initColumnHeadersLoop_shape {addr : Nat → Nat → Nat} {names : List String} :
    ∀ (rest pre : List String) (h : Heap), names = pre ++ rest → h.count = pre.length + 1 →
      Shape pre.length addr (fun _ _ => false) names (List.range pre.length) (fun _ => []) h →
      ∃ h1, initColumnHeadersLoop (h, pre.length + 1) rest = some (h1, names.length + 1) ∧
        h1.count = names.length + 1 ∧
        Shape names.length addr (fun _ _ => false) names (List.range names.length)
          (fun _ => []) h1 := by
  intro rest
  induction rest with
  | nil =>
    intro pre h hn hc sh
    simp only [List.append_nil] at hn
    subst hn
    exact ⟨h, rfl, hc, sh⟩
  | cons name rest ih =>
    intro pre h hn hc sh
    have hname : names.getD pre.length "" = name := by
      rw [hn, List.getD_eq_getElem?_getD, List.getElem?_append_right (Nat.le_refl _)]
      simp
    obtain ⟨h1, h2⟩ := initColumnHeadersStep_shape hname hc sh
    have hn1 : names = (pre ++ [name]) ++ rest := by rw [hn]; simp
    have hl : (pre ++ [name]).length = pre.length + 1 := by simp
    obtain ⟨h3, h4, h5, h6⟩ := ih (pre ++ [name]) (insertHeader h (pre.length + 2) (pre.length + 1) name)
      hn1 (by rw [hl]; rfl) (by rw [hl]; exact h2)
    refine ⟨h3, ?_, h5, h6⟩
    simp only [initColumnHeadersLoop, h1, obind_some]
    rw [hl] at h4
    exact h4

/-- `initColumnHeaders` makes the root, at address 1, and the headers of the columns, in
the order of the names, each alone in its column ring and of size 0. -/
theorem initColumnHeaders_shape (addr : Nat → Nat → Nat) (names : List String) :
    ∃ h, initColumnHeaders Heap.empty names = some (h, rootAddr) ∧
      h.count = names.length + 1 ∧
      Shape names.length addr (fun _ _ => false) names (List.range names.length)
        (fun _ => []) h := by
  have h0 : Shape 0 addr (fun _ _ => false) names (List.range 0) (fun _ => [])
      { count := 1, isColumn := upd (fun _ => false) 1 true,
        left := upd (upd (fun _ => 0) 1 0) 1 1, right := upd (upd (fun _ => 0) 1 0) 1 1,
        up := upd (fun _ => 0) 1 0, down := upd (fun _ => 0) 1 0,
        column := upd (fun _ => 0) 1 0, size := upd (fun _ => 0) 1 0,
        name := upd (fun _ => "") 1 "" } := by
    refine
      { root_is := by simp [rootAddr], hring := ?_, act_lt := by simp,
        col_is := fun d hd => absurd hd (Nat.not_lt_zero d),
        col_col := fun d hd => absurd hd (Nat.not_lt_zero d),
        col_name := fun d hd => absurd hd (Nat.not_lt_zero d),
        vring := fun d hd => absurd hd (Nat.not_lt_zero d),
        vent := fun d hd => absurd hd (Nat.not_lt_zero d),
        size := fun d hd => absurd hd (Nat.not_lt_zero d),
        cell_col := fun i j hj => absurd hj (Nat.not_lt_zero j),
        cell_is := fun i j hj => absurd hj (Nat.not_lt_zero j), rring := ?_ }
    · simp only [List.range_zero, List.map_nil]
      rw [Ring.single]
      simp [rootAddr]
    · intro i
      rw [rowCols_false]
      exact ⟨List.nodup_nil, trivial⟩
  obtain ⟨h1, h2, h3, h4⟩ := @initColumnHeadersLoop_shape _ names names [] _ rfl rfl h0
  refine ⟨h1, ?_, h3, h4⟩
  simp only [initColumnHeaders, Heap.alloc, Heap.empty, setLeft, setRight, Nat.zero_add,
    Nat.one_ne_zero, if_false, obind_some]
  simp only [List.length_nil, Nat.zero_add] at h2
  rw [h2]
  rfl

end Dlx

namespace Dlx

/-! ## The entries made so far -/

theorem truncEnt_iff {ent : Nat → Nat → Bool} {i j i1 j1 : Nat} :
    truncEnt ent i j i1 j1 = true ↔ ent i1 j1 = true ∧ (i1 < i ∨ (i1 = i ∧ j1 < j)) := by
  simp [truncEnt]

theorem truncEnt_succ_of_true {ent : Nat → Nat → Bool} {i j i1 j1 : Nat} (he : ent i j = true) :
    truncEnt ent i (j + 1) i1 j1 = true ↔ truncEnt ent i j i1 j1 = true ∨ (i1 = i ∧ j1 = j) := by
  rw [truncEnt_iff, truncEnt_iff]
  constructor
  · rintro ⟨h1, h2 | ⟨h2, h3⟩⟩
    · exact Or.inl ⟨h1, Or.inl h2⟩
    · by_cases hj : j1 = j
      · exact Or.inr ⟨h2, hj⟩
      · exact Or.inl ⟨h1, Or.inr ⟨h2, by omega⟩⟩
  · rintro (⟨h1, h2 | ⟨h2, h3⟩⟩ | ⟨h1, h2⟩)
    · exact ⟨h1, Or.inl h2⟩
    · exact ⟨h1, Or.inr ⟨h2, by omega⟩⟩
    · subst h1; subst h2; exact ⟨he, Or.inr ⟨rfl, by omega⟩⟩

theorem truncEnt_succ_of_false {ent : Nat → Nat → Bool} {i j : Nat} (he : ent i j = false) :
    truncEnt ent i (j + 1) = truncEnt ent i j := by
  funext i1 j1
  rw [Bool.eq_iff_iff, truncEnt_iff, truncEnt_iff]
  constructor
  · rintro ⟨h1, h2 | ⟨h2, h3⟩⟩
    · exact ⟨h1, Or.inl h2⟩
    · refine ⟨h1, Or.inr ⟨h2, ?_⟩⟩
      by_cases hj : j1 = j
      · subst h2; subst hj; rw [he] at h1; cases h1
      · omega
  · rintro ⟨h1, h2 | ⟨h2, h3⟩⟩
    · exact ⟨h1, Or.inl h2⟩
    · exact ⟨h1, Or.inr ⟨h2, by omega⟩⟩

theorem buildRows_succ_of_false {ent : Nat → Nat → Bool} {i j : Nat} (he : ent i j = false) :
    buildRows ent i (j + 1) = buildRows ent i j := by
  funext d
  simp only [buildRows]
  congr 1
  by_cases hd : d = j
  · subst hd; simp [he]
  · have : d < j + 1 ↔ d < j := by omega
    simp only [this]

theorem buildRows_succ_same {ent : Nat → Nat → Bool} {i j : Nat} (he : ent i j = true) :
    buildRows ent i (j + 1) j = buildRows ent i j j ++ [i] := by
  simp [buildRows, he]

theorem buildRows_succ_other {ent : Nat → Nat → Bool} {i j d : Nat} (hd : d ≠ j) :
    buildRows ent i (j + 1) d = buildRows ent i j d := by
  simp only [buildRows]
  have : d < j + 1 ↔ d < j := by omega
  simp only [this]

theorem mem_buildRows {ent : Nat → Nat → Bool} {i j d i1 : Nat} :
    i1 ∈ buildRows ent i j d ↔ ent i1 d = true ∧ (i1 < i ∨ (i1 = i ∧ d < j)) := by
  simp only [buildRows, List.mem_append, List.mem_filter, List.mem_range]
  split_ifs with h
  · simp only [List.mem_singleton]
    constructor
    · rintro (⟨h1, h2⟩ | h1)
      · exact ⟨h2, Or.inl h1⟩
      · subst h1; exact ⟨h.2, Or.inr ⟨rfl, h.1⟩⟩
    · rintro ⟨h1, h2 | ⟨h2, _⟩⟩
      · exact Or.inl ⟨h2, h1⟩
      · exact Or.inr h2
  · simp only [List.not_mem_nil, or_false]
    constructor
    · rintro ⟨h1, h2⟩; exact ⟨h2, Or.inl h1⟩
    · rintro ⟨h1, h2 | ⟨h2, h3⟩⟩
      · exact ⟨h2, h1⟩
      · subst h2; exact absurd ⟨h3, h1⟩ h

theorem filter_range_lt (p : Nat → Bool) {j K : Nat} (hj : j ≤ K) :
    (List.range K).filter (fun j1 => p j1 && decide (j1 < j)) = (List.range j).filter p := by
  induction K with
  | zero =>
    have : j = 0 := by omega
    subst this; simp
  | succ K ih =>
    by_cases hjK : j = K + 1
    · subst hjK
      apply List.filter_congr
      intro x hx
      have := List.mem_range.1 hx
      simp [this]
    · rw [List.range_succ, List.filter_append, ih (by omega)]
      have : ¬ K < j := by omega
      simp [this]

theorem rowCols_truncEnt_lt {ent : Nat → Nat → Bool} {K i j i1 : Nat} (h : i1 < i) :
    rowCols (truncEnt ent i j) K i1 = rowCols ent K i1 := by
  simp only [rowCols]
  apply List.filter_congr
  intro x _
  simp [truncEnt, h]

theorem rowCols_truncEnt_gt {ent : Nat → Nat → Bool} {K i j i1 : Nat} (h : i < i1) :
    rowCols (truncEnt ent i j) K i1 = [] := by
  simp only [rowCols]
  rw [List.filter_eq_nil_iff]
  intro x _
  have h1 : ¬ i1 < i := by omega
  have h2 : ¬ i1 = i := by omega
  simp [truncEnt, h1, h2]

theorem rowCols_truncEnt_same {ent : Nat → Nat → Bool} {K i j : Nat} (h : j ≤ K) :
    rowCols (truncEnt ent i j) K i = (List.range j).filter (ent i) := by
  simp only [rowCols]
  rw [← filter_range_lt (ent i) h]
  apply List.filter_congr
  intro x _
  simp [truncEnt]

theorem rowCols_truncEnt_other {ent : Nat → Nat → Bool} {K i j j1 i1 : Nat} (h : i1 ≠ i) :
    rowCols (truncEnt ent i j) K i1 = rowCols (truncEnt ent i j1) K i1 := by
  rcases Nat.lt_or_gt_of_ne h with h1 | h1
  · rw [rowCols_truncEnt_lt h1, rowCols_truncEnt_lt h1]
  · rw [rowCols_truncEnt_gt h1, rowCols_truncEnt_gt h1]

theorem cellAddr_lt_of_before {ent : Nat → Nat → Bool} {K i j i1 j1 : Nat}
    (he : truncEnt ent i j i1 j1 = true) (hj1 : j1 < K) :
    cellAddr ent K i1 j1 < cellAddr ent K i j := by
  obtain ⟨h1, h2 | ⟨h2, h3⟩⟩ := truncEnt_iff.1 he
  · exact cellAddr_lt_of_row_lt h2 hj1 h1
  · subst h2
    have := rowCount_lt h3 h1
    simp only [cellAddr]; omega

theorem truncEnt_ok (ent : Nat → Nat → Bool) (K i j : Nat) :
    AddrOk K (cellAddr ent K) (truncEnt ent i j) := by
  have ok := cellAddr_ok ent K
  exact ⟨fun a b c d hb hd h1 h2 => ok.inj a b c d hb hd (truncEnt_iff.1 h1).1 (truncEnt_iff.1 h2).1,
    ok.ge⟩

/-! ## The two inner loops of `initNodes` -/

theorem chain_range_head {nxt prv : Nat → Nat} {r b : Nat} {f : Nat → Nat} :
    ∀ {K : Nat}, 0 < K → Chain nxt prv r ((List.range K).map f) b → nxt r = f 0 := by
  intro K
  induction K generalizing b with
  | zero => intro h; omega
  | succ K ih =>
    intro _ hc
    rw [List.range_succ, List.map_append, List.map_cons, List.map_nil, Chain.snoc] at hc
    cases K with
    | zero => simpa [Chain] using hc.1.1
    | succ K => exact ih (Nat.succ_pos K) hc.1

theorem chain_range_next {nxt prv : Nat → Nat} {r b : Nat} {f : Nat → Nat} :
    ∀ {K a : Nat}, a + 1 < K → Chain nxt prv r ((List.range K).map f) b → nxt (f a) = f (a + 1) := by
  intro K
  induction K generalizing b with
  | zero => intro a h; omega
  | succ K ih =>
    intro a ha hc
    rw [List.range_succ, List.map_append, List.map_cons, List.map_nil, Chain.snoc] at hc
    by_cases haK : a + 1 < K
    · exact ih haK hc.1
    · have hK : K = a + 1 := by omega
      subst hK
      have h1 := hc.1
      rw [List.range_succ, List.map_append, List.map_cons, List.map_nil, Chain.snoc] at h1
      exact h1.2.1

theorem walkRight_chain {h : Heap} {prv : Nat → Nat} {r b K : Nat}
    (hc : Chain h.right prv r ((List.range K).map colAddr) b) :
    ∀ (m a : Nat), a + m < K → walkRight h m (colAddr a) = some (colAddr (a + m)) := by
  intro m
  induction m with
  | zero => intro a _; rfl
  | succ m ih =>
    intro a ha
    have h1 := chain_range_next (a := a) (by omega) hc
    simp only [walkRight, getRight, colAddr_ne_zero, if_false, obind_some, h1]
    rw [ih (a + 1) (by omega)]
    congr 2; omega

theorem findUpperNode_chain {h : Heap} {prv : Nat → Nat} {a : Nat} :
    ∀ (ys : List Nat) (y fuel : Nat), Chain h.down prv y ys a → a ∉ ys →
      (∀ x ∈ y :: ys, x ≠ 0) → ys.length < fuel →
      findUpperNode h a fuel y = some ((y :: ys).getLast (List.cons_ne_nil _ _)) := by
  intro ys
  induction ys with
  | nil =>
    intro y fuel hc _ h0 hf
    cases fuel with
    | zero => simp at hf
    | succ fuel =>
      simp only [Chain] at hc
      simp [findUpperNode, getDown, h0 y (by simp), hc.1]
  | cons x xs ih =>
    intro y fuel hc ha h0 hf
    cases fuel with
    | zero => simp at hf
    | succ fuel =>
      simp only [Chain] at hc
      have hxa : x ≠ a := fun hx => ha (by simp [hx])
      simp only [findUpperNode, getDown, h0 y (by simp), if_false, obind_some, hc.1, ne_eq,
        hxa, not_false_eq_true, if_true]
      rw [ih x fuel hc.2.2 (fun hm => ha (List.mem_cons_of_mem _ hm))
        (fun z hz => h0 z (List.mem_cons_of_mem _ hz)) (by simpa using hf)]
      rw [List.getLast_cons (List.cons_ne_nil _ _)]

end Dlx

namespace Dlx

/-! ## One cell is put into the mesh -/

theorem Ring.snoc_fresh {nxt prv : Nat → Nat} {a n : Nat} {xs : List Nat}
    (hr : Ring nxt prv (a :: xs)) (hn : n ∉ a :: xs) :
    Ring (upd (upd nxt n a) ((a :: xs).getLast (List.cons_ne_nil _ _)) n)
      (upd (upd prv a n) n ((a :: xs).getLast (List.cons_ne_nil _ _))) (a :: (xs ++ [n])) := by
  have hnd := hr.nodup
  have hna : n ≠ a := fun h => hn (by simp [h])
  have hb : a ∉ xs := (List.nodup_cons.1 hnd).1
  refine ⟨?_, Chain.insert_last hr.chain hnd hn hna hb⟩
  have h2 : ((a :: xs) ++ [n]).Nodup := by
    rw [List.nodup_append]
    refine ⟨hnd, List.nodup_singleton _, ?_⟩
    intro x hx hx1
    simp only [List.mem_singleton] at hx1
    subst hx1
    exact hn hx
  simpa using h2

theorem getLast_map_cons (f : Nat → Nat) (x : Nat) (xs : List Nat) :
    ((x :: xs).map f).getLast (by simp) = f ((x :: xs).getLast (List.cons_ne_nil _ _)) := by
  induction xs generalizing x with
  | nil => simp
  | cons y ys ih =>
    have h1 : (List.map f (x :: y :: ys)).getLast (by simp) =
        (List.map f (y :: ys)).getLast (by simp) := by
      simp only [List.map_cons]
      rw [List.getLast_cons (by simp)]
    rw [h1, ih y, List.getLast_cons (List.cons_ne_nil _ _)]

theorem CellInv.site {ent : Nat → Nat → Bool} {K : Nat} {names : List String} {i j : Nat}
    {v : RowVars} (inv : CellInv ent K names i j v) (hj : j < K) :
    CellSite ent K i j v
      ((colAddr j :: (buildRows ent i j j).map fun i1 => cellAddr ent K i1 j).getLast
        (List.cons_ne_nil _ _))
      (v.heap.right v.leftNode) := by
  have hv := inv.shape.vring j hj
  have hrow := inv.shape.rring i
  rw [rowCols_truncEnt_same (Nat.le_of_lt hj)] at hrow
  refine
    { n_eq := by rw [inv.count]; simp only [cellAddr]; omega
      upper_mem := List.getLast_mem _
      upper_last := rfl
      upper_down := hv.chain.next_last
      row_nil := ?_
      row_cons := ?_ }
  · intro hflag
    have h1 := inv.flag
    rw [hflag] at h1
    have h2 : ¬ 0 < rowCount ent i j := by simpa using h1.symm
    have h3 : rowCount ent i j = 0 := by omega
    simpa [rowCount] using h3
  · intro hflag
    have h1 := inv.flag
    rw [hflag] at h1
    have h2 : 0 < rowCount ent i j := by simpa using h1.symm
    cases hl : (List.range j).filter (ent i) with
    | nil => simp [rowCount, hl] at h2
    | cons fc rc =>
      have h3 := inv.left fc rc hl
      refine ⟨fc, rc, rfl, ?_, h3, rfl⟩
      rw [hl] at hrow
      have h4 : v.heap.right (((fc :: rc).map (cellAddr ent K i)).getLast (by simp)) =
          cellAddr ent K i fc := hrow.chain.next_last
      have h5 : ((fc :: rc).map (cellAddr ent K i)).getLast (by simp) = v.leftNode := by
        rw [h3]; exact getLast_map_cons _ _ _
      rw [← h5]
      exact h4

/-- The shape of the mesh after the body of the column loop of `initNodes` for a true
entry. -/
theorem CellInv.insert_shape {ent : Nat → Nat → Bool} {K : Nat} {names : List String}
    {i j : Nat} {v : RowVars} (inv : CellInv ent K names i j v) (hj : j < K)
    (he : ent i j = true) {upper first : Nat} (site : CellSite ent K i j v upper first) :
    Shape K (cellAddr ent K) (truncEnt ent i (j + 1)) names (List.range K)
      (buildRows ent i (j + 1))
      (insertCell v.heap (cellAddr ent K i j) (colAddr j) upper v.isThereNodeInRow first
        v.leftNode) := by
  have sh := inv.shape
  have ok := truncEnt_ok ent K i j
  have hnge : K + 2 ≤ cellAddr ent K i j := ok.ge i j
  have hold : ∀ i1 j1, j1 < K → truncEnt ent i j i1 j1 = true →
      cellAddr ent K i1 j1 ≠ cellAddr ent K i j := fun i1 j1 h1 h2 =>
    Nat.ne_of_lt (cellAddr_lt_of_before h2 h1)
  have hncol : ∀ d, d < K → colAddr d ≠ cellAddr ent K i j := by
    intro d hd; simp only [colAddr]; omega
  have hnroot : rootAddr ≠ cellAddr ent K i j := by simp only [rootAddr]; omega
  have hcolnode : ∀ d, d < K → ∀ x ∈ colAddr d ::
      (buildRows ent i j d).map (fun i1 => cellAddr ent K i1 d), x ≠ cellAddr ent K i j := by
    intro d hd x hx
    simp only [List.mem_cons, List.mem_map] at hx
    rcases hx with hx | ⟨i1, hi1, hx⟩
    · rw [hx]; exact hncol d hd
    · rw [← hx]; exact hold i1 d hd (sh.vent d hd i1 hi1)
  have hrownode : ∀ i1, ∀ x ∈ (rowCols (truncEnt ent i j) K i1).map (cellAddr ent K i1),
      ∃ j1, j1 < K ∧ truncEnt ent i j i1 j1 = true ∧ x = cellAddr ent K i1 j1 := by
    intro i1 x hx
    obtain ⟨j1, hj1, hx⟩ := List.mem_map.1 hx
    obtain ⟨h1, h2⟩ := mem_rowCols.1 hj1
    exact ⟨j1, h1, h2, hx.symm⟩
  have hhnode : ∀ x ∈ rootAddr :: (List.range K).map colAddr, x ≠ cellAddr ent K i j := by
    intro x hx
    simp only [List.mem_cons, List.mem_map, List.mem_range] at hx
    rcases hx with hx | ⟨d, hd, hx⟩
    · rw [hx]; exact hnroot
    · rw [← hx]; exact hncol d hd
  -- the cells of the row that is being built
  have hrowi : v.isThereNodeInRow = true →
      (∃ jl, jl < K ∧ truncEnt ent i j i jl = true ∧ v.leftNode = cellAddr ent K i jl) ∧
      (∃ jf, jf < K ∧ truncEnt ent i j i jf = true ∧ first = cellAddr ent K i jf) := by
    intro hflag
    obtain ⟨fc, rc, hl, hfirst, hlast, _⟩ := site.row_cons hflag
    have hm : ∀ x ∈ fc :: rc, x < K ∧ truncEnt ent i j i x = true := by
      intro x hx
      rw [← hl] at hx
      simp only [List.mem_filter, List.mem_range] at hx
      exact ⟨by omega, truncEnt_iff.2 ⟨hx.2, Or.inr ⟨rfl, hx.1⟩⟩⟩
    refine ⟨⟨_, (hm _ (List.getLast_mem _)).1, (hm _ (List.getLast_mem _)).2, hlast⟩,
      ⟨fc, (hm fc (by simp)).1, (hm fc (by simp)).2, hfirst⟩⟩
  have hR : ∀ x, x ≠ cellAddr ent K i j → (v.isThereNodeInRow = true → x ≠ v.leftNode) →
      (insertCell v.heap (cellAddr ent K i j) (colAddr j) upper v.isThereNodeInRow first
        v.leftNode).right x = v.heap.right x := by
    intro x h1 h2
    simp only [insertCell]
    cases hflag : v.isThereNodeInRow with
    | false => simp [upd_ne _ _ h1]
    | true => simp [upd_ne _ _ h1, upd_ne _ _ (h2 hflag)]
  have hL : ∀ x, x ≠ cellAddr ent K i j → (v.isThereNodeInRow = true → x ≠ first) →
      (insertCell v.heap (cellAddr ent K i j) (colAddr j) upper v.isThereNodeInRow first
        v.leftNode).left x = v.heap.left x := by
    intro x h1 h2
    simp only [insertCell]
    cases hflag : v.isThereNodeInRow with
    | false => simp [upd_ne _ _ h1]
    | true => simp [upd_ne _ _ h1, upd_ne _ _ (h2 hflag)]
  refine
    { root_is := ?_, hring := ?_, act_lt := sh.act_lt, col_is := ?_, col_col := ?_,
      col_name := ?_, vring := ?_, vent := ?_, size := ?_, cell_col := ?_, cell_is := ?_,
      rring := ?_ }
  · simp only [insertCell]
    rw [upd_ne _ _ hnroot]; exact sh.root_is
  · refine Ring.congr ?_ ?_ sh.hring
    · intro x hx
      refine hR x (hhnode x hx) (fun hflag => ?_)
      obtain ⟨⟨jl, _, _, hjl⟩, _⟩ := hrowi hflag
      rintro rfl
      rw [hjl] at hx
      exact ok.not_mem_hring sh.act_lt _ _ hx
    · intro x hx
      refine hL x (hhnode x hx) (fun hflag => ?_)
      obtain ⟨_, ⟨jf, _, _, hjf⟩⟩ := hrowi hflag
      rintro rfl
      rw [hjf] at hx
      exact ok.not_mem_hring sh.act_lt _ _ hx
  · intro d hd
    simp only [insertCell]
    rw [upd_ne _ _ (hncol d hd)]; exact sh.col_is d hd
  · intro d hd
    simp only [insertCell]
    rw [upd_ne _ _ (hncol d hd)]; exact sh.col_col d hd
  · intro d hd
    simp only [insertCell]
    rw [upd_ne _ _ (hncol d hd)]; exact sh.col_name d hd
  · intro d hd
    by_cases hdj : d = j
    · subst hdj
      rw [buildRows_succ_same he, List.map_append, List.map_cons, List.map_nil]
      have hfresh : cellAddr ent K i d ∉ colAddr d ::
          (buildRows ent i d d).map (fun i1 => cellAddr ent K i1 d) :=
        fun hm => hcolnode d hd _ hm rfl
      have := Ring.snoc_fresh (sh.vring d hd) hfresh
      rw [← site.upper_last] at this
      exact this
    · rw [buildRows_succ_other hdj]
      refine Ring.congr ?_ ?_ (sh.vring d hd)
      · intro x hx
        simp only [insertCell]
        have h1 : x ≠ upper := by
          rintro rfl
          exact hdj (Shape.col_disjoint ok sh hd hj hx site.upper_mem)
        rw [upd_ne _ _ h1, upd_ne _ _ (hcolnode d hd x hx)]
      · intro x hx
        simp only [insertCell]
        have h1 : x ≠ colAddr j := by
          rintro rfl
          exact hdj (Shape.col_disjoint ok sh hd hj hx (List.mem_cons_self _ _))
        rw [upd_ne _ _ (hcolnode d hd x hx), upd_ne _ _ h1]
  · intro d _ i1 hi1
    exact truncEnt_iff.2 (mem_buildRows.1 hi1)
  · intro d hd
    simp only [insertCell]
    by_cases hdj : d = j
    · subst hdj
      rw [upd_same, sh.size d hd, buildRows_succ_same he]
      simp
    · have h1 : colAddr d ≠ colAddr j := fun h => hdj (colAddr_inj h)
      rw [upd_ne _ _ h1, upd_ne _ _ (hncol d hd), sh.size d hd, buildRows_succ_other hdj]
  · intro i1 j1 hj1 he1
    simp only [insertCell]
    rcases (truncEnt_succ_of_true he).1 he1 with h1 | ⟨h1, h2⟩
    · rw [upd_ne _ _ (hold i1 j1 hj1 h1)]; exact sh.cell_col i1 j1 hj1 h1
    · subst h1; subst h2; simp
  · intro i1 j1 hj1 he1
    simp only [insertCell]
    rcases (truncEnt_succ_of_true he).1 he1 with h1 | ⟨h1, h2⟩
    · rw [upd_ne _ _ (hold i1 j1 hj1 h1)]; exact sh.cell_is i1 j1 hj1 h1
    · subst h1; subst h2; simp
  · intro i1
    by_cases hii : i1 = i
    · subst hii
      have hrow := sh.rring i1
      rw [rowCols_truncEnt_same (Nat.le_of_lt hj)] at hrow
      rw [rowCols_truncEnt_same (Nat.succ_le_of_lt hj), List.range_succ, List.filter_append]
      simp only [List.filter_cons, he, if_true, List.filter_nil, List.map_append, List.map_cons,
        List.map_nil]
      cases hflag : v.isThereNodeInRow with
      | false =>
        rw [site.row_nil hflag]
        simp only [List.map_nil, List.nil_append, insertCell, Bool.false_eq_true, if_false]
        rw [Ring.single]
        simp
      | true =>
        obtain ⟨fc, rc, hl, hfirst, hlast, _⟩ := site.row_cons hflag
        rw [hl] at hrow ⊢
        have hfresh : cellAddr ent K i1 j ∉ (fc :: rc).map (cellAddr ent K i1) := by
          intro hm
          rw [← hl, ← rowCols_truncEnt_same (Nat.le_of_lt hj)] at hm
          obtain ⟨j1, h1, h2, h3⟩ := hrownode i1 _ hm
          exact hold i1 j1 h1 h2 h3.symm
        have := Ring.snoc_fresh hrow hfresh
        have h5 : ((fc :: rc).map (cellAddr ent K i1)).getLast (by simp) = v.leftNode := by
          rw [hlast]; exact getLast_map_cons _ _ _
        simp only [List.map_cons] at h5 this
        rw [h5] at this
        simp only [insertCell, if_true, List.map_cons, List.cons_append]
        rw [hfirst]
        exact this
    · rw [← rowCols_truncEnt_other (j := j) hii]
      refine Ring.congr ?_ ?_ (sh.rring i1)
      · intro x hx
        obtain ⟨j1, h1, h2, h3⟩ := hrownode i1 x hx
        refine hR x (by rw [h3]; exact hold i1 j1 h1 h2) (fun hflag => ?_)
        obtain ⟨⟨jl, h4, h5, hjl⟩, _⟩ := hrowi hflag
        rw [h3, hjl]
        intro heq
        exact hii (ok.inj i1 j1 i jl h1 h4 h2 h5 heq).1
      · intro x hx
        obtain ⟨j1, h1, h2, h3⟩ := hrownode i1 x hx
        refine hL x (by rw [h3]; exact hold i1 j1 h1 h2) (fun hflag => ?_)
        obtain ⟨_, ⟨jf, h4, h5, hjf⟩⟩ := hrowi hflag
        rw [h3, hjf]
        intro heq
        exact hii (ok.inj i1 j1 i jf h1 h4 h2 h5 heq).1

end Dlx

namespace Dlx

theorem buildRows_self_length_le (ent : Nat → Nat → Bool) (i j : Nat) :
    (buildRows ent i j j).length ≤ i := by
  have := List.length_filter_le (fun i1 => ent i1 j) (List.range i)
  simp [buildRows] at this ⊢
  exact this

/-- The body of the column loop of `initNodes` for a true entry runs. -/
theorem CellInv.step_run {ent : Nat → Nat → Bool} {K : Nat} {names : List String}
    {i j : Nat} {v : RowVars} (inv : CellInv ent K names i j v) (hj : j < K)
    {fuel : Nat} (hf : i < fuel) {upper first : Nat}
    (site : CellSite ent K i j v upper first) :
    initNodesCell fuel rootAddr v j true =
      some { heap := insertCell v.heap (cellAddr ent K i j) (colAddr j) upper
               v.isThereNodeInRow first v.leftNode
             leftNode := cellAddr ent K i j
             isThereNodeInRow := true } := by
  have sh := inv.shape
  have ok := truncEnt_ok ent K i j
  have hnge : K + 2 ≤ cellAddr ent K i j := ok.ge i j
  have hn0 : cellAddr ent K i j ≠ 0 := ok.ne_zero i j
  have hncol : ∀ d, d < K → colAddr d ≠ cellAddr ent K i j := by
    intro d hd; simp only [colAddr]; omega
  have hnroot : rootAddr ≠ cellAddr ent K i j := by simp only [rootAddr]; omega
  have hhnode : ∀ x ∈ rootAddr :: (List.range K).map colAddr, x ≠ cellAddr ent K i j := by
    intro x hx
    simp only [List.mem_cons, List.mem_map, List.mem_range] at hx
    rcases hx with hx | ⟨d, hd, hx⟩
    · rw [hx]; exact hnroot
    · rw [← hx]; exact hncol d hd
  have hcolnode : ∀ x ∈ colAddr j ::
      (buildRows ent i j j).map (fun i1 => cellAddr ent K i1 j), x ≠ cellAddr ent K i j := by
    intro x hx
    simp only [List.mem_cons, List.mem_map] at hx
    rcases hx with hx | ⟨i1, hi1, hx⟩
    · rw [hx]; exact hncol j hj
    · rw [← hx]; exact Nat.ne_of_lt (cellAddr_lt_of_before (sh.vent j hj i1 hi1) hj)
  -- the walk to the header
  have hch : Chain (upd v.heap.right (cellAddr ent K i j) 0) v.heap.left rootAddr
      ((List.range K).map colAddr) rootAddr :=
    Chain.congr_fields (fun x hx => upd_ne _ _ (hhnode x hx)) (fun _ _ => rfl) sh.hring.chain
  have hc0 : upd v.heap.right (cellAddr ent K i j) 0 rootAddr = colAddr 0 :=
    chain_range_head (by omega) hch
  have hcv : Chain (upd v.heap.down (cellAddr ent K i j) 0) v.heap.up (colAddr j)
      ((buildRows ent i j j).map fun i1 => cellAddr ent K i1 j) (colAddr j) :=
    Chain.congr_fields (fun x hx => upd_ne _ _ (hcolnode x hx)) (fun _ _ => rfl)
      (sh.vring j hj).chain
  have hup0 : upper ≠ 0 := ok.col_node_ne_zero (V := buildRows ent i j) site.upper_mem
  have hupn : upper ≠ cellAddr ent K i j := hcolnode upper site.upper_mem
  have hfind : ∀ (h1 : Heap), h1.down = upd v.heap.down (cellAddr ent K i j) 0 →
      findUpperNode h1 (colAddr j) fuel (colAddr j) = some upper := by
    intro h1 hd1
    rw [site.upper_last]
    refine @findUpperNode_chain _ v.heap.up _ _ _ _ (by rw [hd1]; exact hcv)
      (List.nodup_cons.1 (sh.vring j hj).nodup).1
      (fun x hx => ok.col_node_ne_zero (V := buildRows ent i j) hx) ?_
    have := buildRows_self_length_le ent i j
    simp; omega
  have hwalk : ∀ (h1 : Heap), h1.right = upd v.heap.right (cellAddr ent K i j) 0 →
      walkRight h1 j (colAddr 0) = some (colAddr j) := by
    intro h1 hr1
    have := @walkRight_chain h1 v.heap.left _ _ _ (by rw [hr1]; exact hch) j 0
      (by omega)
    simpa using this
  simp only [initNodesCell, if_true, Heap.alloc, site.n_eq, getRight, rootAddr,
    Nat.one_ne_zero, if_false, obind_some]
  rw [show upd v.heap.right (cellAddr ent K i j) 0 1 = colAddr 0 from hc0, hwalk _ rfl]
  simp only [obind_some, setColumn, hn0, if_false, increaseSize, colAddr_ne_zero,
    upd_ne _ _ (hncol j hj), sh.col_is j hj, if_true]
  rw [hfind _ rfl]
  simp only [obind_some, getDown, hup0, if_false, upd_ne _ _ hupn, site.upper_down, setDown, hn0,
    upd_same, setUp, colAddr_ne_zero, upd_upd_same, upd_upd_upd_same]
  cases hflag : v.isThereNodeInRow with
  | false =>
    simp only [Bool.false_eq_true, if_false, setLeft, setRight, hn0, obind_some, upd_upd_same,
      insertCell]
  | true =>
    obtain ⟨fc, rc, hl, hfc, hlast, hnext⟩ := site.row_cons hflag
    have hl0 : v.leftNode ≠ 0 := by rw [hlast]; exact ok.ne_zero _ _
    have hf0 : first ≠ 0 := by rw [hfc]; exact ok.ne_zero _ _
    have hln : v.leftNode ≠ cellAddr ent K i j := by
      rw [hlast]
      have hm : (fc :: rc).getLast (List.cons_ne_nil _ _) ∈ (List.range j).filter (ent i) := by
        rw [hl]; exact List.getLast_mem _
      simp only [List.mem_filter, List.mem_range] at hm
      refine Nat.ne_of_lt (cellAddr_lt_of_before (truncEnt_iff.2 ⟨hm.2, Or.inr ⟨rfl, hm.1⟩⟩)
        (by omega))
    simp only [if_true, getRight, hl0, if_false, upd_ne _ _ hln, hnext, obind_some, setRight,
      hn0, upd_same, setLeft, hf0, upd_upd_same, upd_upd_upd_same, insertCell]

theorem Shape.congr_ent {K : Nat} {addr : Nat → Nat → Nat} {ent ent1 : Nat → Nat → Bool}
    {names : List String} {act : List Nat} {V : Nat → List Nat} {h : Heap}
    (hE : ∀ i j, j < K → ent i j = ent1 i j) (sh : Shape K addr ent names act V h) :
    Shape K addr ent1 names act V h := by
  have hrc : ∀ i, rowCols ent1 K i = rowCols ent K i := by
    intro i
    simp only [rowCols]
    apply List.filter_congr
    intro x hx
    exact (hE i x (List.mem_range.1 hx)).symm
  exact
    { root_is := sh.root_is, hring := sh.hring, act_lt := sh.act_lt, col_is := sh.col_is,
      col_col := sh.col_col, col_name := sh.col_name, vring := sh.vring,
      vent := fun d hd i hi => by rw [← hE i d hd]; exact sh.vent d hd i hi
      size := sh.size
      cell_col := fun i j hj he => sh.cell_col i j hj (by rw [hE i j hj]; exact he)
      cell_is := fun i j hj he => sh.cell_is i j hj (by rw [hE i j hj]; exact he)
      rring := fun i => by rw [hrc]; exact sh.rring i }

/-- One turn of the column loop of `initNodes`. -/
theorem CellInv.step {ent : Nat → Nat → Bool} {K : Nat} {names : List String}
    {i j : Nat} {v : RowVars} (inv : CellInv ent K names i j v) (hj : j < K)
    {fuel : Nat} (hf : i < fuel) :
    ∃ v1, initNodesCell fuel rootAddr v j (ent i j) = some v1 ∧
      CellInv ent K names i (j + 1) v1 := by
  cases he : ent i j with
  | false =>
    refine ⟨v, by simp [initNodesCell], ?_⟩
    have hrc : rowCount ent i (j + 1) = rowCount ent i j := by
      rw [rowCount_succ]; simp [he]
    refine { count := by rw [hrc]; exact inv.count, shape := ?_, flag := by rw [hrc]; exact inv.flag,
             left := ?_ }
    · rw [truncEnt_succ_of_false he, buildRows_succ_of_false he]
      exact inv.shape
    · intro first rest hl
      refine inv.left first rest ?_
      rw [← hl, List.range_succ, List.filter_append]
      simp [he]
  | true =>
    have site := inv.site hj
    refine ⟨_, inv.step_run hj hf site, ?_⟩
    have hrc : rowCount ent i (j + 1) = rowCount ent i j + 1 := by
      rw [rowCount_succ]; simp [he]
    refine { count := ?_, shape := inv.insert_shape hj he site, flag := ?_, left := ?_ }
    · simp only [insertCell, cellAddr, hrc]; omega
    · simp [hrc]
    · intro first rest hl
      rw [List.range_succ, List.filter_append] at hl
      simp only [List.filter_cons, he, if_true, List.filter_nil] at hl
      have : (first :: rest).getLast (List.cons_ne_nil _ _) = j := by
        have h1 : ((List.range j).filter (ent i) ++ [j]).getLast (by simp) = j := by simp
        simp only [← hl]
        exact h1
      rw [this]

/-- The column loop of `initNodes` on a row. -/
theorem initNodesRow_inv {ent : Nat → Nat → Bool} {K : Nat} {names : List String} {i : Nat}
    {fuel : Nat} (hf : i < fuel) :
    ∀ (row : List Bool) (j : Nat) (v : RowVars), CellInv ent K names i j v →
      j + row.length = K → (∀ k, k < row.length → row.getD k false = ent i (j + k)) →
      ∃ v1, initNodesRow fuel rootAddr v j row = some v1 ∧ CellInv ent K names i K v1 := by
  intro row
  induction row with
  | nil =>
    intro j v inv hlen _
    simp only [List.length_nil, Nat.add_zero] at hlen
    subst hlen
    exact ⟨v, rfl, inv⟩
  | cons state rest ih =>
    intro j v inv hlen hrow
    simp only [List.length_cons] at hlen
    have hst : state = ent i j := by
      have := hrow 0 (by simp)
      simpa using this
    obtain ⟨v1, h1, inv1⟩ := inv.step (by omega) hf
    obtain ⟨v2, h2, inv2⟩ := ih (j + 1) v1 inv1 (by omega) (by
      intro k hk
      have := hrow (k + 1) (by simp; omega)
      simp only [List.getD_cons_succ] at this
      rw [this]; congr 1; omega)
    refine ⟨v2, ?_, inv2⟩
    simp only [initNodesRow, hst, h1, obind_some]
    exact h2

end Dlx

namespace Dlx

/-! ## The whole of `Initialize` -/

theorem CellInv.next_row {ent : Nat → Nat → Bool} {K : Nat} {names : List String} {i : Nat}
    {v : RowVars} (inv : CellInv ent K names i K v) :
    CellInv ent K names (i + 1) 0 { heap := v.heap, leftNode := 0, isThereNodeInRow := false } := by
  have hrc : rowCount ent (i + 1) 0 = 0 := by simp [rowCount]
  refine { count := ?_, shape := ?_, flag := by simp [hrc], left := ?_ }
  · simp only [inv.count, cellsBefore_succ, hrc, Nat.add_zero]
  · refine Shape.congr_ent ?_ (Shape.congr_V ?_ inv.shape)
    · intro i1 j1 hj1
      rw [Bool.eq_iff_iff, truncEnt_iff, truncEnt_iff]
      constructor
      · rintro ⟨h1, h2 | ⟨h2, _⟩⟩
        · exact ⟨h1, Or.inl (by omega)⟩
        · exact ⟨h1, Or.inl (by omega)⟩
      · rintro ⟨h1, h2 | ⟨_, h3⟩⟩
        · refine ⟨h1, ?_⟩
          by_cases hi : i1 < i
          · exact Or.inl hi
          · exact Or.inr ⟨by omega, hj1⟩
        · omega
    · intro d hd
      simp only [buildRows, hd, true_and, List.range_succ, List.filter_append, Nat.not_lt_zero,
        false_and, if_false, List.append_nil]
      by_cases he : ent i d = true <;> simp [he]
  · intro first rest hl
    simp at hl

/-- The row loop of `initNodes`. -/
theorem initNodesLoop_inv {matrix : List (List Bool)} {K : Nat} {names : List String}
    {fuel : Nat} (hf : matrix.length ≤ fuel) (hrect : Rectangular matrix K) :
    ∀ (rows : List (List Bool)) (i : Nat) (h : Heap), matrix.drop i = rows →
      CellInv (entry matrix) K names i 0 { heap := h, leftNode := 0, isThereNodeInRow := false } →
      ∃ h1, initNodesLoop fuel rootAddr h rows = some h1 ∧
        CellInv (entry matrix) K names matrix.length 0
          { heap := h1, leftNode := 0, isThereNodeInRow := false } := by
  intro rows
  induction rows with
  | nil =>
    intro i h hdrop inv
    have hi : matrix.length ≤ i := List.drop_eq_nil_iff.1 hdrop
    refine ⟨h, rfl, ?_⟩
    have hE : ∀ i1 j1, entry matrix i1 j1 = true → i1 < matrix.length := by
      intro i1 j1 he
      by_contra hlt
      have : matrix.getD i1 [] = [] := by
        simp [List.getElem?_eq_none (Nat.le_of_not_lt hlt)]
      simp only [entry, this] at he
      simp at he
    have hrow : ∀ m, matrix.length ≤ m → rowCount (entry matrix) m K = 0 := by
      intro m hm
      simp only [rowCount, List.length_eq_zero, List.filter_eq_nil_iff]
      intro x _ he
      have := hE m x he
      omega
    have hcb : ∀ m, matrix.length ≤ m →
        cellsBefore (entry matrix) K m = cellsBefore (entry matrix) K matrix.length := by
      intro m hm
      induction hm with
      | refl => rfl
      | step hm ih => rw [cellsBefore_succ, ih, hrow _ hm, Nat.add_zero]
    refine { count := ?_, shape := ?_, flag := by simp [rowCount], left := by simp }
    · have := inv.count
      simp only [rowCount, List.range_zero, List.filter_nil, List.length_nil] at this ⊢
      rw [this, hcb i hi]
    · refine Shape.congr_ent ?_ (Shape.congr_V ?_ inv.shape)
      · intro i1 j1 _
        rw [Bool.eq_iff_iff, truncEnt_iff, truncEnt_iff]
        constructor
        · rintro ⟨h1, _⟩
          exact ⟨h1, Or.inl (hE i1 j1 h1)⟩
        · rintro ⟨h1, _⟩
          exact ⟨h1, Or.inl (by have := hE i1 j1 h1; omega)⟩
      · intro d _
        simp only [buildRows, Nat.not_lt_zero, false_and, if_false, List.append_nil]
        have h1 : ∀ m, matrix.length ≤ m →
            (List.range m).filter (fun i1 => entry matrix i1 d) =
              (List.range matrix.length).filter (fun i1 => entry matrix i1 d) := by
          intro m hm
          induction hm with
          | refl => rfl
          | @step m1 hm ih =>
            rw [List.range_succ, List.filter_append, ih]
            have : entry matrix m1 d = false := by
              by_contra hne
              have := hE m1 d (by simpa using hne)
              have := Nat.le_of_succ_le_succ (Nat.succ_le_succ hm)
              omega
            simp [this]
        exact h1 i hi
  | cons row rest ih =>
    intro i h hdrop inv
    have hilt : i < matrix.length := by
      by_contra hge
      rw [List.drop_eq_nil_iff.2 (Nat.le_of_not_lt hge)] at hdrop
      cases hdrop
    have hrowi : matrix.getD i [] = row := by
      have := List.head?_drop matrix i
      rw [hdrop] at this
      simp only [List.head?_cons] at this
      simp [← this]
    have hrest : matrix.drop (i + 1) = rest := by
      rw [← List.tail_drop, hdrop]; rfl
    have hrowlen : row.length = K := by
      apply hrect
      rw [← hrowi]
      simp only [List.getD_eq_getElem?_getD, List.getElem?_eq_getElem hilt, Option.getD_some]
      exact List.getElem_mem _
    obtain ⟨v1, h1, inv1⟩ := initNodesRow_inv (by omega : i < fuel) row 0 _ inv
      (by omega) (by
        intro k _
        simp only [entry, hrowi, Nat.zero_add])
    obtain ⟨h2, h3, inv2⟩ := ih (i + 1) v1.heap hrest inv1.next_row
    refine ⟨h2, ?_, inv2⟩
    simp only [initNodesLoop, h1, obind_some]
    exact h3

theorem entry_row_lt {matrix : List (List Bool)} {i j : Nat} (he : entry matrix i j = true) :
    i < matrix.length := by
  by_contra hlt
  have : matrix.getD i [] = [] := by
    simp [List.getElem?_eq_none (Nat.le_of_not_lt hlt)]
  simp only [entry, this] at he
  simp at he

theorem entry_col_lt {matrix : List (List Bool)} {K i j : Nat} (hrect : Rectangular matrix K)
    (he : entry matrix i j = true) : j < K := by
  have hi := entry_row_lt he
  have hrow : matrix.getD i [] = matrix[i] := by
    simp [List.getElem?_eq_getElem hi]
  have hlen : (matrix[i]).length = K := hrect _ (List.getElem_mem _)
  by_contra hlt
  simp only [entry, hrow] at he
  have : (matrix[i]).getD j false = false := by
    simp [List.getElem?_eq_none (by omega : (matrix[i]).length ≤ j)]
  rw [this] at he
  cases he

theorem actCols_nil (K : Nat) : actCols K [] = List.range K := by
  simp [actCols]

theorem colRows_nil (ent : Nat → Nat → Bool) (R d : Nat) :
    colRows ent R [] d = (List.range R).filter fun i => ent i d := by
  simp [colRows, aliveRow]

theorem checkInputValue_ok {matrix : List (List Bool)} {names : List String}
    (hR : 0 < matrix.length) (hK : 0 < names.length) (hrect : Rectangular matrix names.length) :
    checkInputValue matrix names = none := by
  cases matrix with
  | nil => simp at hR
  | cons row rest =>
    have hlen : row.length = names.length := hrect row (by simp)
    simp only [checkInputValue, List.length_cons, List.headD_cons, hlen]
    have h1 : ¬ names.length = 0 := by omega
    simp [h1]

/-- `Initialize` on a rectangular matrix with at least one row and one column, and with as
many names as columns: it returns the root and no error, and the memory holds the mesh of
the matrix, no column covered. -/
theorem Initialize_repr {matrix : List (List Bool)} {names : List String} {fuel : Nat}
    (hR : 0 < matrix.length) (hK : 0 < names.length) (hrect : Rectangular matrix names.length)
    (hf : matrix.length ≤ fuel) :
    ∃ h, Initialize fuel matrix names = some (h, rootAddr, none) ∧
      Repr matrix.length names.length (entry matrix) names [] h := by
  obtain ⟨h1, hh1, hc1, sh1⟩ :=
    initColumnHeaders_shape (cellAddr (entry matrix) names.length) names
  have inv0 : CellInv (entry matrix) names.length names 0 0
      { heap := h1, leftNode := 0, isThereNodeInRow := false } := by
    refine { count := ?_, shape := ?_, flag := by simp [rowCount], left := by simp }
    · simp [hc1, cellsBefore, rowCount]
    · refine Shape.congr_ent ?_ (Shape.congr_V ?_ sh1)
      · intro i j _
        simp [truncEnt]
      · intro d _
        simp [buildRows]
  obtain ⟨h2, hh2, inv2⟩ := initNodesLoop_inv hf hrect matrix 0 h1 rfl inv0
  refine ⟨h2, ?_, ?_⟩
  · simp only [Initialize, checkInputValue_ok hR hK hrect, hh1, obind_some, initNodes, hh2]
  · simp only [Repr]
    rw [actCols_nil]
    refine Shape.congr_ent ?_ (Shape.congr_V ?_ inv2.shape)
    · intro i j _
      rw [Bool.eq_iff_iff, truncEnt_iff]
      constructor
      · rintro ⟨h, _⟩; exact h
      · intro h; exact ⟨h, Or.inl (entry_row_lt h)⟩
    · intro d _
      rw [colRows_nil]
      simp [buildRows]

end Dlx

namespace Dlx

/-! ## `chooseColumn` -/

theorem pickMin_append (sz : Nat → Int) (st : Int × Nat) (xs ys : List Nat) :
    pickMin sz st (xs ++ ys) = pickMin sz (pickMin sz st xs) ys := by
  induction xs generalizing st with
  | nil => rfl
  | cons x xs ih => simp [pickMin, ih]

/-- The scan keeps the first header of least size. -/
theorem pickMin_firstMin (sz : Nat → Int) (c0 : Nat) :
    ∀ (rest done : List Nat) (st : Int × Nat), st.1 = sz st.2 → FirstMin sz (c0 :: done) st.2 →
      (pickMin sz st rest).1 = sz (pickMin sz st rest).2 ∧
        FirstMin sz (c0 :: (done ++ rest)) (pickMin sz st rest).2 := by
  intro rest
  induction rest with
  | nil => intro done st h1 h2; simpa [pickMin] using ⟨h1, h2⟩
  | cons j js ih =>
    intro done st h1 h2
    have hstep : (if st.1 > sz j then (sz j, j) else st).1 =
        sz (if st.1 > sz j then (sz j, j) else st).2 ∧
        FirstMin sz (c0 :: (done ++ [j])) (if st.1 > sz j then (sz j, j) else st).2 := by
      obtain ⟨k, hk, hmin, hlt⟩ := h2
      have hklen : k < (c0 :: done).length := by
        by_contra hge
        rw [List.getElem?_eq_none (Nat.le_of_not_lt hge)] at hk
        cases hk
      have old : ∀ m x, (c0 :: (done ++ [j]))[m]? = some x →
          (c0 :: done)[m]? = some x ∨ (m = (c0 :: done).length ∧ x = j) := by
        intro m x hm
        rw [show c0 :: (done ++ [j]) = (c0 :: done) ++ [j] from rfl] at hm
        by_cases hml : m < (c0 :: done).length
        · rw [List.getElem?_append_left hml] at hm
          exact Or.inl hm
        · rw [List.getElem?_append_right (Nat.le_of_not_lt hml)] at hm
          by_cases hm0 : m - (c0 :: done).length = 0
          · rw [hm0] at hm
            simp only [List.getElem?_cons_zero, Option.some.injEq] at hm
            exact Or.inr ⟨by omega, hm.symm⟩
          · rw [List.getElem?_eq_none (by simp only [List.length_singleton]; omega)] at hm
            cases hm
      by_cases hgt : st.1 > sz j
      · rw [if_pos hgt]
        rw [h1] at hgt
        show (sz j, j).1 = sz j ∧ FirstMin sz (c0 :: (done ++ [j])) j
        refine ⟨rfl, (c0 :: done).length, ?_, ?_, ?_⟩
        · rw [show c0 :: (done ++ [j]) = (c0 :: done) ++ [j] from rfl,
            List.getElem?_append_right (Nat.le_refl _)]
          simp
        · intro m x hm
          rcases old m x hm with h | ⟨_, h⟩
          · have := hmin m x h
            omega
          · rw [h]
        · intro m x hmlt hm
          rcases old m x hm with h | ⟨h, _⟩
          · have := hmin m x h
            omega
          · omega
      · rw [if_neg hgt]
        refine ⟨h1, k, ?_, ?_, ?_⟩
        · rw [show c0 :: (done ++ [j]) = (c0 :: done) ++ [j] from rfl,
            List.getElem?_append_left hklen]
          exact hk
        · intro m x hm
          rcases old m x hm with h | ⟨_, h⟩
          · exact hmin m x h
          · rw [h]; omega
        · intro m x hmlt hm
          rcases old m x hm with h | ⟨h, _⟩
          · exact hlt m x hmlt h
          · omega
    have := ih (done ++ [j]) _ hstep.1 hstep.2
    simpa [pickMin] using this

theorem FirstMin.mem {sz : Nat → Int} {cols : List Nat} {c : Nat} (h : FirstMin sz cols c) :
    c ∈ cols := by
  obtain ⟨k, hk, _⟩ := h
  exact List.getElem?_mem hk

/-- `chooseColumn` on a ring with at least one header: it returns the first header of least
size. -/
theorem chooseColumn_spec {h : Heap} {header c0 : Nat} {rest : List Nat}
    (hr : HeaderRing h header (c0 :: rest)) {fuel : Nat} (hf : rest.length + 1 < fuel) :
    ∃ c, chooseColumn fuel h header = some c ∧ FirstMin h.size (c0 :: rest) c := by
  have hc := hr.ring.chain
  have hrule := forRing_rule (fun (_ : Int × Nat) j => getRight h j)
    (fun (st : Int × Nat) j =>
      obind (getSize h j) fun sj =>
      if st.1 > sj then obind (getSize h j) fun sj1 => some (sj1, j) else some st)
    header
    (fun rem st => ∃ done, done ++ rem = c0 :: rest ∧ st = pickMin h.size (h.size c0, c0) done)
    (by
      rintro y ys st ⟨done, hsplit, hst⟩
      have hy : y ∈ c0 :: rest := by rw [← hsplit]; simp
      have hne : y ≠ header := by
        rintro rfl
        have := hr.ring.nodup
        exact (List.nodup_cons.1 this).1 hy
      refine ⟨hne, pickMin h.size (h.size c0, c0) (done ++ [y]), ?_, ?_, done ++ [y], ?_, rfl⟩
      · simp only [getSize, hr.col_ne y hy, if_false, hr.col_is y hy, if_true, obind_some]
        rw [pickMin_append, ← hst]
        by_cases hgt : st.1 > h.size y <;> simp [pickMin, hgt]
      · rw [← hsplit] at hc
        simp only [getRight, hr.col_ne y hy, if_false, hc.next_mid]
      · rw [← hsplit]; simp)
    (c0 :: rest) (h.size c0, c0) fuel (by simpa using hf) ⟨[], rfl, rfl⟩
  obtain ⟨st, hrun, done, hsplit, hst⟩ := hrule
  simp only [List.append_nil] at hsplit
  subst hsplit
  have hfm := pickMin_firstMin h.size c0 rest [] (h.size c0, c0) rfl
    ⟨0, by simp, fun m x hm => by
      cases m with
      | zero => simp at hm; rw [hm]
      | succ m => simp at hm, fun m x hm => by omega⟩
  have hfirst : pickMin h.size (h.size c0, c0) (c0 :: rest) =
      pickMin h.size (h.size c0, c0) rest := by
    simp [pickMin]
  refine ⟨st.2, ?_, ?_⟩
  · have h0 : h.right header = c0 := hc.next_head
    have hg : getRight h header = some c0 := by
      simp only [getRight, hr.header_ne, if_false, h0]
    have hgs : getSize h c0 = some (h.size c0) := by
      simp only [getSize, hr.col_ne c0 (by simp), if_false, hr.col_is c0 (by simp), if_true]
    simp only [List.headD_cons] at hrun
    rw [chooseColumn, hg, obind_some, hgs, obind_some, hrun, obind_some]
  · rw [hst, hfirst]
    simpa using hfm.2

end Dlx

namespace Dlx

/-! ## The columns of a chosen row are covered, and uncovered -/

theorem Repr.header_ring {R K : Nat} {ent : Nat → Nat → Bool} {names : List String}
    {C : List Nat} {h : Heap} (hr : Repr R K ent names C h) :
    HeaderRing h rootAddr ((actCols K C).map colAddr) :=
  { ring := hr.hring
    header_ne := by simp [rootAddr]
    col_ne := by
      intro c hc
      obtain ⟨d, _, rfl⟩ := List.mem_map.1 hc
      exact colAddr_ne_zero d
    col_is := by
      intro c hc
      obtain ⟨d, hd, rfl⟩ := List.mem_map.1 hc
      exact hr.col_is d (mem_actCols.1 hd).1 }

/-- The loop of the searches that covers the other columns of the row chosen in column
`d`, and the loop that uncovers them: the first runs and leaves the mesh with these columns
covered; the second, run then, gives back the memory as it was. -/
theorem Repr.cover_row_columns {R K : Nat} {ent : Nat → Nat → Bool} {names : List String}
    {C : List Nat} {h : Heap} (hr : Repr R K ent names C h) {i d : Nat} (hd : d < K)
    (he : ent i d = true) (hds : ∀ j ∈ rowOthers ent K i d, j ∉ C)
    {fuel : Nat} (hf1 : R < fuel) (hf2 : K ≤ fuel) :
    coverRowColumns fuel h (cellAddr ent K i d) =
        some (coverManyM ent R K C h (rowOthers ent K i d)) ∧
      Repr R K ent names (C ++ rowOthers ent K i d)
        (coverManyM ent R K C h (rowOthers ent K i d)) ∧
      uncoverRowColumns fuel (coverManyM ent R K C h (rowOthers ent K i d))
        (cellAddr ent K i d) = some h := by
  have ok := cellAddr_ok ent K
  have hnd := rowOthers_nodup hd he
  have hlen : (rowOthers ent K i d).length < fuel :=
    Nat.lt_of_lt_of_le (rowOthers_length_lt hd he) hf2
  -- the mesh after covering a part of the columns
  have hpart : ∀ pre post, pre ++ post = rowOthers ent K i d →
      Repr R K ent names (C ++ pre) (coverManyM ent R K C h pre) := by
    intro pre post hsplit
    refine Repr.coverMany hr pre ?_ ?_
    · rw [← hsplit] at hnd; exact List.Nodup.of_append_left hnd
    · intro x hx
      have hxm : x ∈ rowOthers ent K i d := by rw [← hsplit]; simp [hx]
      exact ⟨(mem_rowOthers.1 hxm).1, hds x hxm⟩
  have hfull := hpart (rowOthers ent K i d) [] (by simp)
  have hfwd := forRing_rule getRight
    (fun h1 j => obind (getColumn h1 j) fun c => coverColumn fuel h1 c) (cellAddr ent K i d)
    (fun rem s => ∃ done remD, done ++ remD = rowOthers ent K i d ∧
      rem = remD.map (cellAddr ent K i) ∧ s = coverManyM ent R K C h done)
    (by
      rintro y ys s ⟨done, remD, hsplit, hrem, hs⟩
      cases remD with
      | nil => simp at hrem
      | cons j rest =>
        simp only [List.map_cons, List.cons.injEq] at hrem
        obtain ⟨rfl, rfl⟩ := hrem
        subst hs
        have hjm : j ∈ rowOthers ent K i d := by rw [← hsplit]; simp
        obtain ⟨hjK, hje, hjd⟩ := mem_rowOthers.1 hjm
        have hrs := hpart done (j :: rest) hsplit
        have hjnot : j ∉ C ++ done := by
          rw [← hsplit] at hnd
          have : j ∉ done := fun hm =>
            (List.nodup_append.1 hnd).2.2 hm (List.mem_cons_self _ _)
          simp [hds j hjm, this]
        obtain ⟨hcov, _, _⟩ := Repr.cover hrs hjK hjnot hf1 hf2
        have hrs1 := hpart (done ++ [j]) rest (by rw [← hsplit]; simp)
        refine ⟨?_, _, ?_, ?_, done ++ [j], rest, ?_, rfl, rfl⟩
        · intro heq
          exact hjd (ok.inj i j i d hjK hd hje he heq).2
        · simp only [getColumn, ok.ne_zero i j, if_false, obind_some, hrs.cell_col i j hjK hje]
          rw [hcov, coverManyM_snoc]
        · have hc := Shape.row_chain hrs1 hd he
          rw [← hsplit, List.map_append, List.map_cons] at hc
          simp only [getRight, ok.ne_zero i j, if_false, hc.next_mid]
        · rw [← hsplit]; simp)
    ((rowOthers ent K i d).map (cellAddr ent K i)) h fuel (by simpa using hlen)
    ⟨[], rowOthers ent K i d, rfl, rfl, rfl⟩
  have hbwd := forRing_rule getLeft
    (fun h1 j => obind (getColumn h1 j) fun c => uncoverColumn fuel h1 c) (cellAddr ent K i d)
    (fun rem s => ∃ doneRev remRev, doneRev ++ remRev = (rowOthers ent K i d).reverse ∧
      rem = remRev.map (cellAddr ent K i) ∧ s = coverManyM ent R K C h remRev.reverse)
    (by
      rintro y ys s ⟨doneRev, remRev, hsplit, hrem, hs⟩
      cases remRev with
      | nil => simp at hrem
      | cons j rest =>
        simp only [List.map_cons, List.cons.injEq] at hrem
        obtain ⟨rfl, rfl⟩ := hrem
        subst hs
        have hro : rowOthers ent K i d = rest.reverse ++ j :: doneRev.reverse := by
          have := congrArg List.reverse hsplit
          simpa using this.symm
        have hjm : j ∈ rowOthers ent K i d := by rw [hro]; simp
        obtain ⟨hjK, hje, hjd⟩ := mem_rowOthers.1 hjm
        have hrs := hpart rest.reverse (j :: doneRev.reverse) hro.symm
        have hjnot : j ∉ C ++ rest.reverse := by
          rw [hro] at hnd
          have : j ∉ rest.reverse := fun hm =>
            (List.nodup_append.1 hnd).2.2 hm (List.mem_cons_self _ _)
          simp only [List.mem_append, not_or]
          exact ⟨hds j hjm, this⟩
        obtain ⟨_, hrs1, hunc⟩ := Repr.cover hrs hjK hjnot hf1 hf2
        refine ⟨?_, _, ?_, ?_, doneRev ++ [j], rest, ?_, rfl, rfl⟩
        · intro heq
          exact hjd (ok.inj i j i d hjK hd hje he heq).2
        · simp only [List.reverse_cons, coverManyM_snoc, getColumn, ok.ne_zero i j, if_false,
            obind_some, hrs1.cell_col i j hjK hje]
          exact hunc
        · have hc := (Shape.row_chain hrs hd he).rev
          rw [← List.map_reverse, ← hsplit, List.map_append, List.map_cons] at hc
          simp only [getLeft, ok.ne_zero i j, if_false, hc.next_mid]
        · rw [← hsplit]; simp)
    ((rowOthers ent K i d).reverse.map (cellAddr ent K i))
    (coverManyM ent R K C h (rowOthers ent K i d)) fuel (by simpa using hlen)
    ⟨[], (rowOthers ent K i d).reverse, rfl, rfl, by simp⟩
  obtain ⟨s1, hrun1, done, remD, hsplit1, hrem1, hs1⟩ := hfwd
  obtain ⟨s2, hrun2, doneRev, remRev, hsplit2, hrem2, hs2⟩ := hbwd
  have hremD : remD = [] := by
    cases remD with
    | nil => rfl
    | cons a b => simp at hrem1
  have hremRev : remRev = [] := by
    cases remRev with
    | nil => rfl
    | cons a b => simp at hrem2
  subst hremD; subst hremRev
  simp only [List.append_nil] at hsplit1
  subst hsplit1
  simp only [List.reverse_nil, coverManyM] at hs2
  subst hs1; subst hs2
  refine ⟨?_, hfull, ?_⟩
  · have hc := Shape.row_chain hr hd he
    simp only [coverRowColumns, getRight, ok.ne_zero i d, if_false, obind_some, hc.next_head]
    exact hrun1
  · have hc := (Shape.row_chain hfull hd he).rev
    rw [← List.map_reverse] at hc
    simp only [uncoverRowColumns, getLeft, ok.ne_zero i d, if_false, obind_some, hc.next_head]
    exact hrun2

end Dlx

namespace Dlx

/-! ## Exact covers -/

theorem mem_pickCols {ent : Nat → Nat → Bool} {K : Nat} {C : List Nat} {d i x : Nat}
    (hd : d < K) (he : ent i d = true) :
    x ∈ pickCols ent K C d i ↔ x ∈ C ∨ (x < K ∧ ent i x = true) := by
  simp only [pickCols, List.mem_append, List.mem_singleton, mem_rowOthers]
  constructor
  · rintro ((h | h) | ⟨h1, h2, _⟩)
    · exact Or.inl h
    · subst h; exact Or.inr ⟨hd, he⟩
    · exact Or.inr ⟨h1, h2⟩
  · rintro (h | ⟨h1, h2⟩)
    · exact Or.inl (Or.inl h)
    · by_cases hx : x = d
      · exact Or.inl (Or.inr hx)
      · exact Or.inr ⟨h1, h2, hx⟩

theorem aliveRow_pickCols {ent : Nat → Nat → Bool} {K : Nat} {C : List Nat} {d i i1 : Nat}
    (hd : d < K) (he : ent i d = true) :
    aliveRow ent (pickCols ent K C d i) i1 = true ↔
      aliveRow ent C i1 = true ∧ ∀ x, x < K → ent i x = true → ent i1 x = false := by
  rw [aliveRow_iff, aliveRow_iff]
  constructor
  · intro h
    exact ⟨fun c hc => h c ((mem_pickCols hd he).2 (Or.inl hc)),
      fun x hx hex => h x ((mem_pickCols hd he).2 (Or.inr ⟨hx, hex⟩))⟩
  · rintro ⟨h1, h2⟩ c hc
    rcases (mem_pickCols hd he).1 hc with h | ⟨h3, h4⟩
    · exact h1 c h
    · exact h2 c h3 h4

/-- A cover of what is left once the row `i` is chosen, with the row `i`, is a cover. -/
theorem IsCover.insert {ent : Nat → Nat → Bool} {R K : Nat} {C : List Nat} {d i : Nat}
    {S : Finset Nat} (hd : d < K) (hi : i < R) (he : ent i d = true)
    (ha : aliveRow ent C i = true) (hS : IsCover ent R K (pickCols ent K C d i) S) :
    i ∉ S ∧ IsCover ent R K C (insert i S) := by
  have hnot : i ∉ S := by
    intro hm
    have := ((aliveRow_pickCols hd he).1 (hS.1 i hm).2).2 d hd he
    rw [he] at this
    cases this
  refine ⟨hnot, ?_, ?_⟩
  · intro i1 hi1
    rcases Finset.mem_insert.1 hi1 with h | h
    · subst h; exact ⟨hi, ha⟩
    · exact ⟨(hS.1 i1 h).1, ((aliveRow_pickCols hd he).1 (hS.1 i1 h).2).1⟩
  · intro j hj hjC
    by_cases hej : ent i j = true
    · have hS0 : S.filter (fun i1 => ent i1 j = true) = ∅ := by
        rw [Finset.filter_eq_empty_iff]
        intro i1 hi1
        have := ((aliveRow_pickCols hd he).1 (hS.1 i1 hi1).2).2 j hj hej
        simp [this]
      rw [Finset.filter_insert, if_pos hej, hS0]
      simp
    · rw [Finset.filter_insert, if_neg hej]
      refine hS.2 j hj ?_
      intro hm
      rcases (mem_pickCols hd he).1 hm with h | ⟨_, h⟩
      · exact hjC h
      · exact hej h

/-- A cover holds exactly one row of each column that is not covered, and is a cover of
what is left once this row is chosen, without this row. -/
theorem IsCover.erase {ent : Nat → Nat → Bool} {R K : Nat} {C : List Nat} {d : Nat}
    {S : Finset Nat} (hd : d < K) (hdC : d ∉ C) (hS : IsCover ent R K C S) :
    ∃ i, i ∈ S ∧ i ∈ colRows ent R C d ∧ IsCover ent R K (pickCols ent K C d i) (S.erase i) := by
  obtain ⟨i, hi⟩ := Finset.card_eq_one.1 (hS.2 d hd hdC)
  have him : i ∈ S.filter (fun i1 => ent i1 d = true) := by rw [hi]; simp
  obtain ⟨hiS, hie⟩ := Finset.mem_filter.1 him
  refine ⟨i, hiS, (mem_colRows_of_not_mem hdC).2 ⟨(hS.1 i hiS).1, hie, (hS.1 i hiS).2⟩, ?_, ?_⟩
  · intro i1 hi1
    obtain ⟨hne, hi1S⟩ := Finset.mem_erase.1 hi1
    refine ⟨(hS.1 i1 hi1S).1, (aliveRow_pickCols hd hie).2 ⟨(hS.1 i1 hi1S).2, ?_⟩⟩
    intro x hx hex
    by_contra hne1
    have hex1 : ent i1 x = true := by simpa using hne1
    have hxC : x ∉ C := by
      intro hm
      have := aliveRow_iff.1 (hS.1 i hiS).2 x hm
      rw [hex] at this
      cases this
    obtain ⟨a, hcard⟩ := Finset.card_eq_one.1 (hS.2 x hx hxC)
    have h1 : i ∈ S.filter (fun i2 => ent i2 x = true) := Finset.mem_filter.2 ⟨hiS, hex⟩
    have h2 : i1 ∈ S.filter (fun i2 => ent i2 x = true) := Finset.mem_filter.2 ⟨hi1S, hex1⟩
    rw [hcard, Finset.mem_singleton] at h1 h2
    exact hne (h2.trans h1.symm)
  · intro j hj hjC
    have hjC0 : j ∉ C := fun hm => hjC ((mem_pickCols hd hie).2 (Or.inl hm))
    have hej : ¬ ent i j = true := fun h => hjC ((mem_pickCols hd hie).2 (Or.inr ⟨hj, h⟩))
    rw [Finset.filter_erase, Finset.erase_eq_of_not_mem]
    · exact hS.2 j hj hjC0
    · intro hm
      exact hej (Finset.mem_filter.1 hm).2

theorem IsCover.of_no_column {ent : Nat → Nat → Bool} {R K : Nat} {C : List Nat}
    (hact : actCols K C = []) : IsCover ent R K C ∅ := by
  refine ⟨by simp, ?_⟩
  intro j hj hjC
  have : j ∈ actCols K C := mem_actCols.2 ⟨hj, hjC⟩
  rw [hact] at this
  cases this

/-! ## The number of exact covers -/

theorem mem_coverSets {ent : Nat → Nat → Bool} {R K : Nat} {C : List Nat} {S : Finset Nat} :
    S ∈ coverSets ent R K C ↔ IsCover ent R K C S ∧ NoEmptyRow ent K S := by
  simp only [coverSets, Finset.mem_filter, Finset.mem_powerset, and_iff_right_iff_imp]
  rintro ⟨h, _⟩ i hi
  exact Finset.mem_range.2 (h.1 i hi).1

/-- With every column covered, the empty set is the only cover. -/
theorem coverSets_of_no_column {ent : Nat → Nat → Bool} {R K : Nat} {C : List Nat}
    (hact : actCols K C = []) : (coverSets ent R K C).card = 1 := by
  rw [Finset.card_eq_one]
  refine ⟨∅, ?_⟩
  ext S
  rw [mem_coverSets, Finset.mem_singleton]
  constructor
  · rintro ⟨h1, h2⟩
    rw [Finset.eq_empty_iff_forall_not_mem]
    intro i hi
    obtain ⟨j, hj, hej⟩ := h2 i hi
    have hjC : j ∈ C := by
      by_contra hjC
      have : j ∈ actCols K C := mem_actCols.2 ⟨hj, hjC⟩
      rw [hact] at this
      cases this
    have := aliveRow_iff.1 (h1.1 i hi).2 j hjC
    rw [hej] at this
    cases this
  · rintro rfl
    exact ⟨IsCover.of_no_column hact, by simp [NoEmptyRow]⟩

theorem colRows_nodup (ent : Nat → Nat → Bool) (R : Nat) (C : List Nat) (d : Nat) :
    (colRows ent R C d).Nodup :=
  (List.nodup_range R).filter _

/-- The covers are counted by the row that they hold in a column that is not covered. -/
theorem coverSets_card {ent : Nat → Nat → Bool} {R K : Nat} {C : List Nat} {d : Nat}
    (hd : d < K) (hdC : d ∉ C) :
    (coverSets ent R K C).card =
      ((colRows ent R C d).map fun i => (coverSets ent R K (pickCols ent K C d i)).card).sum := by
  have hrow : ∀ i ∈ colRows ent R C d, i < R ∧ ent i d = true ∧ aliveRow ent C i = true :=
    fun i hi => (mem_colRows_of_not_mem hdC).1 hi
  have hunion : coverSets ent R K C = (colRows ent R C d).toFinset.biUnion
      (fun i => (coverSets ent R K (pickCols ent K C d i)).image (fun S => insert i S)) := by
    ext S
    simp only [Finset.mem_biUnion, List.mem_toFinset, Finset.mem_image]
    constructor
    · intro hS
      obtain ⟨h1, h2⟩ := mem_coverSets.1 hS
      obtain ⟨i, hiS, hir, hc⟩ := h1.erase hd hdC
      refine ⟨i, hir, S.erase i, mem_coverSets.2 ⟨hc, ?_⟩, Finset.insert_erase hiS⟩
      intro i1 hi1
      exact h2 i1 (Finset.mem_of_mem_erase hi1)
    · rintro ⟨i, hir, S1, hS1, rfl⟩
      obtain ⟨h1, h2⟩ := mem_coverSets.1 hS1
      obtain ⟨hiR, hie, hia⟩ := hrow i hir
      refine mem_coverSets.2 ⟨(h1.insert hd hiR hie hia).2, ?_⟩
      intro i1 hi1
      rcases Finset.mem_insert.1 hi1 with h | h
      · subst h; exact ⟨d, hd, hie⟩
      · exact h2 i1 h
  rw [hunion, Finset.card_biUnion]
  · rw [List.sum_toFinset _ (colRows_nodup ent R C d)]
    congr 1
    apply List.map_congr_left
    intro i hir
    obtain ⟨hiR, hie, hia⟩ := hrow i hir
    apply Finset.card_image_of_injOn
    intro S1 hS1 S2 hS2 heq
    have h1 := ((mem_coverSets.1 hS1).1.insert hd hiR hie hia).1
    have h2 := ((mem_coverSets.1 hS2).1.insert hd hiR hie hia).1
    have := congrArg (fun S => Finset.erase S i) heq
    simpa [Finset.erase_insert h1, Finset.erase_insert h2] using this
  · intro i hi i1 hi1 hne
    have hi := List.mem_toFinset.1 hi
    have hi1 := List.mem_toFinset.1 hi1
    rw [Finset.disjoint_left]
    intro S hS hS1
    obtain ⟨S1, hS1m, rfl⟩ := Finset.mem_image.1 hS
    obtain ⟨S2, hS2m, heq⟩ := Finset.mem_image.1 hS1
    obtain ⟨hiR, hie, hia⟩ := hrow i hi
    obtain ⟨hiR1, hie1, _⟩ := hrow i1 hi1
    have hc := ((mem_coverSets.1 hS1m).1.insert hd hiR hie hia).2
    obtain ⟨a, hcard⟩ := Finset.card_eq_one.1 (hc.2 d hd hdC)
    have h1 : i ∈ (insert i S1).filter (fun i2 => ent i2 d = true) :=
      Finset.mem_filter.2 ⟨Finset.mem_insert_self _ _, hie⟩
    have h2 : i1 ∈ (insert i S1).filter (fun i2 => ent i2 d = true) := by
      refine Finset.mem_filter.2 ⟨?_, hie1⟩
      have : i1 ∈ insert i1 S2 := Finset.mem_insert_self _ _
      rw [heq] at this
      exact this
    rw [hcard, Finset.mem_singleton] at h1 h2
    exact hne (h1.trans h2.symm)

end Dlx

namespace Dlx

/-! ## `searchAllSolution` -/

theorem colRows_snoc_self {ent : Nat → Nat → Bool} {R : Nat} {C : List Nat} {d : Nat}
    (hd : d ∉ C) : colRows ent R (C ++ [d]) d = colRows ent R C d := by
  simp only [colRows]
  have h1 : (C ++ [d]).takeWhile (fun c => decide (c ≠ d)) = C := by
    rw [List.takeWhile_append, takeWhile_ne_of_not_mem hd]
    simp
  rw [h1, takeWhile_ne_of_not_mem hd]

theorem actCols_length_le (K : Nat) (C : List Nat) : (actCols K C).length ≤ K := by
  have := List.length_filter_le (fun d => decide (d ∉ C)) (List.range K)
  simpa [actCols] using this

/-- Covering more columns leaves fewer active columns. -/
theorem actCols_length_lt {K : Nat} {C C1 : List Nat} {d : Nat} (hd : d ∈ actCols K C)
    (hsub : ∀ x ∈ C, x ∈ C1) (hd1 : d ∈ C1) :
    (actCols K C1).length < (actCols K C).length := by
  have h1 : actCols K C1 = ((actCols K C).erase d).filter (fun x => decide (x ∉ C1)) := by
    rw [List.Nodup.erase_eq_filter (actCols_nodup K C)]
    simp only [actCols, List.filter_filter]
    apply List.filter_congr
    intro x _
    by_cases hx1 : x ∈ C1
    · simp [hx1]
    · have hxC : x ∉ C := fun h => hx1 (hsub x h)
      have hxd : x ≠ d := fun h => hx1 (h ▸ hd1)
      simp [hx1, hxC, hxd]
  rw [h1]
  have h2 := List.length_filter_le (fun x => decide (x ∉ C1)) ((actCols K C).erase d)
  have h3 := List.length_erase_of_mem hd
  have h4 := List.length_pos_of_mem hd
  omega

theorem appendSlice_len (grow : Nat → Nat) (arrays : Arrays) (s : Slice) (v : Nat) :
    (appendSlice grow arrays s v).2.len = s.len + 1 := by
  simp only [appendSlice]
  split_ifs <;> rfl

theorem searchAllSolution_nil (grow : Nat → Nat) {R K : Nat} {ent : Nat → Nat → Bool}
    {names : List String} {C : List Nat} {st : AllState} (sol : Slice) {fuel : Nat}
    (hnil : actCols K C = []) (hr : Repr R K ent names C st.heap) (hf : 0 < fuel) :
    searchAllSolution grow fuel st rootAddr sol =
      some { st with solutions := st.solutions ++ [sol] } := by
  obtain ⟨fuel, rfl⟩ : ∃ f, fuel = f + 1 := ⟨fuel - 1, by omega⟩
  have hring := hr.hring
  rw [hnil] at hring
  have hroot : st.heap.right rootAddr = rootAddr := (Ring.single.1 hring).1
  have hg : getRight st.heap rootAddr = some rootAddr := by
    simp only [getRight, hroot]
    simp [rootAddr]
  rw [searchAllSolution, hg, obind_some, if_pos rfl]

/-- `searchAllSolution` on the mesh of the matrix with the columns `C` covered: it
returns, the memory of the mesh is as it was, and as many solutions are recorded as there
are exact covers, without all-false rows, of what is left of the matrix. -/
theorem searchAllSolution_spec (grow : Nat → Nat) {R K : Nat} {ent : Nat → Nat → Bool}
    {names : List String} :
    ∀ (n : Nat) (C : List Nat) (st : AllState) (sol : Slice) (fuel : Nat),
      (actCols K C).length ≤ n → Repr R K ent names C st.heap → n + R + K + 2 ≤ fuel →
      ∃ st1, searchAllSolution grow fuel st rootAddr sol = some st1 ∧ st1.heap = st.heap ∧
        ∃ news, st1.solutions = st.solutions ++ news ∧
          news.length = (coverSets ent R K C).card ∧
          ∀ s ∈ news, s.len ≤ sol.len + (actCols K C).length := by
  have hbase : ∀ (C : List Nat) (st : AllState) (sol : Slice) (fuel : Nat),
      actCols K C = [] → Repr R K ent names C st.heap → 0 < fuel →
      ∃ st1, searchAllSolution grow fuel st rootAddr sol = some st1 ∧ st1.heap = st.heap ∧
        ∃ news, st1.solutions = st.solutions ++ news ∧
          news.length = (coverSets ent R K C).card ∧
          ∀ s ∈ news, s.len ≤ sol.len + (actCols K C).length := by
    intro C st sol fuel hnil hr hf
    refine ⟨_, searchAllSolution_nil grow sol hnil hr hf, rfl, [sol], rfl, ?_, ?_⟩
    · simp [coverSets_of_no_column hnil]
    · intro s hs
      simp only [List.mem_singleton] at hs
      subst hs; omega
  intro n
  induction n with
  | zero =>
    intro C st sol fuel hact hr hf
    exact hbase C st sol fuel (List.length_eq_zero.1 (Nat.le_zero.1 hact)) hr (by omega)
  | succ n ih =>
    intro C st sol fuel hact hr hf
    by_cases hnil : actCols K C = []
    · exact hbase C st sol fuel hnil hr (by omega)
    · obtain ⟨fuel, rfl⟩ : ∃ f, fuel = f + 1 := ⟨fuel - 1, by omega⟩
      have ok := cellAddr_ok ent K
      obtain ⟨d0, rest0, hact0⟩ : ∃ d0 rest0, actCols K C = d0 :: rest0 := by
        cases hl : actCols K C with
        | nil => exact absurd hl hnil
        | cons a b => exact ⟨a, b, rfl⟩
      have hhr := hr.header_ring
      rw [hact0, List.map_cons] at hhr
      have hroot : getRight st.heap rootAddr = some (colAddr d0) := by
        simp only [getRight, hhr.header_ne, if_false, hhr.ring.chain.next_head, List.headD_cons]
      have hne : colAddr d0 ≠ rootAddr := by simp [colAddr, rootAddr]
      have hKact := actCols_length_le K C
      obtain ⟨c, hchoose, hfm⟩ := @chooseColumn_spec _ _ _ _ hhr fuel (by
        have := congrArg List.length hact0
        simp only [List.length_cons] at this
        simp only [List.length_map]
        omega)
      have hcm : c ∈ (actCols K C).map colAddr := by
        rw [hact0, List.map_cons]
        exact hfm.mem
      obtain ⟨d, hdact, rfl⟩ := List.mem_map.1 hcm
      obtain ⟨hdK, hdC⟩ := mem_actCols.1 hdact
      obtain ⟨hcov, hr1, hunc⟩ := Repr.cover hr hdK hdC (by omega : R < fuel) (by omega : K ≤ fuel)
      have hv := (hr1.vring d hdK).chain
      rw [colRows_snoc_self hdC] at hv
      have hrowfact : ∀ i ∈ colRows ent R C d, i < R ∧ ent i d = true ∧ aliveRow ent C i = true :=
        fun i hi => (mem_colRows_of_not_mem hdC).1 hi
      have hdown : getDown (coverM ent R K C st.heap d) (colAddr d) =
          some (((colRows ent R C d).map fun i => cellAddr ent K i d).headD (colAddr d)) := by
        simp only [getDown, colAddr_ne_zero, if_false, hv.next_head]
      rw [searchAllSolution, hroot, obind_some, if_neg hne, hchoose, obind_some, hcov,
        obind_some, hdown, obind_some]
      have hrule := forRing_rule (fun (v : AllState × Slice) r => getDown v.1.heap r)
        (fun (v : AllState × Slice) (r : Nat) =>
          obind (coverRowColumns fuel v.1.heap r) fun h2 =>
          obind (searchAllSolution grow fuel
            { heap := h2, arrays := (appendSlice grow v.1.arrays v.2 r).1,
              solutions := v.1.solutions } rootAddr (appendSlice grow v.1.arrays v.2 r).2)
            fun st1 =>
          obind (uncoverRowColumns fuel st1.heap r) fun h3 =>
          some (({ heap := h3, arrays := st1.arrays, solutions := st1.solutions } : AllState),
            ({ array := (appendSlice grow v.1.arrays v.2 r).2.array,
               len := (appendSlice grow v.1.arrays v.2 r).2.len - 1,
               cap := (appendSlice grow v.1.arrays v.2 r).2.cap } : Slice)))
        (colAddr d)
        (fun rem v => ∃ done remR news, done ++ remR = colRows ent R C d ∧
          rem = remR.map (fun i => cellAddr ent K i d) ∧
          v.1.heap = coverM ent R K C st.heap d ∧
          v.1.solutions = st.solutions ++ news ∧
          news.length =
            (done.map fun i => (coverSets ent R K (pickCols ent K C d i)).card).sum ∧
          v.2.len = sol.len ∧
          ∀ s ∈ news, s.len ≤ sol.len + (actCols K C).length)
        (by
          rintro y ys v ⟨done, remR, news, hsplit, hrem, hvh, hvs, hnl, hvl, hsl⟩
          cases remR with
          | nil => simp at hrem
          | cons i rest =>
            simp only [List.map_cons, List.cons.injEq] at hrem
            obtain ⟨rfl, rfl⟩ := hrem
            have him : i ∈ colRows ent R C d := by rw [← hsplit]; simp
            obtain ⟨hiR, hie, hia⟩ := hrowfact i him
            have hds : ∀ j ∈ rowOthers ent K i d, j ∉ C ++ [d] := by
              intro j hj
              obtain ⟨_, hje, hjd⟩ := mem_rowOthers.1 hj
              simp only [List.mem_append, List.mem_singleton, not_or]
              refine ⟨?_, hjd⟩
              intro hm
              have := aliveRow_iff.1 hia j hm
              rw [hje] at this
              cases this
            obtain ⟨hcr, hr2, hur⟩ := Repr.cover_row_columns hr1 hdK hie hds
              (by omega : R < fuel) (by omega : K ≤ fuel)
            have hlt : (actCols K (pickCols ent K C d i)).length < (actCols K C).length :=
              actCols_length_lt hdact
                (fun x hx => (mem_pickCols hdK hie).2 (Or.inl hx))
                ((mem_pickCols hdK hie).2 (Or.inr ⟨hdK, hie⟩))
            obtain ⟨st1, hrec, hh1, news1, hs1, hn1, hl1⟩ := ih (pickCols ent K C d i)
              { heap := coverManyM ent R K (C ++ [d]) (coverM ent R K C st.heap d)
                  (rowOthers ent K i d),
                arrays := (appendSlice grow v.1.arrays v.2 (cellAddr ent K i d)).1,
                solutions := v.1.solutions }
              (appendSlice grow v.1.arrays v.2 (cellAddr ent K i d)).2 fuel (by omega) hr2
              (by omega)
            simp only at hh1 hs1
            refine ⟨ok.ne_col _ _ hdK,
              (({ heap := coverM ent R K C st.heap d, arrays := st1.arrays,
                  solutions := st1.solutions } : AllState),
                ({ array := (appendSlice grow v.1.arrays v.2 (cellAddr ent K i d)).2.array,
                   len := (appendSlice grow v.1.arrays v.2 (cellAddr ent K i d)).2.len - 1,
                   cap := (appendSlice grow v.1.arrays v.2 (cellAddr ent K i d)).2.cap } :
                  Slice)),
              ?_, ?_, done ++ [i], rest, news ++ news1, ?_, rfl, rfl, ?_, ?_, ?_, ?_⟩
            · beta_reduce
              rw [hvh, hcr, obind_some, hrec, obind_some, hh1, hur, obind_some]
            · rw [← hsplit, List.map_append, List.map_cons] at hv
              simp only [getDown, ok.ne_zero i d, if_false, hv.next_mid]
            · rw [← hsplit]; simp
            · simp only [hs1, hvs, List.append_assoc]
            · simp only [List.length_append, hnl, hn1, List.map_append, List.map_cons,
                List.map_nil, List.sum_append, List.sum_cons, List.sum_nil, Nat.add_zero]
            · simp only [appendSlice_len, hvl, Nat.add_sub_cancel]
            · intro s hs
              rcases List.mem_append.1 hs with h | h
              · exact hsl s h
              · have := hl1 s h
                rw [appendSlice_len, hvl] at this
                omega)
        ((colRows ent R C d).map fun i => cellAddr ent K i d)
        (({ heap := coverM ent R K C st.heap d, arrays := st.arrays,
            solutions := st.solutions } : AllState), sol) fuel
        (by
          have := colRows_length_le ent R C d
          simp only [List.length_map]; omega)
        ⟨[], colRows ent R C d, [], rfl, rfl, rfl, by simp, by simp, rfl, by simp⟩
      obtain ⟨v, hrun, done, remR, news, hsplit, hrem, hvh, hvs, hnl, _, hsl⟩ := hrule
      have hremR : remR = [] := by
        cases remR with
        | nil => rfl
        | cons a b => simp at hrem
      subst hremR
      simp only [List.append_nil] at hsplit
      subst hsplit
      have hcc : getColumn v.1.heap (colAddr d) = some (colAddr d) := by
        simp only [getColumn, colAddr_ne_zero, if_false, hvh, hr1.col_col d hdK]
      refine ⟨{ heap := st.heap, arrays := v.1.arrays, solutions := v.1.solutions }, ?_, rfl,
        news, hvs, ?_, hsl⟩
      · show obind (forRing _ _ _ _ _ _) _ = _
        rw [hrun, obind_some, hcc, obind_some, hvh, hunc, obind_some]
      · rw [hnl, coverSets_card hdK hdC]

end Dlx

namespace Dlx

/-! ## `searchOnlySolution` -/

theorem searchOnlySolution_nil {R K : Nat} {ent : Nat → Nat → Bool}
    {names : List String} {C : List Nat} {h : Heap} {fuel : Nat}
    (hnil : actCols K C = []) (hr : Repr R K ent names C h) (hf : 0 < fuel) :
    searchOnlySolution fuel h rootAddr = some (h, [], none) := by
  obtain ⟨fuel, rfl⟩ : ∃ f, fuel = f + 1 := ⟨fuel - 1, by omega⟩
  have hring := hr.hring
  rw [hnil] at hring
  have hroot : h.right rootAddr = rootAddr := (Ring.single.1 hring).1
  have hg : getRight h rootAddr = some rootAddr := by
    simp only [getRight, hroot]
    simp [rootAddr]
  rw [searchOnlySolution, hg, obind_some, if_pos rfl]

/-- `searchOnlySolution` on the mesh of the matrix with the columns `C` covered: it
returns; with an exact cover of what is left of the matrix it returns one, and without it
returns an error and leaves the memory as it was. -/
theorem searchOnlySolution_spec {R K : Nat} {ent : Nat → Nat → Bool} {names : List String} :
    ∀ (n : Nat) (C : List Nat) (h : Heap) (fuel : Nat),
      (actCols K C).length ≤ n → Repr R K ent names C h →
      n * (R + 2) + R + K + 2 ≤ fuel →
      ∃ res, searchOnlySolution fuel h rootAddr = some res ∧
        (OnlySuccess ent R K C res ∨ OnlyFailure ent R K C h res) := by
  have hbase : ∀ (C : List Nat) (h : Heap) (fuel : Nat),
      actCols K C = [] → Repr R K ent names C h → 0 < fuel →
      ∃ res, searchOnlySolution fuel h rootAddr = some res ∧
        (OnlySuccess ent R K C res ∨ OnlyFailure ent R K C h res) := by
    intro C h fuel hnil hr hf
    refine ⟨_, searchOnlySolution_nil hnil hr hf, Or.inl ⟨rfl, ?_, [], rfl, by simp, by simp, ?_⟩⟩
    · have hring := hr.hring
      rw [hnil] at hring
      exact (Ring.single.1 hring).1
    · simpa using IsCover.of_no_column hnil
  intro n
  induction n with
  | zero =>
    intro C h fuel hact hr hf
    exact hbase C h fuel (List.length_eq_zero.1 (Nat.le_zero.1 hact)) hr (by omega)
  | succ n ih =>
    intro C h fuel hact hr hf
    by_cases hnil : actCols K C = []
    · exact hbase C h fuel hnil hr (by omega)
    · rw [Nat.succ_mul] at hf
      obtain ⟨fuel, rfl⟩ : ∃ f, fuel = f + 1 := ⟨fuel - 1, by omega⟩
      have ok := cellAddr_ok ent K
      obtain ⟨d0, rest0, hact0⟩ : ∃ d0 rest0, actCols K C = d0 :: rest0 := by
        cases hl : actCols K C with
        | nil => exact absurd hl hnil
        | cons a b => exact ⟨a, b, rfl⟩
      have hhr := hr.header_ring
      rw [hact0, List.map_cons] at hhr
      have hroot : getRight h rootAddr = some (colAddr d0) := by
        simp only [getRight, hhr.header_ne, if_false, hhr.ring.chain.next_head, List.headD_cons]
      have hne : colAddr d0 ≠ rootAddr := by simp [colAddr, rootAddr]
      have hKact := actCols_length_le K C
      obtain ⟨c, hchoose, hfm⟩ := @chooseColumn_spec _ _ _ _ hhr fuel (by
        have := congrArg List.length hact0
        simp only [List.length_cons] at this
        simp only [List.length_map]
        omega)
      have hcm : c ∈ (actCols K C).map colAddr := by
        rw [hact0, List.map_cons]
        exact hfm.mem
      obtain ⟨d, hdact, rfl⟩ := List.mem_map.1 hcm
      obtain ⟨hdK, hdC⟩ := mem_actCols.1 hdact
      obtain ⟨hcov, hr1, hunc⟩ := Repr.cover hr hdK hdC (by omega : R < fuel) (by omega : K ≤ fuel)
      have hv := (hr1.vring d hdK).chain
      rw [colRows_snoc_self hdC] at hv
      have hrowfact : ∀ i ∈ colRows ent R C d, i < R ∧ ent i d = true ∧ aliveRow ent C i = true :=
        fun i hi => (mem_colRows_of_not_mem hdC).1 hi
      have hdown : getDown (coverM ent R K C h d) (colAddr d) =
          some (((colRows ent R C d).map fun i => cellAddr ent K i d).headD (colAddr d)) := by
        simp only [getDown, colAddr_ne_zero, if_false, hv.next_head]
      rw [searchOnlySolution, hroot, obind_some, if_neg hne, hchoose, obind_some, hcov,
        obind_some, hdown, obind_some]
      -- the loop over the rows of the column
      have hloop : ∀ (rem done : List Nat) (f : Nat), done ++ rem = colRows ent R C d →
          rem.length + 1 + (n * (R + 2) + R + K + 2) ≤ f →
          (∀ i ∈ done, ¬ ∃ S, IsCover ent R K (pickCols ent K C d i) S) →
          ∃ res, searchOnlyRows f (coverM ent R K C h d) rootAddr (colAddr d) []
              ((rem.map fun i => cellAddr ent K i d).headD (colAddr d)) = some res ∧
            (OnlySuccess ent R K C res ∨ OnlyFailure ent R K C h res) := by
        intro rem
        induction rem with
        | nil =>
          intro done f hsplit hf1 hdone
          obtain ⟨f, rfl⟩ : ∃ f1, f = f1 + 1 := ⟨f - 1, by omega⟩
          simp only [List.append_nil] at hsplit
          subst hsplit
          have hcc : getColumn (coverM ent R K C h d) (colAddr d) = some (colAddr d) := by
            simp only [getColumn, colAddr_ne_zero, if_false, hr1.col_col d hdK]
          have hunc1 := (Repr.cover hr hdK hdC (by omega : R < f) (by omega : K ≤ f)).2.2
          refine ⟨(h, [], some "this node is not a solution"), ?_, Or.inr ⟨by simp, rfl, rfl, ?_⟩⟩
          · rw [List.map_nil, List.headD_nil, searchOnlyRows, if_pos rfl, hcc, obind_some, hunc1,
              obind_some]
          · rintro ⟨S, hS⟩
            obtain ⟨i, _, hir, hc⟩ := hS.erase hdK hdC
            exact hdone i hir ⟨_, hc⟩
        | cons i rest ihr =>
          intro done f hsplit hf1 hdone
          simp only [List.length_cons] at hf1
          obtain ⟨f, rfl⟩ : ∃ f1, f = f1 + 1 := ⟨f - 1, by omega⟩
          have him : i ∈ colRows ent R C d := by rw [← hsplit]; simp
          obtain ⟨hiR, hie, hia⟩ := hrowfact i him
          have hds : ∀ j ∈ rowOthers ent K i d, j ∉ C ++ [d] := by
            intro j hj
            obtain ⟨_, hje, hjd⟩ := mem_rowOthers.1 hj
            simp only [List.mem_append, List.mem_singleton, not_or]
            refine ⟨?_, hjd⟩
            intro hm
            have := aliveRow_iff.1 hia j hm
            rw [hje] at this
            cases this
          obtain ⟨hcr, hr2, hur⟩ := Repr.cover_row_columns hr1 hdK hie hds
            (by omega : R < f) (by omega : K ≤ f)
          have hlt : (actCols K (pickCols ent K C d i)).length < (actCols K C).length :=
            actCols_length_lt hdact
              (fun x hx => (mem_pickCols hdK hie).2 (Or.inl hx))
              ((mem_pickCols hdK hie).2 (Or.inr ⟨hdK, hie⟩))
          obtain ⟨res, hrec, hres⟩ := ih (pickCols ent K C d i) _ f (by omega) hr2 (by omega)
          have hrne : cellAddr ent K i d ≠ colAddr d := ok.ne_col _ _ hdK
          rw [List.map_cons, List.headD_cons, searchOnlyRows, if_neg hrne, hcr, obind_some, hrec,
            obind_some]
          rcases hres with ⟨herr, hring, picks, hsol, hpicks, hnd, hcover⟩ | ⟨herr, hheap, hsol, hno⟩
          · rw [if_pos herr]
            obtain ⟨hinot, hcov1⟩ := hcover.insert hdK hiR hie hia
            refine ⟨_, rfl, Or.inl ⟨rfl, hring, (i, d) :: picks, ?_, ?_, ?_, ?_⟩⟩
            · simp [hsol]
            · intro p hp
              rcases List.mem_cons.1 hp with h1 | h1
              · subst h1; exact ⟨hiR, hdK, hie⟩
              · exact hpicks p h1
            · simp only [List.map_cons, List.nodup_cons]
              exact ⟨fun hm => hinot (List.mem_toFinset.2 hm), hnd⟩
            · simpa using hcov1
          · rw [if_neg herr, hheap, hur, obind_some]
            rw [← hsplit, List.map_append, List.map_cons] at hv
            have hnext : getDown (coverM ent R K C h d) (cellAddr ent K i d) =
                some ((rest.map fun i => cellAddr ent K i d).headD (colAddr d)) := by
              simp only [getDown, ok.ne_zero i d, if_false, hv.next_mid]
            rw [hnext, obind_some]
            have hdl : ([] ++ [cellAddr ent K i d]).dropLast = ([] : List Nat) := by simp
            rw [hdl]
            refine ihr (done ++ [i]) f (by rw [← hsplit]; simp) (by omega) ?_
            intro i1 hi1
            rcases List.mem_append.1 hi1 with h1 | h1
            · exact hdone i1 h1
            · simp only [List.mem_singleton] at h1
              subst h1
              exact hno
      exact hloop (colRows ent R C d) [] fuel rfl (by
        have := colRows_length_le ent R C d
        omega) (by simp)

end Dlx

namespace Dlx

/-! ## Whole runs: the lemmas -/

/-- An exact cover given as a list of rows is one given as a set of rows. -/
theorem exactCover_iff (ent : Nat → Nat → Bool) (R K : Nat) (rows : List Nat) :
    ExactCover ent R K rows ↔ rows.Nodup ∧ IsCover ent R K [] rows.toFinset := by
  have hcard : ∀ j, rows.Nodup →
      (rows.toFinset.filter fun i => ent i j = true).card =
        (rows.filter fun i => ent i j).length := by
    intro j hnd
    rw [← List.toFinset_card_of_nodup (hnd.filter _), List.toFinset_filter]
  unfold ExactCover IsCover
  constructor
  · rintro ⟨hnd, hlt, hc⟩
    refine ⟨hnd, fun i hi => ⟨hlt i (List.mem_toFinset.1 hi), by simp [aliveRow]⟩,
      fun j hj _ => ?_⟩
    rw [hcard j hnd]
    exact hc j hj
  · rintro ⟨hnd, hal, hc⟩
    refine ⟨hnd, fun i hi => (hal i (List.mem_toFinset.2 hi)).1, fun j hj => ?_⟩
    rw [← hcard j hnd]
    exact hc j hj (by simp)

/-- A set of rows that is an exact cover gives a list of rows that is one. -/
theorem IsCover.exactCover {ent : Nat → Nat → Bool} {R K : Nat} {S : Finset Nat}
    (hS : IsCover ent R K [] S) : ExactCover ent R K S.toList := by
  rw [exactCover_iff]
  refine ⟨Finset.nodup_toList S, ?_⟩
  rw [Finset.toList_toFinset]
  exact hS

/-- Without an exact cover there is no set of rows to count. -/
theorem coverSets_card_of_none {ent : Nat → Nat → Bool} {R K : Nat}
    (hno : ∀ rows, ¬ ExactCover ent R K rows) : (coverSets ent R K []).card = 0 := by
  rw [Finset.card_eq_zero, Finset.eq_empty_iff_forall_not_mem]
  intro S hS
  exact hno _ ((mem_coverSets.1 hS).1.exactCover)

/-- The fuel of a whole run is enough for each of its parts. -/
theorem searchFuel_le (R K : Nat) :
    R ≤ searchFuel R K ∧ K + R + K + 2 ≤ searchFuel R K ∧
      K * (R + 2) + R + K + 2 ≤ searchFuel R K := by
  have h1 : K ≤ K * (R + 2) := Nat.le_mul_of_pos_right K (by omega)
  unfold searchFuel
  omega

/-- The number of true entries of a column, counted over the rows and over the row
numbers. -/
theorem colCount_eq (matrix : List (List Bool)) (j : Nat) :
    colCount matrix j = ((List.range matrix.length).filter fun i => entry matrix i j).length := by
  have hm : matrix = (List.range matrix.length).map fun i => matrix.getD i [] := by
    apply List.ext_getElem
    · simp
    · intro n h1 h2
      simp [List.getD_eq_getElem?_getD, List.getElem?_eq_getElem h1]
  unfold colCount
  conv_lhs => rw [hm]
  rw [List.filter_map, List.length_map]
  rfl

/-- The call of the function of `SearchFunction(true)` on a mesh with no column covered:
it returns, the mesh is as before, and it returns as many solutions as there are exact
covers without an all-false row. -/
theorem call_all_spec (grow : Nat → Nat) {R K : Nat} {ent : Nat → Nat → Bool}
    {names : List String} {h : Heap} (hr : Repr R K ent names [] h) {fuel : Nat}
    (hf : searchFuel R K ≤ fuel) :
    ∃ r, (SearchFunction true).call grow fuel h [] rootAddr = some r ∧ r.heap = h ∧
      r.result.length = (coverSets ent R K []).card := by
  have hlen : (actCols K []).length ≤ K := by simp [actCols_nil]
  have hfuel := searchFuel_le R K
  obtain ⟨st1, hrun, hheap, news, hsol, hcnt, _⟩ :=
    searchAllSolution_spec grow K []
      { heap := h, arrays := [], solutions := [] } Slice.empty fuel hlen hr (by omega)
  refine ⟨{ fn := SearchFn.all Slice.empty st1.solutions, heap := st1.heap,
             arrays := st1.arrays, result := st1.solutions.map (Slice.elems st1.arrays) },
    ?_, ?_, ?_⟩
  · simp only [SearchFunction, if_true, SearchFn.call]
    rw [hrun, obind_some]
  · exact hheap
  · simp only [List.length_map]
    rw [hsol]
    simpa using hcnt

/-- The call of the function of `SearchFunction(false)` on a mesh with no column covered:
it returns one solution, that of `searchOnlySolution`. -/
theorem call_only_spec (grow : Nat → Nat) {R K : Nat} {ent : Nat → Nat → Bool}
    {names : List String} {h : Heap} (hr : Repr R K ent names [] h) {fuel : Nat}
    (hf : searchFuel R K ≤ fuel) :
    ∃ r res, (SearchFunction false).call grow fuel h [] rootAddr = some r ∧
      r.result = [res.2.1] ∧ r.heap = res.1 ∧
      (OnlySuccess ent R K [] res ∨ OnlyFailure ent R K [] h res) := by
  have hlen : (actCols K []).length ≤ K := by simp [actCols_nil]
  have hfuel := searchFuel_le R K
  obtain ⟨res, hrun, hres⟩ := searchOnlySolution_spec K [] h fuel hlen hr (by omega)
  refine ⟨{ fn := SearchFn.only, heap := res.1, arrays := [], result := [res.2.1] }, res,
    ?_, rfl, rfl, hres⟩
  simp only [SearchFunction, SearchFn.call]
  rw [hrun, obind_some]
  rfl

/-- Calls of `coverColumn` on columns that are not covered, one after the other. -/
theorem coverSeq_repr {R K : Nat} {ent : Nat → Nat → Bool} {names : List String}
    {fuel : Nat} (hf1 : R < fuel) (hf2 : K ≤ fuel) :
    ∀ (cs C : List Nat) (h : Heap), Repr R K ent names C h → cs.Nodup →
      (∀ c ∈ cs, c < K ∧ c ∉ C) →
      ∃ h1, coverSeq fuel h (cs.map colAddr) = some h1 ∧ Repr R K ent names (C ++ cs) h1 := by
  intro cs
  induction cs with
  | nil =>
    intro C h hr _ _
    exact ⟨h, rfl, by simpa using hr⟩
  | cons c cs ih =>
    intro C h hr hnd hcs
    obtain ⟨hcK, hcC⟩ := hcs c (by simp)
    obtain ⟨hcov, hr1, _⟩ := hr.cover hcK hcC hf1 hf2
    have hnd1 := List.nodup_cons.1 hnd
    obtain ⟨h1, hrun, hr2⟩ := ih (C ++ [c]) _ hr1 hnd1.2 (by
      intro x hx
      refine ⟨(hcs x (List.mem_cons_of_mem _ hx)).1, ?_⟩
      intro hm
      rcases List.mem_append.1 hm with hm | hm
      · exact (hcs x (List.mem_cons_of_mem _ hx)).2 hm
      · have : x = c := by simpa using hm
        exact hnd1.1 (this ▸ hx))
    refine ⟨h1, ?_, by simpa using hr2⟩
    simp only [List.map_cons, coverSeq]
    rw [hcov, obind_some]
    exact hrun

/-- The column headers after `Initialize` on a rectangular matrix: the sizes are the
numbers of true entries of the columns. -/
theorem Repr.size_eq {matrix : List (List Bool)} {names : List String} {h : Heap}
    (hr : Repr matrix.length names.length (entry matrix) names [] h) {j : Nat}
    (hj : j < names.length) :
    getSize h (colAddr j) = some (colCount matrix j : Int) := by
  have h1 := hr.size j hj
  have h2 := hr.col_is j hj
  rw [colRows_nil] at h1
  rw [colCount_eq, getSize, if_neg (colAddr_ne_zero j), h2, if_pos rfl, h1]

end Dlx

namespace Dlx

/-! ## The properties of the specification -/

/-- On a rectangular matrix, right after `Initialize`, the size of the header of column `j`
is the number of rows with a true entry in column `j`. -/
theorem Initialize_size (matrix : List (List Bool)) (names : List String) (fuel : Nat)
    (hR : 0 < matrix.length) (hK : 0 < names.length) (hrect : Rectangular matrix names.length)
    (hf : matrix.length ≤ fuel) :
    ∃ h, Initialize fuel matrix names = some (h, rootAddr, none) ∧
      Ring h.right h.left (rootAddr :: (List.range names.length).map colAddr) ∧
      ∀ j, j < names.length →
        getName h (colAddr j) = some (names.getD j "") ∧
        getSize h (colAddr j) = some (colCount matrix j : Int) := by
  obtain ⟨h, hinit, hr⟩ := Initialize_repr hR hK hrect hf
  refine ⟨h, hinit, ?_, fun j hj => ⟨?_, hr.size_eq hj⟩⟩
  · have := hr.hring
    rwa [actCols_nil] at this
  · rw [getName, if_neg (colAddr_ne_zero j), hr.col_is j hj, if_pos rfl, hr.col_name j hj]

set_option maxRecDepth 100000 in
/-- C1, the code at the matrix with the rows `[1,1]`, `[1,0]`, `[0,1]` and the columns `a`,
`b`: the list returned by `SearchFunction(true)` has two solutions, and the first one is
the cell of row 1 alone, whose row `[1,0]` has no true entry in column `b`, so it is not an
exact cover. The first solution was row 0 when it was recorded; the `append` of the
caller has written the cell of row 1 over it in the shared backing array. -/
theorem searchAll_returns_non_cover :
    searchResult growslice 20 true [[true, true], [true, false], [false, true]] ["a", "b"] =
      some [[cellAddr (entry [[true, true], [true, false], [false, true]]) 2 1 0],
            [cellAddr (entry [[true, true], [true, false], [false, true]]) 2 1 0,
             cellAddr (entry [[true, true], [true, false], [false, true]]) 2 2 1]] ∧
    ¬ ExactCover (entry [[true, true], [true, false], [false, true]]) 3 2 [1] ∧
    ExactCover (entry [[true, true], [true, false], [false, true]]) 3 2 [0] := by
  decide

set_option maxRecDepth 100000 in
/-- C2, two matrices where the claim fails. For the rows `[1]` and `[0]` and the column
`a`, the row sets `{0}` and `{0, 1}` are both exact covers (each has exactly one row with a
true entry in the column), but `SearchFunction(true)` returns one solution, the cell of row
0: the all-false row 1 has no cell, so no solution has the row set `{0, 1}`. For the rows
`[1,0]`, `[0,1]`, `[1,0]`, `[0,1]`, which are two groups of rows that each cover both
columns, there are four exact covers, one row of each kind, and four solutions are
returned, not two. -/
theorem searchAll_misses_cover_with_false_row :
    searchResult growslice 6 true [[true], [false]] ["a"] =
      some [[cellAddr (entry [[true], [false]]) 1 0 0]] ∧
    ExactCover (entry [[true], [false]]) 2 1 [0] ∧
    ExactCover (entry [[true], [false]]) 2 1 [0, 1] ∧
    ((Finset.range 2).powerset.filter fun S =>
      IsCover (entry [[true], [false]]) 2 1 [] S).card = 2 ∧
    (searchResult growslice 20 true
      [[true, false], [false, true], [true, false], [false, true]] ["a", "b"]).map
        List.length = some 4 ∧
    ExactCover (entry [[true, false], [false, true], [true, false], [false, true]]) 4 2
      [0, 1] ∧
    ExactCover (entry [[true, false], [false, true], [true, false], [false, true]]) 4 2
      [2, 3] ∧
    ((Finset.range 4).powerset.filter fun S =>
      IsCover (entry [[true, false], [false, true], [true, false], [false, true]]) 4 2 []
        S).card = 4 := by
  decide

/-- C2, as amended: for every rectangular matrix with at least one row and one column and
as many names as columns, `SearchFunction(true)` called on the freshly built structure
returns, and the length of the returned list is the number of exact covers of the matrix
that have no all-false row. -/
theorem searchAll_length (grow : Nat → Nat) (matrix : List (List Bool)) (names : List String)
    (fuel : Nat) (hR : 0 < matrix.length) (hK : 0 < names.length)
    (hrect : Rectangular matrix names.length)
    (hf : searchFuel matrix.length names.length ≤ fuel) :
    ∃ h r, Initialize fuel matrix names = some (h, rootAddr, none) ∧
      (SearchFunction true).call grow fuel h [] rootAddr = some r ∧
      r.result.length = (coverSets (entry matrix) matrix.length names.length []).card := by
  have hfuel := searchFuel_le matrix.length names.length
  obtain ⟨h, hinit, hr⟩ := Initialize_repr hR hK hrect (by omega : matrix.length ≤ fuel)
  obtain ⟨r, hcall, _, hlen⟩ := call_all_spec grow hr hf
  exact ⟨h, r, hinit, hcall, hlen⟩

/-- C2, as amended, at the matrix with the rows `[1,0]`, `[0,1]`, `[1,1]`. -/
theorem searchAll_length_witness :
    0 < [[true, false], [false, true], [true, true]].length ∧
    0 < ["a", "b"].length ∧
    Rectangular [[true, false], [false, true], [true, true]] ["a", "b"].length ∧
    searchFuel [[true, false], [false, true], [true, true]].length ["a", "b"].length ≤ 20 ∧
    ∃ h r, Initialize 20 [[true, false], [false, true], [true, true]] ["a", "b"] =
        some (h, rootAddr, none) ∧
      (SearchFunction true).call growslice 20 h [] rootAddr = some r ∧
      r.result.length =
        (coverSets (entry [[true, false], [false, true], [true, true]])
          [[true, false], [false, true], [true, true]].length ["a", "b"].length []).card :=
  ⟨by decide, by decide, by decide, by decide,
    searchAll_length growslice [[true, false], [false, true], [true, true]] ["a", "b"] 20
      (by decide) (by decide) (by decide) (by decide)⟩

/-- C3: for every rectangular matrix with at least one row and one column and as many names
as columns that has an exact cover, `SearchFunction(false)` called on the freshly built
root returns exactly one solution; the solution is not empty, its cells are cells of true
entries of pairwise different rows, and these rows are an exact cover of the matrix. -/
theorem searchOnly_finds_cover (grow : Nat → Nat) (matrix : List (List Bool))
    (names : List String) (fuel : Nat) (hR : 0 < matrix.length) (hK : 0 < names.length)
    (hrect : Rectangular matrix names.length)
    (hf : searchFuel matrix.length names.length ≤ fuel)
    (hex : ∃ rows, ExactCover (entry matrix) matrix.length names.length rows) :
    ∃ h r picks, Initialize fuel matrix names = some (h, rootAddr, none) ∧
      (SearchFunction false).call grow fuel h [] rootAddr = some r ∧
      r.result = [picks.map fun p => cellAddr (entry matrix) names.length p.1 p.2] ∧
      picks ≠ [] ∧
      (∀ p ∈ picks, p.1 < matrix.length ∧ p.2 < names.length ∧ entry matrix p.1 p.2 = true) ∧
      ExactCover (entry matrix) matrix.length names.length (picks.map Prod.fst) := by
  have hfuel := searchFuel_le matrix.length names.length
  obtain ⟨h, hinit, hr⟩ := Initialize_repr hR hK hrect (by omega : matrix.length ≤ fuel)
  obtain ⟨r, res, hcall, hres, _, hcase⟩ := call_only_spec grow hr hf
  rcases hcase with ⟨_, _, picks, hp, hcells, hnd, hcov⟩ | ⟨_, _, _, hno⟩
  · have hec : ExactCover (entry matrix) matrix.length names.length (picks.map Prod.fst) :=
      (exactCover_iff _ _ _ _).2 ⟨hnd, hcov⟩
    refine ⟨h, r, picks, hinit, hcall, by rw [hres, hp], ?_, hcells, hec⟩
    intro hnil
    have h0 := hec.2.2 0 hK
    rw [hnil] at h0
    simp at h0
  · obtain ⟨rows, hrows⟩ := hex
    exact absurd ⟨_, ((exactCover_iff _ _ _ _).1 hrows).2⟩ hno

/-- C3 at the matrix with the rows `[1,0]`, `[0,1]`, `[1,1]`. -/
theorem searchOnly_finds_cover_witness :
    0 < [[true, false], [false, true], [true, true]].length ∧
    0 < ["a", "b"].length ∧
    Rectangular [[true, false], [false, true], [true, true]] ["a", "b"].length ∧
    searchFuel [[true, false], [false, true], [true, true]].length ["a", "b"].length ≤ 20 ∧
    (∃ rows, ExactCover (entry [[true, false], [false, true], [true, true]])
      [[true, false], [false, true], [true, true]].length ["a", "b"].length rows) ∧
    ∃ h r picks, Initialize 20 [[true, false], [false, true], [true, true]] ["a", "b"] =
        some (h, rootAddr, none) ∧
      (SearchFunction false).call growslice 20 h [] rootAddr = some r ∧
      r.result = [picks.map fun p =>
        cellAddr (entry [[true, false], [false, true], [true, true]]) ["a", "b"].length p.1 p.2] ∧
      picks ≠ [] ∧
      (∀ p ∈ picks, p.1 < [[true, false], [false, true], [true, true]].length ∧
        p.2 < ["a", "b"].length ∧
        entry [[true, false], [false, true], [true, true]] p.1 p.2 = true) ∧
      ExactCover (entry [[true, false], [false, true], [true, true]])
        [[true, false], [false, true], [true, true]].length ["a", "b"].length
        (picks.map Prod.fst) :=
  ⟨by decide, by decide, by decide, by decide, ⟨[2], by decide⟩,
    searchOnly_finds_cover growslice [[true, false], [false, true], [true, true]] ["a", "b"] 20
      (by decide) (by decide) (by decide) (by decide) ⟨[2], by decide⟩⟩

set_option maxRecDepth 100000 in
/-- C4, a matrix where the claim fails: the matrix with the one row `[0]` and the column
`a` has no exact cover, and what `SearchFunction(false)` returns is not empty: it is a
list of length one, whose one solution has no cell. -/
theorem searchOnly_no_cover_not_empty :
    (∀ rows, ¬ ExactCover (entry [[false]]) 1 1 rows) ∧
    searchResult growslice 4 false [[false]] ["a"] = some [[]] ∧
    searchResult growslice 4 false [[false]] ["a"] ≠ some [] := by
  refine ⟨?_, by decide!, by decide!⟩
  rintro rows ⟨_, _, hc⟩
  have h0 := hc 0 (by decide)
  have hf : ∀ i, entry [[false]] i 0 = false := by
    intro i
    rcases i with _ | i <;> simp [entry]
  simp [hf] at h0

/-- C4, as amended: for every rectangular matrix with at least one row and one column and
as many names as columns that has no exact cover, on the freshly built structure the list
returned by `SearchFunction(true)` is empty, and `SearchFunction(false)` returns exactly
one solution, which is empty. -/
theorem search_no_cover (grow : Nat → Nat) (matrix : List (List Bool)) (names : List String)
    (fuel : Nat) (hR : 0 < matrix.length) (hK : 0 < names.length)
    (hrect : Rectangular matrix names.length)
    (hf : searchFuel matrix.length names.length ≤ fuel)
    (hno : ∀ rows, ¬ ExactCover (entry matrix) matrix.length names.length rows) :
    ∃ h rAll rOnly, Initialize fuel matrix names = some (h, rootAddr, none) ∧
      (SearchFunction true).call grow fuel h [] rootAddr = some rAll ∧ rAll.result = [] ∧
      (SearchFunction false).call grow fuel h [] rootAddr = some rOnly ∧
      rOnly.result = [[]] := by
  have hfuel := searchFuel_le matrix.length names.length
  obtain ⟨h, hinit, hr⟩ := Initialize_repr hR hK hrect (by omega : matrix.length ≤ fuel)
  obtain ⟨rAll, hcallA, _, hlen⟩ := call_all_spec grow hr hf
  obtain ⟨rOnly, res, hcallO, hres, _, hcase⟩ := call_only_spec grow hr hf
  refine ⟨h, rAll, rOnly, hinit, hcallA, ?_, hcallO, ?_⟩
  · rw [coverSets_card_of_none hno] at hlen
    exact List.length_eq_zero.1 hlen
  · rcases hcase with ⟨_, _, picks, _, _, hnd, hcov⟩ | ⟨_, _, hnil, _⟩
    · exact absurd ((exactCover_iff _ _ _ _).2 ⟨hnd, hcov⟩) (hno _)
    · rw [hres, hnil]

/-- C4, as amended, at the matrix with the one row `[0]`. -/
theorem search_no_cover_witness :
    0 < [[false]].length ∧ 0 < ["a"].length ∧ Rectangular [[false]] ["a"].length ∧
    searchFuel [[false]].length ["a"].length ≤ 7 ∧
    (∀ rows, ¬ ExactCover (entry [[false]]) [[false]].length ["a"].length rows) ∧
    ∃ h rAll rOnly, Initialize 7 [[false]] ["a"] = some (h, rootAddr, none) ∧
      (SearchFunction true).call growslice 7 h [] rootAddr = some rAll ∧ rAll.result = [] ∧
      (SearchFunction false).call growslice 7 h [] rootAddr = some rOnly ∧
      rOnly.result = [[]] :=
  have hno : ∀ rows, ¬ ExactCover (entry [[false]]) [[false]].length ["a"].length rows := by
    rintro rows ⟨_, _, hc⟩
    have h0 := hc 0 (by decide)
    have hf : ∀ i, entry [[false]] i 0 = false := by
      intro i
      rcases i with _ | i <;> simp [entry]
    simp [hf] at h0
  ⟨by decide, by decide, by decide, by decide, hno,
    search_no_cover growslice [[false]] ["a"] 7 (by decide) (by decide) (by decide)
      (by decide) hno⟩

/-- C6, the code at the matrix with the rows `[1]` and `[]` and the one column name `a`:
the second row has width 0, not 1, and `checkInputValue` finds no error, `Initialize`
returns no error and has built the root, the header and one cell. -/
theorem Initialize_accepts_ragged_matrix :
    checkInputValue [[true], []] ["a"] = none ∧
    (Initialize 5 [[true], []] ["a"]).map (fun b => (b.1.count, b.2.1, b.2.2)) =
      some (3, rootAddr, none) := by
  decide

/-- C7, the code at the matrix with the rows `[1]` and `[0,0,1]` and the one column name
`a`: `Initialize` returns no error, and the size of the header of column 0 is 2, while one
row only has a true entry in column 0. The walk to the header of column 2 goes around the
header ring and stops at the header of column 0. -/
theorem Initialize_size_ragged_matrix :
    (Initialize 5 [[true], [false, false, true]] ["a"]).map
        (fun b => (getSize b.1 (colAddr 0), b.2.2)) = some (some 2, none) ∧
    colCount [[true], [false, false, true]] 0 = 1 := by
  decide

/-- C8: for every memory where the header ring of the root is the column headers
`c0 :: rest` in this order, `chooseColumn` returns one of these headers, no header of the
ring has a smaller size, and every header before it in the ring has a larger size. -/
theorem chooseColumn_first_min (h : Heap) (header c0 : Nat) (rest : List Nat) (fuel : Nat)
    (hr : HeaderRing h header (c0 :: rest)) (hf : rest.length + 1 < fuel) :
    ∃ c, chooseColumn fuel h header = some c ∧ c ∈ c0 :: rest ∧
      FirstMin h.size (c0 :: rest) c := by
  obtain ⟨c, hc, hmin⟩ := chooseColumn_spec hr hf
  exact ⟨c, hc, hmin.mem, hmin⟩

/-- C8 at the structure of the matrix with the rows `[1,1]` and `[1,0]`. -/
theorem chooseColumn_first_min_witness :
    HeaderRing exampleHeap rootAddr [colAddr 0, colAddr 1] ∧ [colAddr 1].length + 1 < 3 ∧
    ∃ c, chooseColumn 3 exampleHeap rootAddr = some c ∧ c ∈ [colAddr 0, colAddr 1] ∧
      FirstMin exampleHeap.size [colAddr 0, colAddr 1] c :=
  have hr : HeaderRing exampleHeap rootAddr [colAddr 0, colAddr 1] :=
    ⟨by decide, by decide, by decide, by decide⟩
  ⟨hr, by decide,
    chooseColumn_first_min exampleHeap rootAddr (colAddr 0) [colAddr 1] 3 hr (by decide)⟩

/-- C9, the code at the structure of the matrix with the one row `[1,1]` and the columns
`a`, `b`, with the solution made of the cell of row 0 in column `a`: the row has two true
entries, and `ResolveSolutions` gives the one name `a` for it. The result of
`row.getRight()` is dropped, so the loop ends after the first name. -/
theorem ResolveSolutions_gives_one_name :
    (obind (Initialize 10 [[true, true]] ["a", "b"]) fun b =>
      ResolveSolutions 10 b.1 [[cellAddr (entry [[true, true]]) 2 0 0]]) = some [[["a"]]] ∧
    rowCols (entry [[true, true]]) 2 0 = [0, 1] := by
  decide

set_option maxRecDepth 100000 in
/-- C10, the code at the matrix with the rows `A = [1,0,0]`, `B = [0,1,1]`, `C = [1,0,1]`
over the columns `c1`, `c2`, `c3`: `Initialize`, `SearchFunction(true)` and
`ResolveSolutions` give one solution of two resolved rows, which are `[c2]` and `[c1]`;
the row `B` is resolved to the name `c2` alone, not to `c2` and `c3`. -/
theorem worked_example_resolved :
    resolvedResult growslice 20 true
      [[true, false, false], [false, true, true], [true, false, true]] ["c1", "c2", "c3"] =
      some [[["c2"], ["c1"]]] := by
  decide

end Dlx

namespace Dlx

/-! ## More on `Initialize` and on `coverColumn` -/

/-- `Initialize` on a rectangular matrix: besides the mesh, the number of objects that it
has allocated: the root, the headers and one cell for each true entry. -/
theorem Initialize_repr_count {matrix : List (List Bool)} {names : List String} {fuel : Nat}
    (hR : 0 < matrix.length) (hK : 0 < names.length) (hrect : Rectangular matrix names.length)
    (hf : matrix.length ≤ fuel) :
    ∃ h, Initialize fuel matrix names = some (h, rootAddr, none) ∧
      Repr matrix.length names.length (entry matrix) names [] h ∧
      h.count = names.length + 1 + cellsBefore (entry matrix) names.length matrix.length := by
  obtain ⟨h1, hh1, hc1, sh1⟩ :=
    initColumnHeaders_shape (cellAddr (entry matrix) names.length) names
  have inv0 : CellInv (entry matrix) names.length names 0 0
      { heap := h1, leftNode := 0, isThereNodeInRow := false } := by
    refine { count := ?_, shape := ?_, flag := by simp [rowCount], left := by simp }
    · simp [hc1, cellsBefore, rowCount]
    · refine Shape.congr_ent ?_ (Shape.congr_V ?_ sh1)
      · intro i j _
        simp [truncEnt]
      · intro d _
        simp [buildRows]
  obtain ⟨h2, hh2, inv2⟩ := initNodesLoop_inv hf hrect matrix 0 h1 rfl inv0
  refine ⟨h2, ?_, ?_, ?_⟩
  · simp only [Initialize, checkInputValue_ok hR hK hrect, hh1, obind_some, initNodes, hh2]
  · simp only [Repr]
    rw [actCols_nil]
    refine Shape.congr_ent ?_ (Shape.congr_V ?_ inv2.shape)
    · intro i j _
      rw [Bool.eq_iff_iff, truncEnt_iff]
      constructor
      · rintro ⟨h, _⟩; exact h
      · intro h; exact ⟨h, Or.inl (entry_row_lt h)⟩
    · intro d _
      rw [colRows_nil]
      simp [buildRows]
  · have := inv2.count
    simpa [rowCount] using this

/-- Taking cells out of their columns writes `up`, `down` and `size` only. -/
theorem unlinkAll_frame (addr : Nat → Nat → Nat) (ps : List (Nat × Nat)) :
    ∀ h : Heap, (unlinkAll addr h ps).left = h.left ∧ (unlinkAll addr h ps).right = h.right ∧
      (unlinkAll addr h ps).column = h.column ∧
      (unlinkAll addr h ps).isColumn = h.isColumn ∧
      (unlinkAll addr h ps).name = h.name ∧ (unlinkAll addr h ps).count = h.count := by
  induction ps with
  | nil => intro h; simp [unlinkAll]
  | cons p ps ih =>
    intro h
    have := ih (unlinkPure h (addr p.1 p.2))
    simpa [unlinkAll, unlinkPure] using this

/-- The fields that `coverColumn` leaves as they are: `column`, the kind of the object, the
name, and `left` and `right` of every cell. -/
theorem Repr.cover_frame {R K : Nat} {ent : Nat → Nat → Bool} {names : List String}
    {C : List Nat} {h : Heap} (hr : Repr R K ent names C h) {d : Nat} (hd : d < K)
    (hdC : d ∉ C) :
    (coverM ent R K C h d).column = h.column ∧
    (coverM ent R K C h d).isColumn = h.isColumn ∧
    (coverM ent R K C h d).name = h.name ∧
    (coverM ent R K C h d).count = h.count ∧
    ∀ i j, (coverM ent R K C h d).left (cellAddr ent K i j) = h.left (cellAddr ent K i j) ∧
      (coverM ent R K C h d).right (cellAddr ent K i j) = h.right (cellAddr ent K i j) := by
  have ok := cellAddr_ok ent K
  obtain ⟨h1, h2, h3, h4, h5, h6⟩ :=
    unlinkAll_frame (cellAddr ent K) (coverOps ent K d (colRows ent R C d))
      (unlinkHeader h (colAddr d))
  have hmem : colAddr d ∈ rootAddr :: (actCols K C).map colAddr :=
    List.mem_cons_of_mem _ (List.mem_map.2 ⟨d, mem_actCols.2 ⟨hd, hdC⟩, rfl⟩)
  have hne : ∀ x ∈ rootAddr :: (actCols K C).map colAddr, ∀ i j, cellAddr ent K i j ≠ x := by
    intro x hx i j
    rcases List.mem_cons.1 hx with rfl | hx
    · exact ok.ne_root i j
    · obtain ⟨d1, hd1, rfl⟩ := List.mem_map.1 hx
      exact ok.ne_col i j (mem_actCols.1 hd1).1
  refine ⟨?_, ?_, ?_, ?_, ?_⟩
  · simp only [coverM, coverPure, h3]; rfl
  · simp only [coverM, coverPure, h4]; rfl
  · simp only [coverM, coverPure, h5]; rfl
  · simp only [coverM, coverPure, h6]; rfl
  · intro i j
    have e1 : (coverM ent R K C h d).left = upd h.left (h.right (colAddr d)) (h.left (colAddr d)) := h1
    have e2 : (coverM ent R K C h d).right = upd h.right (h.left (colAddr d)) (h.right (colAddr d)) := h2
    rw [e1, e2]
    exact ⟨upd_ne _ _ (hne _ (hr.hring.next_mem hmem) i j),
      upd_ne _ _ (hne _ (hr.hring.prev_mem hmem) i j)⟩

/-- The rows of the ring of another column after `coverColumn` on column `d`: those that
are not in the ring of column `d`. -/
theorem colRows_snoc_filter {ent : Nat → Nat → Bool} {R K : Nat} {C : List Nat} {d j : Nat}
    (hdC : d ∉ C) (hjK : j < K) (hjd : j ≠ d) :
    colRows ent R (C ++ [d]) j =
      (colRows ent R C j).filter fun i => decide (i ∉ colRows ent R C d) := by
  rw [← colRows_snoc hdC hjK]
  simp only [Vrem]
  apply List.filter_congr
  intro i hi
  have hij : ent i j = true := by
    have := (List.mem_filter.1 hi).2
    simp only [Bool.and_eq_true] at this
    exact this.1
  have hiff : (i, j) ∈ coverOps ent K d (colRows ent R C d) ↔ i ∈ colRows ent R C d := by
    rw [mem_coverOps]
    simp only [mem_rowOthers]
    constructor
    · rintro ⟨h, _⟩; exact h
    · intro h; exact ⟨h, hjK, hij, hjd⟩
  simp only [hiff]

/-- A list is made of the elements that pass a test and of those that fail it. -/
theorem length_filter_not (p : Nat → Prop) [DecidablePred p] (l : List Nat) :
    (l.filter fun i => decide (¬ p i)).length + (l.filter fun i => decide (p i)).length =
      l.length := by
  induction l with
  | nil => simp
  | cons a l ih =>
    by_cases ha : p a
    · simp only [List.filter_cons, ha, not_true_eq_false, decide_False, decide_True,
        Bool.false_eq_true, if_false, if_true, List.length_cons]
      omega
    · simp only [List.filter_cons, ha, not_false_eq_true, decide_False, decide_True,
        Bool.false_eq_true, if_false, if_true, List.length_cons]
      omega

end Dlx

namespace Dlx

/-! ## The searches with a log are the searches -/

theorem omap_obind {α β γ : Type} (x : Option α) (f : α → Option β) (g : β → γ) :
    (obind x f).map g = obind x fun a => (f a).map g := by
  cases x <;> rfl

/-- Two loops whose states agree under `π` at every step agree at the end. -/
theorem forRing_map {σ τ : Type} (π : τ → σ) (next : σ → Nat → Option Nat)
    (next1 : τ → Nat → Option Nat) (body : σ → Nat → Option σ) (body1 : τ → Nat → Option τ)
    (stop : Nat) (hnext : ∀ t x, next1 t x = next (π t) x)
    (hbody : ∀ t x, (body1 t x).map π = body (π t) x) :
    ∀ (fuel : Nat) (t : τ) (x : Nat),
      (forRing next1 body1 stop fuel t x).map π = forRing next body stop fuel (π t) x := by
  intro fuel
  induction fuel with
  | zero => intro t x; rfl
  | succ fuel ih =>
    intro t x
    simp only [forRing]
    by_cases hx : x = stop
    · simp only [if_pos hx, Option.map_some']
    · simp only [if_neg hx]
      have hb := hbody t x
      cases h1 : body1 t x with
      | none =>
        rw [h1] at hb
        rw [← hb]
        rfl
      | some t1 =>
        rw [h1] at hb
        rw [← hb]
        simp only [Option.map_some', obind_some]
        rw [hnext t1 x]
        cases h2 : next (π t1) x with
        | none => rfl
        | some x1 =>
          simp only [obind_some]
          exact ih t1 x1

/-- Without its log, `searchAllTrace` is `searchAllSolution`. -/
theorem searchAllTrace_erase (grow : Nat → Nat) :
    ∀ (fuel depth : Nat) (w : AllState × List CallEntry) (header : Nat) (sol : Slice),
      (searchAllTrace grow fuel depth w header sol).map Prod.fst =
        searchAllSolution grow fuel w.1 header sol := by
  intro fuel
  induction fuel with
  | zero => intro depth w header sol; rfl
  | succ fuel ih =>
    intro depth w header sol
    rw [searchAllTrace, searchAllSolution]
    cases h1 : getRight w.1.heap header with
    | none => rfl
    | some r0 =>
      simp only [obind_some]
      by_cases hr0 : r0 = header
      · simp only [if_pos hr0, Option.map_some']
      · simp only [if_neg hr0]
        cases h2 : chooseColumn fuel w.1.heap header with
        | none => rfl
        | some c =>
          simp only [obind_some]
          cases h3 : coverColumn fuel w.1.heap c with
          | none => rfl
          | some hc =>
            simp only [obind_some]
            cases h4 : getDown hc c with
            | none => rfl
            | some r =>
              simp only [obind_some]
              have hloop := forRing_map
                (fun (v : (AllState × List CallEntry) × Slice) => (v.1.1, v.2))
                (fun (v : AllState × Slice) r => getDown v.1.heap r)
                (fun (v : (AllState × List CallEntry) × Slice) r => getDown v.1.1.heap r)
                (fun (v : AllState × Slice) r =>
                  obind (coverRowColumns fuel v.1.heap r) fun h2 =>
                  obind (searchAllSolution grow fuel
                    { v.1 with heap := h2, arrays := (appendSlice grow v.1.arrays v.2 r).1 }
                    header (appendSlice grow v.1.arrays v.2 r).2) fun st1 =>
                  obind (uncoverRowColumns fuel st1.heap r) fun h3 =>
                  some ({ st1 with heap := h3 },
                    { (appendSlice grow v.1.arrays v.2 r).2 with
                      len := (appendSlice grow v.1.arrays v.2 r).2.len - 1 }))
                (fun (v : (AllState × List CallEntry) × Slice) r =>
                  obind (coverRowColumns fuel v.1.1.heap r) fun h2 =>
                  obind (searchAllTrace grow fuel (depth + 1)
                    ({ v.1.1 with heap := h2,
                                  arrays := (appendSlice grow v.1.1.arrays v.2 r).1 }, v.1.2)
                    header (appendSlice grow v.1.1.arrays v.2 r).2) fun w1 =>
                  obind (uncoverRowColumns fuel w1.1.heap r) fun h3 =>
                  some (({ w1.1 with heap := h3 }, w1.2),
                    { (appendSlice grow v.1.1.arrays v.2 r).2 with
                      len := (appendSlice grow v.1.1.arrays v.2 r).2.len - 1 }))
                c (fun _ _ => rfl)
                (by
                  intro v x
                  beta_reduce
                  cases h5 : coverRowColumns fuel v.1.1.heap x with
                  | none => rfl
                  | some h2 =>
                    simp only [obind_some]
                    have hrec := ih (depth + 1)
                      ({ v.1.1 with heap := h2,
                                    arrays := (appendSlice grow v.1.1.arrays v.2 x).1 }, v.1.2)
                      header (appendSlice grow v.1.1.arrays v.2 x).2
                    rw [← hrec]
                    cases h6 : searchAllTrace grow fuel (depth + 1)
                      ({ v.1.1 with heap := h2,
                                    arrays := (appendSlice grow v.1.1.arrays v.2 x).1 }, v.1.2)
                      header (appendSlice grow v.1.1.arrays v.2 x).2 with
                    | none => rfl
                    | some w1 =>
                      simp only [obind_some, Option.map_some']
                      cases h7 : uncoverRowColumns fuel w1.1.heap x with
                      | none => rfl
                      | some h3 => rfl)
                fuel
                (({ w.1 with heap := hc }, w.2 ++ [{ depth := depth, heap := w.1.heap }]), sol)
                r
              rw [omap_obind]
              show obind (forRing _ _ _ _ _ _) _ = obind (forRing _ _ _ _ _ _) _
              rw [← hloop]
              cases h8 : forRing
                (fun (v : (AllState × List CallEntry) × Slice) r => getDown v.1.1.heap r)
                (fun (v : (AllState × List CallEntry) × Slice) r =>
                  obind (coverRowColumns fuel v.1.1.heap r) fun h2 =>
                  obind (searchAllTrace grow fuel (depth + 1)
                    ({ v.1.1 with heap := h2,
                                  arrays := (appendSlice grow v.1.1.arrays v.2 r).1 }, v.1.2)
                    header (appendSlice grow v.1.1.arrays v.2 r).2) fun w1 =>
                  obind (uncoverRowColumns fuel w1.1.heap r) fun h3 =>
                  some (({ w1.1 with heap := h3 }, w1.2),
                    { (appendSlice grow v.1.1.arrays v.2 r).2 with
                      len := (appendSlice grow v.1.1.arrays v.2 r).2.len - 1 }))
                c fuel
                (({ w.1 with heap := hc }, w.2 ++ [{ depth := depth, heap := w.1.heap }]), sol)
                r with
              | none => rfl
              | some v =>
                simp only [obind_some, Option.map_some']
                cases h9 : getColumn v.1.1.heap c with
                | none => rfl
                | some cc =>
                  simp only [obind_some]
                  cases h10 : uncoverColumn fuel v.1.1.heap cc with
                  | none => rfl
                  | some h4 => rfl

/-- Without their logs, `searchOnlyTrace` and its loop are `searchOnlySolution` and its
loop. -/
theorem searchOnlyTrace_erase_both :
    ∀ (fuel : Nat),
      (∀ (depth : Nat) (h : Heap) (log : List CallEntry) (header : Nat),
        (searchOnlyTrace fuel depth h log header).map Prod.fst =
          searchOnlySolution fuel h header) ∧
      (∀ (depth : Nat) (h : Heap) (log : List CallEntry) (header c : Nat) (sol : List Nat)
          (r : Nat),
        (searchOnlyRowsTrace fuel depth h log header c sol r).map Prod.fst =
          searchOnlyRows fuel h header c sol r) := by
  intro fuel
  induction fuel with
  | zero =>
    constructor
    · intro depth h log header
      rw [searchOnlyTrace, searchOnlySolution]
      rfl
    · intro depth h log header c sol r
      rw [searchOnlyRowsTrace, searchOnlyRows]
      rfl
  | succ fuel ih =>
    obtain ⟨ih1, ih2⟩ := ih
    constructor
    · intro depth h log header
      rw [searchOnlyTrace, searchOnlySolution]
      cases h1 : getRight h header with
      | none => rfl
      | some r0 =>
        simp only [obind_some]
        by_cases hr0 : r0 = header
        · simp only [if_pos hr0, Option.map_some']
        · simp only [if_neg hr0]
          cases h2 : chooseColumn fuel h header with
          | none => rfl
          | some c =>
            simp only [obind_some]
            cases h3 : coverColumn fuel h c with
            | none => rfl
            | some hc =>
              simp only [obind_some]
              cases h4 : getDown hc c with
              | none => rfl
              | some r =>
                simp only [obind_some]
                exact ih2 _ _ _ _ _ _ _
    · intro depth h log header c sol r
      rw [searchOnlyRowsTrace, searchOnlyRows]
      by_cases hrc : r = c
      · simp only [if_pos hrc]
        cases h1 : getColumn h c with
        | none => rfl
        | some cc =>
          simp only [obind_some]
          cases h2 : uncoverColumn fuel h cc with
          | none => rfl
          | some h3 => rfl
      · simp only [if_neg hrc]
        cases h1 : coverRowColumns fuel h r with
        | none => rfl
        | some h2 =>
          simp only [obind_some]
          rw [← ih1 (depth + 1) h2 log header]
          cases h3 : searchOnlyTrace fuel (depth + 1) h2 log header with
          | none => rfl
          | some res =>
            simp only [obind_some, Option.map_some']
            by_cases herr : res.1.2.2 = none
            · simp only [if_pos herr, Option.map_some']
            · simp only [if_neg herr]
              cases h4 : uncoverRowColumns fuel res.1.1 r with
              | none => rfl
              | some h5 =>
                simp only [obind_some]
                cases h6 : getDown h5 r with
                | none => rfl
                | some r1 =>
                  simp only [obind_some]
                  exact ih2 _ _ _ _ _ _ _

/-- Without its log, `searchOnlyTrace` is `searchOnlySolution`. -/
theorem searchOnlyTrace_erase (fuel depth : Nat) (h : Heap) (log : List CallEntry)
    (header : Nat) :
    (searchOnlyTrace fuel depth h log header).map Prod.fst =
      searchOnlySolution fuel h header :=
  (searchOnlyTrace_erase_both fuel).1 depth h log header

end Dlx

namespace Dlx

/-! ## The size invariant, the slices, `ResolveSolutions` -/

/-- In the mesh of a matrix, with any columns covered, the sizes agree with the column
rings. -/
theorem Repr.sizeInv {R K : Nat} {ent : Nat → Nat → Bool} {names : List String}
    {C : List Nat} {h : Heap} (hr : Repr R K ent names C h) : SizeInv h rootAddr := by
  refine ⟨(actCols K C).map colAddr, hr.hring, ?_⟩
  intro c hc
  obtain ⟨d, hd, rfl⟩ := List.mem_map.1 hc
  have hdK := (mem_actCols.1 hd).1
  refine ⟨(colRows ent R C d).map fun i => cellAddr ent K i d, hr.vring d hdK, ?_⟩
  rw [getSize, if_neg (colAddr_ne_zero d), hr.col_is d hdK, if_pos rfl, hr.size d hdK,
    List.length_map]

theorem getD_set_self (arrays : Arrays) (a n : Nat) (v : Nat) (b : Nat) :
    (arrays.set a ((arrays.getD a []).set n v)).getD b [] =
      if b = a then (arrays.getD a []).set n v else arrays.getD b [] := by
  simp only [List.getD_eq_getElem?_getD, List.getElem?_set]
  by_cases hba : b = a
  · subst hba
    by_cases hlt : b < arrays.length
    · simp [hlt]
    · have : arrays[b]? = none := List.getElem?_eq_none (by omega)
      simp [hlt, this]
  · have : ¬ a = b := fun h => hba h.symm
    simp [hba, this]

theorem SliceOk.empty (ent : Nat → Nat → Bool) (K : Nat) (arrays : Arrays) :
    SliceOk ent K arrays Slice.empty :=
  ⟨Nat.le_refl _, Nat.zero_le _, fun k hk => absurd hk (Nat.not_lt_zero k)⟩

theorem SliceOk.shrink {ent : Nat → Nat → Bool} {K : Nat} {arrays : Arrays} {s : Slice}
    (hs : SliceOk ent K arrays s) :
    SliceOk ent K arrays { array := s.array, len := s.len - 1, cap := s.cap } :=
  ⟨by have := hs.1; show s.len - 1 ≤ s.cap; omega, hs.2.1,
    fun k hk => hs.2.2 k (by have : k < s.len - 1 := hk; omega)⟩

/-- The elements of a slice that is within its array are cells. -/
theorem SliceOk.elems_cells {ent : Nat → Nat → Bool} {K : Nat} {arrays : Arrays} {s : Slice}
    (hs : SliceOk ent K arrays s) : ∀ v ∈ s.elems arrays, IsCell ent K v := by
  intro v hv
  obtain ⟨k, hk⟩ := List.getElem?_of_mem hv
  simp only [Slice.elems] at hk
  rw [List.getElem?_take] at hk
  by_cases hlt : k < s.len
  · rw [if_pos hlt] at hk
    obtain ⟨v1, h1, h2⟩ := hs.2.2 k hlt
    rw [h1] at hk
    cases hk
    exact h2
  · rw [if_neg hlt] at hk
    cases hk

/-- The builtin `append` of a cell to a slice: the slices that were within their arrays
still are, and so is the new slice. -/
theorem appendSlice_ok (grow : Nat → Nat) {ent : Nat → Nat → Bool} {K : Nat}
    {arrays : Arrays} {s : Slice} {v : Nat} (hv : IsCell ent K v)
    (hs : SliceOk ent K arrays s) :
    (∀ t, SliceOk ent K arrays t → SliceOk ent K (appendSlice grow arrays s v).1 t) ∧
      SliceOk ent K (appendSlice grow arrays s v).1 (appendSlice grow arrays s v).2 := by
  obtain ⟨hs1, hs2, hs3⟩ := hs
  by_cases hlt : s.len < s.cap
  · have happ : appendSlice grow arrays s v =
        (arrays.set s.array ((arrays.getD s.array []).set s.len v),
          { array := s.array, len := s.len + 1, cap := s.cap }) := by
      simp only [appendSlice, if_pos hlt]
    rw [happ]
    have hkeep : ∀ t, SliceOk ent K arrays t →
        SliceOk ent K (arrays.set s.array ((arrays.getD s.array []).set s.len v)) t := by
      rintro t ⟨ht1, ht2, ht3⟩
      by_cases hta : t.array = s.array
      · refine ⟨ht1, ?_, ?_⟩
        · rw [getD_set_self, if_pos hta, List.length_set, ← hta]
          exact ht2
        · intro k hk
          obtain ⟨v0, h1, h2⟩ := ht3 k hk
          rw [getD_set_self, if_pos hta, List.getElem?_set]
          rw [hta] at h1
          by_cases hkn : s.len = k
          · have hklt : k < (arrays.getD s.array []).length := by
              by_contra hcon
              rw [List.getElem?_eq_none (by omega)] at h1
              cases h1
            refine ⟨v, ?_, hv⟩
            rw [if_pos hkn, if_pos (by omega)]
          · exact ⟨v0, by rw [if_neg hkn]; exact h1, h2⟩
      · refine ⟨ht1, ?_, ?_⟩
        · rw [getD_set_self, if_neg hta]
          exact ht2
        · intro k hk
          rw [getD_set_self, if_neg hta]
          exact ht3 k hk
    refine ⟨hkeep, ?_⟩
    refine ⟨by show s.len + 1 ≤ s.cap; omega, ?_, ?_⟩
    · show s.cap ≤ _
      rw [getD_set_self, if_pos rfl, List.length_set]
      exact hs2
    · intro k hk
      have hk1 : k < s.len + 1 := hk
      show ∃ v1, ((arrays.set s.array ((arrays.getD s.array []).set s.len v)).getD
        s.array [])[k]? = some v1 ∧ IsCell ent K v1
      rw [getD_set_self, if_pos rfl, List.getElem?_set]
      by_cases hkn : s.len = k
      · exact ⟨v, by rw [if_pos hkn, if_pos (by omega)], hv⟩
      · obtain ⟨v0, h1, h2⟩ := hs3 k (by omega)
        exact ⟨v0, by rw [if_neg hkn]; exact h1, h2⟩
  · have happ : appendSlice grow arrays s v =
        (arrays ++ [s.elems arrays ++
            v :: List.replicate (max (grow s.cap) (s.len + 1) - (s.len + 1)) 0],
          { array := arrays.length, len := s.len + 1,
            cap := max (grow s.cap) (s.len + 1) }) := by
      simp only [appendSlice, if_neg hlt]
    rw [happ]
    have helen : (s.elems arrays).length = s.len := by
      simp only [Slice.elems, List.length_take]
      omega
    constructor
    · rintro t ⟨ht1, ht2, ht3⟩
      by_cases hta : t.array < arrays.length
      · have hsame : (arrays ++ [s.elems arrays ++
            v :: List.replicate (max (grow s.cap) (s.len + 1) - (s.len + 1)) 0]).getD
              t.array [] = arrays.getD t.array [] := by
          simp only [List.getD_eq_getElem?_getD, List.getElem?_append_left hta]
        refine ⟨ht1, ?_, ?_⟩
        · rw [hsame]; exact ht2
        · intro k hk
          rw [hsame]; exact ht3 k hk
      · have hnil : arrays.getD t.array [] = [] := by
          simp only [List.getD_eq_getElem?_getD, List.getElem?_eq_none (by omega : arrays.length ≤ t.array)]
          rfl
        rw [hnil] at ht2
        simp only [List.length_nil, Nat.le_zero] at ht2
        refine ⟨ht1, by omega, ?_⟩
        intro k hk
        omega
    · have hnew : (arrays ++ [s.elems arrays ++
          v :: List.replicate (max (grow s.cap) (s.len + 1) - (s.len + 1)) 0]).getD
            arrays.length [] = s.elems arrays ++
          v :: List.replicate (max (grow s.cap) (s.len + 1) - (s.len + 1)) 0 := by
        simp [List.getD_eq_getElem?_getD]
      refine ⟨Nat.le_max_right _ _, ?_, ?_⟩
      · show max (grow s.cap) (s.len + 1) ≤ _
        rw [hnew]
        simp only [List.length_append, List.length_cons, List.length_replicate, helen]
        have := Nat.le_max_right (grow s.cap) (s.len + 1)
        omega
      · intro k hk
        have hk1 : k < s.len + 1 := hk
        show ∃ v1, ((arrays ++ [s.elems arrays ++
          v :: List.replicate (max (grow s.cap) (s.len + 1) - (s.len + 1)) 0]).getD
            arrays.length [])[k]? = some v1 ∧ IsCell ent K v1
        rw [hnew]
        by_cases hkn : k < s.len
        · obtain ⟨v0, h1, h2⟩ := hs3 k hkn
          refine ⟨v0, ?_, h2⟩
          rw [List.getElem?_append_left (by rw [helen]; exact hkn)]
          simp only [Slice.elems, List.getElem?_take, if_pos hkn]
          exact h1
        · have hke : k = s.len := by omega
          refine ⟨v, ?_, hv⟩
          rw [List.getElem?_append_right (by rw [helen]; omega), helen, hke]
          simp

/-- The inner loop of `ResolveSolutions` on a cell: one turn, which gives the name of the
column of the cell. -/
theorem resolveRow_cell {h : Heap} {row : Nat} (h0 : row ≠ 0) (hc : h.column row ≠ 0)
    (his : h.isColumn (h.column row) = true) (fuel : Nat) (acc : List String) :
    resolveRow h row row (fuel + 1) acc = some (acc ++ [h.name (h.column row)]) := by
  simp only [resolveRow, getColumn, if_neg h0, obind_some, getName, if_neg hc, his, if_true,
    getRight]

theorem resolveSolution_cells {h : Heap} (fuel : Nat) :
    ∀ (sol : List Nat) (acc : List (List String)),
      (∀ v ∈ sol, v ≠ 0 ∧ h.column v ≠ 0 ∧ h.isColumn (h.column v) = true) →
      resolveSolution (fuel + 1) h acc sol =
        some (acc ++ sol.map fun v => [h.name (h.column v)]) := by
  intro sol
  induction sol with
  | nil => intro acc _; simp [resolveSolution]
  | cons v rest ih =>
    intro acc hall
    obtain ⟨h0, hc, his⟩ := hall v (by simp)
    rw [resolveSolution, resolveRow_cell h0 hc his, obind_some,
      ih _ (fun x hx => hall x (List.mem_cons_of_mem _ hx))]
    simp

theorem resolveLoop_cells {h : Heap} (fuel : Nat) :
    ∀ (sols : List (List Nat)) (acc : List (List (List String))),
      (∀ sol ∈ sols, ∀ v ∈ sol, v ≠ 0 ∧ h.column v ≠ 0 ∧ h.isColumn (h.column v) = true) →
      resolveLoop (fuel + 1) h acc sols =
        some (acc ++ sols.map fun sol => sol.map fun v => [h.name (h.column v)]) := by
  intro sols
  induction sols with
  | nil => intro acc _; simp [resolveLoop]
  | cons sol rest ih =>
    intro acc hall
    rw [resolveLoop, resolveSolution_cells fuel sol [] (hall sol (by simp)), obind_some,
      ih _ (fun x hx => hall x (List.mem_cons_of_mem _ hx))]
    simp

/-- `ResolveSolutions` on solutions made of cells whose `column` is a column header: it
returns, with one name for every cell, the name of its column. -/
theorem ResolveSolutions_cells {h : Heap} {fuel : Nat} (hf : 0 < fuel)
    (sols : List (List Nat))
    (hall : ∀ sol ∈ sols, ∀ v ∈ sol,
      v ≠ 0 ∧ h.column v ≠ 0 ∧ h.isColumn (h.column v) = true) :
    ResolveSolutions fuel h sols =
      some (sols.map fun sol => sol.map fun v => [h.name (h.column v)]) := by
  obtain ⟨fuel, rfl⟩ : ∃ f, fuel = f + 1 := ⟨fuel - 1, by omega⟩
  rw [ResolveSolutions, resolveLoop_cells fuel sols [] hall]
  simp

/-- In the mesh of a matrix, with any columns covered, a cell refers to a column header. -/
theorem Repr.cell_ok {R K : Nat} {ent : Nat → Nat → Bool} {names : List String}
    {C : List Nat} {h : Heap} (hr : Repr R K ent names C h) {v : Nat} (hv : IsCell ent K v) :
    v ≠ 0 ∧ h.column v ≠ 0 ∧ h.isColumn (h.column v) = true := by
  obtain ⟨i, j, hj, he, rfl⟩ := hv
  have ok := cellAddr_ok ent K
  rw [hr.cell_col i j hj he]
  exact ⟨ok.ne_zero i j, colAddr_ne_zero j, hr.col_is j hj⟩

end Dlx

namespace Dlx

/-! ## The calls of `searchAllSolution` -/

theorem searchAllTrace_nil (grow : Nat → Nat) {R K : Nat} {ent : Nat → Nat → Bool}
    {names : List String} {C : List Nat} {w : AllState × List CallEntry} (sol : Slice)
    {fuel : Nat} (depth : Nat)
    (hnil : actCols K C = []) (hr : Repr R K ent names C w.1.heap) (hf : 0 < fuel) :
    searchAllTrace grow fuel depth w rootAddr sol =
      some ({ w.1 with solutions := w.1.solutions ++ [sol] },
        w.2 ++ [{ depth := depth, heap := w.1.heap }]) := by
  obtain ⟨fuel, rfl⟩ : ∃ f, fuel = f + 1 := ⟨fuel - 1, by omega⟩
  have hring := hr.hring
  rw [hnil] at hring
  have hroot : w.1.heap.right rootAddr = rootAddr := (Ring.single.1 hring).1
  have hg : getRight w.1.heap rootAddr = some rootAddr := by
    simp only [getRight, hroot]
    simp [rootAddr]
  rw [searchAllTrace, hg, obind_some, if_pos rfl]

/-- The calls of `searchAllSolution` on the mesh of the matrix with the columns `C`
covered: the search returns and leaves the memory of the mesh as it was; the slices that
were within their arrays still are, and so are the recorded solutions; and every call that
is made, at a depth `t` below this one, finds the mesh of the matrix with columns covered,
with at least `t` active columns fewer. -/
theorem searchAllTrace_spec (grow : Nat → Nat) {R K : Nat} {ent : Nat → Nat → Bool}
    {names : List String} :
    ∀ (n : Nat) (C : List Nat) (w : AllState × List CallEntry) (sol : Slice)
      (fuel depth : Nat),
      (actCols K C).length ≤ n → Repr R K ent names C w.1.heap → n + R + K + 2 ≤ fuel →
      SliceOk ent K w.1.arrays sol →
      ∃ w1 ents news, searchAllTrace grow fuel depth w rootAddr sol = some w1 ∧
        w1.1.heap = w.1.heap ∧ w1.2 = w.2 ++ ents ∧
        w1.1.solutions = w.1.solutions ++ news ∧
        (∀ t, SliceOk ent K w.1.arrays t → SliceOk ent K w1.1.arrays t) ∧
        (∀ s ∈ news, SliceOk ent K w1.1.arrays s) ∧
        ∀ e ∈ ents, depth ≤ e.depth ∧ ∃ C1, Repr R K ent names C1 e.heap ∧
          (actCols K C1).length + (e.depth - depth) ≤ (actCols K C).length := by
  have hbase : ∀ (C : List Nat) (w : AllState × List CallEntry) (sol : Slice)
      (fuel depth : Nat),
      actCols K C = [] → Repr R K ent names C w.1.heap → 0 < fuel →
      SliceOk ent K w.1.arrays sol →
      ∃ w1 ents news, searchAllTrace grow fuel depth w rootAddr sol = some w1 ∧
        w1.1.heap = w.1.heap ∧ w1.2 = w.2 ++ ents ∧
        w1.1.solutions = w.1.solutions ++ news ∧
        (∀ t, SliceOk ent K w.1.arrays t → SliceOk ent K w1.1.arrays t) ∧
        (∀ s ∈ news, SliceOk ent K w1.1.arrays s) ∧
        ∀ e ∈ ents, depth ≤ e.depth ∧ ∃ C1, Repr R K ent names C1 e.heap ∧
          (actCols K C1).length + (e.depth - depth) ≤ (actCols K C).length := by
    intro C w sol fuel depth hnil hr hf hsol
    refine ⟨_, [{ depth := depth, heap := w.1.heap }], [sol],
      searchAllTrace_nil grow sol depth hnil hr hf, rfl, rfl, rfl, fun t ht => ht, ?_, ?_⟩
    · intro s hs
      simp only [List.mem_singleton] at hs
      subst hs
      exact hsol
    · intro e he
      simp only [List.mem_singleton] at he
      subst he
      exact ⟨Nat.le_refl _, C, hr, by simp⟩
  intro n
  induction n with
  | zero =>
    intro C w sol fuel depth hact hr hf hsol
    exact hbase C w sol fuel depth (List.length_eq_zero.1 (Nat.le_zero.1 hact)) hr (by omega)
      hsol
  | succ n ih =>
    intro C w sol fuel depth hact hr hf hsol
    by_cases hnil : actCols K C = []
    · exact hbase C w sol fuel depth hnil hr (by omega) hsol
    · obtain ⟨fuel, rfl⟩ : ∃ f, fuel = f + 1 := ⟨fuel - 1, by omega⟩
      have ok := cellAddr_ok ent K
      obtain ⟨d0, rest0, hact0⟩ : ∃ d0 rest0, actCols K C = d0 :: rest0 := by
        cases hl : actCols K C with
        | nil => exact absurd hl hnil
        | cons a b => exact ⟨a, b, rfl⟩
      have hhr := hr.header_ring
      rw [hact0, List.map_cons] at hhr
      have hroot : getRight w.1.heap rootAddr = some (colAddr d0) := by
        simp only [getRight, hhr.header_ne, if_false, hhr.ring.chain.next_head,
          List.headD_cons]
      have hne : colAddr d0 ≠ rootAddr := by simp [colAddr, rootAddr]
      have hKact := actCols_length_le K C
      obtain ⟨c, hchoose, hfm⟩ := @chooseColumn_spec _ _ _ _ hhr fuel (by
        have := congrArg List.length hact0
        simp only [List.length_cons] at this
        simp only [List.length_map]
        omega)
      have hcm : c ∈ (actCols K C).map colAddr := by
        rw [hact0, List.map_cons]
        exact hfm.mem
      obtain ⟨d, hdact, rfl⟩ := List.mem_map.1 hcm
      obtain ⟨hdK, hdC⟩ := mem_actCols.1 hdact
      obtain ⟨hcov, hr1, hunc⟩ :=
        Repr.cover hr hdK hdC (by omega : R < fuel) (by omega : K ≤ fuel)
      have hv := (hr1.vring d hdK).chain
      rw [colRows_snoc_self hdC] at hv
      have hrowfact : ∀ i ∈ colRows ent R C d,
          i < R ∧ ent i d = true ∧ aliveRow ent C i = true :=
        fun i hi => (mem_colRows_of_not_mem hdC).1 hi
      have hdown : getDown (coverM ent R K C w.1.heap d) (colAddr d) =
          some (((colRows ent R C d).map fun i => cellAddr ent K i d).headD (colAddr d)) := by
        simp only [getDown, colAddr_ne_zero, if_false, hv.next_head]
      rw [searchAllTrace, hroot, obind_some, if_neg hne, hchoose, obind_some, hcov,
        obind_some, hdown, obind_some]
      have hrule := forRing_rule
        (fun (v : (AllState × List CallEntry) × Slice) r => getDown v.1.1.heap r)
        (fun (v : (AllState × List CallEntry) × Slice) (r : Nat) =>
          obind (coverRowColumns fuel v.1.1.heap r) fun h2 =>
          obind (searchAllTrace grow fuel (depth + 1)
            (({ heap := h2, arrays := (appendSlice grow v.1.1.arrays v.2 r).1,
                solutions := v.1.1.solutions } : AllState), v.1.2) rootAddr
            (appendSlice grow v.1.1.arrays v.2 r).2)
            fun w1 =>
          obind (uncoverRowColumns fuel w1.1.heap r) fun h3 =>
          some ((({ heap := h3, arrays := w1.1.arrays, solutions := w1.1.solutions } :
              AllState), w1.2),
            ({ array := (appendSlice grow v.1.1.arrays v.2 r).2.array,
               len := (appendSlice grow v.1.1.arrays v.2 r).2.len - 1,
               cap := (appendSlice grow v.1.1.arrays v.2 r).2.cap } : Slice)))
        (colAddr d)
        (fun rem v => ∃ done remR ents news, done ++ remR = colRows ent R C d ∧
          rem = remR.map (fun i => cellAddr ent K i d) ∧
          v.1.1.heap = coverM ent R K C w.1.heap d ∧
          v.1.2 = (w.2 ++ [{ depth := depth, heap := w.1.heap }]) ++ ents ∧
          v.1.1.solutions = w.1.solutions ++ news ∧
          (∀ t, SliceOk ent K w.1.arrays t → SliceOk ent K v.1.1.arrays t) ∧
          SliceOk ent K v.1.1.arrays v.2 ∧
          (∀ s ∈ news, SliceOk ent K v.1.1.arrays s) ∧
          ∀ e ∈ ents, depth ≤ e.depth ∧ ∃ C1, Repr R K ent names C1 e.heap ∧
            (actCols K C1).length + (e.depth - depth) ≤ (actCols K C).length)
        (by
          rintro y ys v ⟨done, remR, ents, news, hsplit, hrem, hvh, hvl, hvs, hmono, hv2,
            hnews, hents⟩
          cases remR with
          | nil => simp at hrem
          | cons i rest =>
            simp only [List.map_cons, List.cons.injEq] at hrem
            obtain ⟨rfl, rfl⟩ := hrem
            have him : i ∈ colRows ent R C d := by rw [← hsplit]; simp
            obtain ⟨hiR, hie, hia⟩ := hrowfact i him
            have hds : ∀ j ∈ rowOthers ent K i d, j ∉ C ++ [d] := by
              intro j hj
              obtain ⟨_, hje, hjd⟩ := mem_rowOthers.1 hj
              simp only [List.mem_append, List.mem_singleton, not_or]
              refine ⟨?_, hjd⟩
              intro hm
              have := aliveRow_iff.1 hia j hm
              rw [hje] at this
              cases this
            obtain ⟨hcr, hr2, hur⟩ := Repr.cover_row_columns hr1 hdK hie hds
              (by omega : R < fuel) (by omega : K ≤ fuel)
            have hlt : (actCols K (pickCols ent K C d i)).length < (actCols K C).length :=
              actCols_length_lt hdact
                (fun x hx => (mem_pickCols hdK hie).2 (Or.inl hx))
                ((mem_pickCols hdK hie).2 (Or.inr ⟨hdK, hie⟩))
            have hcell : IsCell ent K (cellAddr ent K i d) := ⟨i, d, hdK, hie, rfl⟩
            obtain ⟨happ1, happ2⟩ := appendSlice_ok grow hcell hv2
            obtain ⟨w1, ents1, news1, hrec, hh1, hl1, hs1, hmono1, hnews1, hents1⟩ :=
              ih (pickCols ent K C d i)
                (AllState.mk
                  (coverManyM ent R K (C ++ [d]) (coverM ent R K C w.1.heap d)
                    (rowOthers ent K i d))
                  (appendSlice grow v.1.1.arrays v.2 (cellAddr ent K i d)).1
                  v.1.1.solutions, v.1.2)
                (appendSlice grow v.1.1.arrays v.2 (cellAddr ent K i d)).2 fuel (depth + 1)
                (by omega) hr2 (by omega) happ2
            simp only at hh1 hs1 hl1 hmono1
            refine ⟨ok.ne_col _ _ hdK,
              ((AllState.mk (coverM ent R K C w.1.heap d) w1.1.arrays w1.1.solutions, w1.2),
                Slice.mk (appendSlice grow v.1.1.arrays v.2 (cellAddr ent K i d)).2.array
                  ((appendSlice grow v.1.1.arrays v.2 (cellAddr ent K i d)).2.len - 1)
                  (appendSlice grow v.1.1.arrays v.2 (cellAddr ent K i d)).2.cap),
              ?_, ?_, done ++ [i], rest, ents ++ ents1, news ++ news1, ?_, rfl, rfl, ?_, ?_,
              ?_, ?_, ?_, ?_⟩
            · beta_reduce
              rw [hvh, hcr, obind_some, hrec, obind_some, hh1, hur, obind_some]
            · rw [← hsplit, List.map_append, List.map_cons] at hv
              simp only [getDown, ok.ne_zero i d, if_false, hv.next_mid]
            · rw [← hsplit]; simp
            · simp only [hl1, hvl, List.append_assoc]
            · simp only [hs1, hvs, List.append_assoc]
            · intro t ht
              exact hmono1 t (happ1 t (hmono t ht))
            · exact (hmono1 _ happ2).shrink
            · intro s hs
              rcases List.mem_append.1 hs with h | h
              · exact hmono1 s (happ1 s (hnews s h))
              · exact hnews1 s h
            · intro e he
              rcases List.mem_append.1 he with h | h
              · exact hents e h
              · obtain ⟨h1, C1, h2, h3⟩ := hents1 e h
                exact ⟨by omega, C1, h2, by omega⟩)
        ((colRows ent R C d).map fun i => cellAddr ent K i d)
        ((AllState.mk (coverM ent R K C w.1.heap d) w.1.arrays w.1.solutions,
            w.2 ++ [{ depth := depth, heap := w.1.heap }]), sol) fuel
        (by
          have := colRows_length_le ent R C d
          simp only [List.length_map]; omega)
        ⟨[], colRows ent R C d, [], [], rfl, rfl, rfl, by simp, by simp, fun t ht => ht,
          hsol, by simp, by simp⟩
      obtain ⟨v, hrun, done, remR, ents, news, hsplit, hrem, hvh, hvl, hvs, hmono, _, hnews,
        hents⟩ := hrule
      have hcc : getColumn v.1.1.heap (colAddr d) = some (colAddr d) := by
        simp only [getColumn, colAddr_ne_zero, if_false, hvh, hr1.col_col d hdK]
      refine ⟨({ heap := w.1.heap, arrays := v.1.1.arrays, solutions := v.1.1.solutions },
          v.1.2), { depth := depth, heap := w.1.heap } :: ents, news, ?_, rfl, ?_, hvs, hmono,
        hnews, ?_⟩
      · show obind (forRing _ _ _ _ _ _) _ = _
        rw [hrun, obind_some, hcc, obind_some, hvh, hunc, obind_some]
      · simp only [hvl, List.append_assoc, List.singleton_append]
      · intro e he
        rcases List.mem_cons.1 he with h | h
        · subst h
          exact ⟨Nat.le_refl _, C, hr, by simp⟩
        · exact hents e h

end Dlx

namespace Dlx

/-! ## The calls of `searchOnlySolution` -/

theorem searchOnlyTrace_nil {R K : Nat} {ent : Nat → Nat → Bool}
    {names : List String} {C : List Nat} {h : Heap} {fuel : Nat} (depth : Nat)
    (log : List CallEntry)
    (hnil : actCols K C = []) (hr : Repr R K ent names C h) (hf : 0 < fuel) :
    searchOnlyTrace fuel depth h log rootAddr =
      some ((h, [], none), log ++ [{ depth := depth, heap := h }]) := by
  obtain ⟨fuel, rfl⟩ : ∃ f, fuel = f + 1 := ⟨fuel - 1, by omega⟩
  have hring := hr.hring
  rw [hnil] at hring
  have hroot : h.right rootAddr = rootAddr := (Ring.single.1 hring).1
  have hg : getRight h rootAddr = some rootAddr := by
    simp only [getRight, hroot]
    simp [rootAddr]
  rw [searchOnlyTrace, hg, obind_some, if_pos rfl]

/-- The calls of `searchOnlySolution` on the mesh of the matrix with the columns `C`
covered: the search returns, with an exact cover of what is left of the matrix or with an
error and the memory as it was; the memory that it leaves is the mesh of the matrix with
columns covered; and every call that is made, at a depth `t` below this one, finds the
mesh of the matrix with columns covered, with at least `t` active columns fewer. -/
theorem searchOnlyTrace_spec {R K : Nat} {ent : Nat → Nat → Bool} {names : List String} :
    ∀ (n : Nat) (C : List Nat) (h : Heap) (log : List CallEntry) (fuel depth : Nat),
      (actCols K C).length ≤ n → Repr R K ent names C h →
      n * (R + 2) + R + K + 2 ≤ fuel →
      ∃ res ents, searchOnlyTrace fuel depth h log rootAddr = some (res, log ++ ents) ∧
        (OnlySuccess ent R K C res ∨ OnlyFailure ent R K C h res) ∧
        (∃ C1, Repr R K ent names C1 res.1) ∧
        ∀ e ∈ ents, depth ≤ e.depth ∧ ∃ C1, Repr R K ent names C1 e.heap ∧
          (actCols K C1).length + (e.depth - depth) ≤ (actCols K C).length := by
  have hbase : ∀ (C : List Nat) (h : Heap) (log : List CallEntry) (fuel depth : Nat),
      actCols K C = [] → Repr R K ent names C h → 0 < fuel →
      ∃ res ents, searchOnlyTrace fuel depth h log rootAddr = some (res, log ++ ents) ∧
        (OnlySuccess ent R K C res ∨ OnlyFailure ent R K C h res) ∧
        (∃ C1, Repr R K ent names C1 res.1) ∧
        ∀ e ∈ ents, depth ≤ e.depth ∧ ∃ C1, Repr R K ent names C1 e.heap ∧
          (actCols K C1).length + (e.depth - depth) ≤ (actCols K C).length := by
    intro C h log fuel depth hnil hr hf
    refine ⟨_, [{ depth := depth, heap := h }], searchOnlyTrace_nil depth log hnil hr hf,
      Or.inl ⟨rfl, ?_, [], rfl, by simp, by simp, ?_⟩, ⟨C, hr⟩, ?_⟩
    · have hring := hr.hring
      rw [hnil] at hring
      exact (Ring.single.1 hring).1
    · simpa using IsCover.of_no_column hnil
    · intro e he
      simp only [List.mem_singleton] at he
      subst he
      exact ⟨Nat.le_refl _, C, hr, by simp⟩
  intro n
  induction n with
  | zero =>
    intro C h log fuel depth hact hr hf
    exact hbase C h log fuel depth (List.length_eq_zero.1 (Nat.le_zero.1 hact)) hr
      (by omega)
  | succ n ih =>
    intro C h log fuel depth hact hr hf
    by_cases hnil : actCols K C = []
    · exact hbase C h log fuel depth hnil hr (by omega)
    · rw [Nat.succ_mul] at hf
      obtain ⟨fuel, rfl⟩ : ∃ f, fuel = f + 1 := ⟨fuel - 1, by omega⟩
      have ok := cellAddr_ok ent K
      obtain ⟨d0, rest0, hact0⟩ : ∃ d0 rest0, actCols K C = d0 :: rest0 := by
        cases hl : actCols K C with
        | nil => exact absurd hl hnil
        | cons a b => exact ⟨a, b, rfl⟩
      have hhr := hr.header_ring
      rw [hact0, List.map_cons] at hhr
      have hroot : getRight h rootAddr = some (colAddr d0) := by
        simp only [getRight, hhr.header_ne, if_false, hhr.ring.chain.next_head,
          List.headD_cons]
      have hne : colAddr d0 ≠ rootAddr := by simp [colAddr, rootAddr]
      have hKact := actCols_length_le K C
      obtain ⟨c, hchoose, hfm⟩ := @chooseColumn_spec _ _ _ _ hhr fuel (by
        have := congrArg List.length hact0
        simp only [List.length_cons] at this
        simp only [List.length_map]
        omega)
      have hcm : c ∈ (actCols K C).map colAddr := by
        rw [hact0, List.map_cons]
        exact hfm.mem
      obtain ⟨d, hdact, rfl⟩ := List.mem_map.1 hcm
      obtain ⟨hdK, hdC⟩ := mem_actCols.1 hdact
      obtain ⟨hcov, hr1, hunc⟩ :=
        Repr.cover hr hdK hdC (by omega : R < fuel) (by omega : K ≤ fuel)
      have hv := (hr1.vring d hdK).chain
      rw [colRows_snoc_self hdC] at hv
      have hrowfact : ∀ i ∈ colRows ent R C d,
          i < R ∧ ent i d = true ∧ aliveRow ent C i = true :=
        fun i hi => (mem_colRows_of_not_mem hdC).1 hi
      have hdown : getDown (coverM ent R K C h d) (colAddr d) =
          some (((colRows ent R C d).map fun i => cellAddr ent K i d).headD (colAddr d)) := by
        simp only [getDown, colAddr_ne_zero, if_false, hv.next_head]
      rw [searchOnlyTrace, hroot, obind_some, if_neg hne, hchoose, obind_some, hcov,
        obind_some, hdown, obind_some]
      have hloop : ∀ (rem done : List Nat) (f : Nat) (log1 : List CallEntry),
          done ++ rem = colRows ent R C d →
          rem.length + 1 + (n * (R + 2) + R + K + 2) ≤ f →
          (∀ i ∈ done, ¬ ∃ S, IsCover ent R K (pickCols ent K C d i) S) →
          ∃ res ents, searchOnlyRowsTrace f depth (coverM ent R K C h d) log1 rootAddr
              (colAddr d) [] ((rem.map fun i => cellAddr ent K i d).headD (colAddr d)) =
              some (res, log1 ++ ents) ∧
            (OnlySuccess ent R K C res ∨ OnlyFailure ent R K C h res) ∧
            (∃ C1, Repr R K ent names C1 res.1) ∧
            ∀ e ∈ ents, depth + 1 ≤ e.depth ∧ ∃ C1, Repr R K ent names C1 e.heap ∧
              (actCols K C1).length + (e.depth - depth) ≤ (actCols K C).length := by
        intro rem
        induction rem with
        | nil =>
          intro done f log1 hsplit hf1 hdone
          obtain ⟨f, rfl⟩ : ∃ f1, f = f1 + 1 := ⟨f - 1, by omega⟩
          simp only [List.append_nil] at hsplit
          subst hsplit
          have hcc : getColumn (coverM ent R K C h d) (colAddr d) = some (colAddr d) := by
            simp only [getColumn, colAddr_ne_zero, if_false, hr1.col_col d hdK]
          have hunc1 := (Repr.cover hr hdK hdC (by omega : R < f) (by omega : K ≤ f)).2.2
          refine ⟨(h, [], some "this node is not a solution"), [], ?_,
            Or.inr ⟨by simp, rfl, rfl, ?_⟩, ⟨C, hr⟩, by simp⟩
          · rw [List.map_nil, List.headD_nil, searchOnlyRowsTrace, if_pos rfl, hcc, obind_some,
              hunc1, obind_some, List.append_nil]
          · rintro ⟨S, hS⟩
            obtain ⟨i, _, hir, hc⟩ := hS.erase hdK hdC
            exact hdone i hir ⟨_, hc⟩
        | cons i rest ihr =>
          intro done f log1 hsplit hf1 hdone
          simp only [List.length_cons] at hf1
          obtain ⟨f, rfl⟩ : ∃ f1, f = f1 + 1 := ⟨f - 1, by omega⟩
          have him : i ∈ colRows ent R C d := by rw [← hsplit]; simp
          obtain ⟨hiR, hie, hia⟩ := hrowfact i him
          have hds : ∀ j ∈ rowOthers ent K i d, j ∉ C ++ [d] := by
            intro j hj
            obtain ⟨_, hje, hjd⟩ := mem_rowOthers.1 hj
            simp only [List.mem_append, List.mem_singleton, not_or]
            refine ⟨?_, hjd⟩
            intro hm
            have := aliveRow_iff.1 hia j hm
            rw [hje] at this
            cases this
          obtain ⟨hcr, hr2, hur⟩ := Repr.cover_row_columns hr1 hdK hie hds
            (by omega : R < f) (by omega : K ≤ f)
          have hlt : (actCols K (pickCols ent K C d i)).length < (actCols K C).length :=
            actCols_length_lt hdact
              (fun x hx => (mem_pickCols hdK hie).2 (Or.inl hx))
              ((mem_pickCols hdK hie).2 (Or.inr ⟨hdK, hie⟩))
          obtain ⟨res, ents1, hrec, hres, hfin, hents1⟩ :=
            ih (pickCols ent K C d i) _ log1 f (depth + 1) (by omega) hr2 (by omega)
          have hents2 : ∀ e ∈ ents1, depth + 1 ≤ e.depth ∧ ∃ C1, Repr R K ent names C1 e.heap ∧
              (actCols K C1).length + (e.depth - depth) ≤ (actCols K C).length := by
            intro e he
            obtain ⟨h1, C1, h2, h3⟩ := hents1 e he
            exact ⟨h1, C1, h2, by omega⟩
          have hrne : cellAddr ent K i d ≠ colAddr d := ok.ne_col _ _ hdK
          rw [List.map_cons, List.headD_cons, searchOnlyRowsTrace, if_neg hrne, hcr,
            obind_some, hrec, obind_some]
          rcases hres with ⟨herr, hring, picks, hsol, hpicks, hnd, hcover⟩ |
            ⟨herr, hheap, hsol, hno⟩
          · rw [if_pos herr]
            obtain ⟨hinot, hcov1⟩ := hcover.insert hdK hiR hie hia
            refine ⟨_, ents1, rfl, Or.inl ⟨rfl, hring, (i, d) :: picks, ?_, ?_, ?_, ?_⟩,
              hfin, hents2⟩
            · simp [hsol]
            · intro p hp
              rcases List.mem_cons.1 hp with h1 | h1
              · subst h1; exact ⟨hiR, hdK, hie⟩
              · exact hpicks p h1
            · simp only [List.map_cons, List.nodup_cons]
              exact ⟨fun hm => hinot (List.mem_toFinset.2 hm), hnd⟩
            · simpa using hcov1
          · rw [if_neg herr]
            simp only
            rw [hheap, hur, obind_some]
            rw [← hsplit, List.map_append, List.map_cons] at hv
            have hnext : getDown (coverM ent R K C h d) (cellAddr ent K i d) =
                some ((rest.map fun i => cellAddr ent K i d).headD (colAddr d)) := by
              simp only [getDown, ok.ne_zero i d, if_false, hv.next_mid]
            rw [hnext, obind_some]
            have hdl : ([] ++ [cellAddr ent K i d]).dropLast = ([] : List Nat) := by simp
            rw [hdl]
            obtain ⟨res2, ents2, hrun2, hres2, hfin2, hents3⟩ :=
              ihr (done ++ [i]) f (log1 ++ ents1) (by rw [← hsplit]; simp) (by omega) (by
                intro i1 hi1
                rcases List.mem_append.1 hi1 with h1 | h1
                · exact hdone i1 h1
                · simp only [List.mem_singleton] at h1
                  subst h1
                  exact hno)
            refine ⟨res2, ents1 ++ ents2, ?_, hres2, hfin2, ?_⟩
            · rw [hrun2, List.append_assoc]
            · intro e he
              rcases List.mem_append.1 he with h1 | h1
              · exact hents2 e h1
              · exact hents3 e h1
      obtain ⟨res, ents, hrun, hres, hfin, hents⟩ :=
        hloop (colRows ent R C d) [] fuel (log ++ [{ depth := depth, heap := h }]) rfl (by
          have := colRows_length_le ent R C d
          omega) (by simp)
      refine ⟨res, { depth := depth, heap := h } :: ents, ?_, hres, hfin, ?_⟩
      · rw [hrun, List.append_assoc, List.singleton_append]
      · intro e he
        rcases List.mem_cons.1 he with h1 | h1
        · subst h1
          exact ⟨Nat.le_refl _, C, hr, by simp⟩
        · obtain ⟨h2, C1, h3, h4⟩ := hents e h1
          exact ⟨by omega, C1, h3, h4⟩

end Dlx

namespace Dlx

/-! ## Whole runs, with the logs -/

theorem omap_eq_some {α β : Type} {x : Option α} {f : α → β} {a : α} (h : x = some a) :
    x.map f = some (f a) := by
  rw [h]; rfl

/-- The run of `searchAllSolution` from the call of the function of `SearchFunction(true)`
on a mesh with no column covered, with its log. -/
theorem searchAll_run (grow : Nat → Nat) {R K : Nat} {ent : Nat → Nat → Bool}
    {names : List String} {h : Heap} (hr : Repr R K ent names [] h) {fuel : Nat}
    (hf : searchFuel R K ≤ fuel) :
    ∃ w r, searchAllTrace grow fuel 0 (AllState.mk h [] [], []) rootAddr Slice.empty = some w ∧
      searchAllSolution grow fuel (AllState.mk h [] []) rootAddr Slice.empty = some w.1 ∧
      (SearchFunction true).call grow fuel h [] rootAddr = some r ∧
      r.heap = h ∧ r.result = w.1.solutions.map (Slice.elems w.1.arrays) ∧
      (∀ sol ∈ r.result, sol.length ≤ K ∧ ∀ v ∈ sol, IsCell ent K v) ∧
      ∀ e ∈ w.2, ∃ C1, Repr R K ent names C1 e.heap ∧ (actCols K C1).length + e.depth ≤ K := by
  have hfuel := searchFuel_le R K
  have hlen : (actCols K []).length ≤ K := actCols_length_le K []
  obtain ⟨w, ents, news, hrun, hheap, hlog, hsols, _, hnews, hents⟩ :=
    searchAllTrace_spec grow K [] (AllState.mk h [] [], []) Slice.empty fuel 0 hlen hr
      (by omega) (SliceOk.empty ent K [])
  have herase := searchAllTrace_erase grow fuel 0 (AllState.mk h [] [], []) rootAddr
    Slice.empty
  rw [omap_eq_some hrun] at herase
  obtain ⟨st1, hrun1, _, news1, hsols1, _, hlens⟩ :=
    searchAllSolution_spec grow K [] (AllState.mk h [] []) Slice.empty fuel hlen hr
      (by omega)
  have hst : st1 = w.1 := by
    have := hrun1.symm.trans herase.symm
    exact Option.some.inj this
  subst hst
  simp only at hheap hsols hsols1 hlog
  refine ⟨w, CallResult.mk (SearchFn.all Slice.empty w.1.solutions) w.1.heap w.1.arrays
      (w.1.solutions.map (Slice.elems w.1.arrays)),
    hrun, herase.symm, ?_, hheap, rfl, ?_, ?_⟩
  · simp only [SearchFunction, if_true, SearchFn.call]
    rw [← herase, obind_some]
  · intro sol hsol
    obtain ⟨s, hs, rfl⟩ := List.mem_map.1 hsol
    constructor
    · have h1 : s ∈ news1 := by
        rw [hsols1] at hs
        simpa using hs
      have h2 := hlens s h1
      have h3 : (Slice.elems w.1.arrays s).length ≤ s.len := by
        simp only [Slice.elems, List.length_take]
        omega
      have h4 : Slice.empty.len = 0 := rfl
      omega
    · have h1 : s ∈ news := by
        rw [hsols] at hs
        simpa using hs
      exact (hnews s h1).elems_cells
  · intro e he
    rw [hlog, List.nil_append] at he
    obtain ⟨_, C1, h1, h2⟩ := hents e he
    refine ⟨C1, h1, ?_⟩
    have := actCols_length_le K []
    omega

/-- The run of `searchOnlySolution` from the call of the function of
`SearchFunction(false)` on a mesh with no column covered, with its log. -/
theorem searchOnly_run (grow : Nat → Nat) {R K : Nat} {ent : Nat → Nat → Bool}
    {names : List String} {h : Heap} (hr : Repr R K ent names [] h) {fuel : Nat}
    (hf : searchFuel R K ≤ fuel) :
    ∃ res log r, searchOnlyTrace fuel 0 h [] rootAddr = some (res, log) ∧
      searchOnlySolution fuel h rootAddr = some res ∧
      (SearchFunction false).call grow fuel h [] rootAddr = some r ∧
      r.heap = res.1 ∧ r.result = [res.2.1] ∧
      (∃ C1, Repr R K ent names C1 r.heap) ∧
      (∀ v ∈ res.2.1, IsCell ent K v) ∧
      ∀ e ∈ log, ∃ C1, Repr R K ent names C1 e.heap ∧ (actCols K C1).length + e.depth ≤ K := by
  have hfuel := searchFuel_le R K
  have hlen : (actCols K []).length ≤ K := actCols_length_le K []
  obtain ⟨res, ents, hrun, hcase, hfin, hents⟩ :=
    searchOnlyTrace_spec K [] h [] fuel 0 hlen hr (by omega)
  rw [List.nil_append] at hrun
  have herase := searchOnlyTrace_erase fuel 0 h [] rootAddr
  rw [omap_eq_some hrun] at herase
  refine ⟨res, ents, CallResult.mk SearchFn.only res.1 [] [res.2.1],
    hrun, herase.symm, ?_, rfl, rfl, hfin, ?_, ?_⟩
  · simp only [SearchFunction, SearchFn.call]
    rw [← herase, obind_some]
    rfl
  · intro v hv
    rcases hcase with ⟨_, _, picks, hp, hcells, _, _⟩ | ⟨_, _, hnil, _⟩
    · rw [hp] at hv
      obtain ⟨p, hpm, rfl⟩ := List.mem_map.1 hv
      obtain ⟨_, h2, h3⟩ := hcells p hpm
      exact ⟨p.1, p.2, h2, h3, rfl⟩
    · rw [hnil] at hv
      cases hv
  · intro e he
    obtain ⟨_, C1, h1, h2⟩ := hents e he
    refine ⟨C1, h1, ?_⟩
    have := actCols_length_le K []
    omega

/-- `ResolveSolutions` on solutions made of cells of the mesh of a matrix, with any
columns covered: it returns, with the name of the column of every cell. -/
theorem Repr.resolve {R K : Nat} {ent : Nat → Nat → Bool} {names : List String}
    {C : List Nat} {h : Heap} (hr : Repr R K ent names C h) {fuel : Nat} (hf : 0 < fuel)
    (sols : List (List Nat)) (hall : ∀ sol ∈ sols, ∀ v ∈ sol, IsCell ent K v) :
    ResolveSolutions fuel h sols =
      some (sols.map fun sol => sol.map fun v => [h.name (h.column v)]) :=
  ResolveSolutions_cells hf sols fun sol hs v hv => hr.cell_ok (hall sol hs v hv)

end Dlx

namespace Dlx

/-! ## `ResolveSolutions` leaves the state as it finds it -/

theorem resolveRowRun_eq (row firstRow : Nat) :
    ∀ (fuel : Nat) (s : ResolveState) (acc : List String),
      resolveRowRun row firstRow fuel s acc =
        (resolveRow s.heap row firstRow fuel acc).map fun r => (s, r) := by
  intro fuel
  induction fuel with
  | zero => intro s acc; rfl
  | succ fuel ih =>
    intro s acc
    simp only [resolveRowRun, resolveRow, getColumnStep, getNameStep, getRightStep]
    cases h1 : getColumn s.heap row with
    | none => rfl
    | some c =>
      simp only [obind_some]
      cases h2 : getName s.heap c with
      | none => rfl
      | some name =>
        simp only [obind_some]
        cases h3 : getRight s.heap row with
        | none => rfl
        | some r =>
          simp only [obind_some]
          by_cases hrow : row = firstRow
          · simp only [if_pos hrow, Option.map_some']
          · simp only [if_neg hrow]
            exact ih s _

theorem resolveSolutionRun_eq (fuel : Nat) :
    ∀ (sol : List Nat) (s : ResolveState) (acc : List (List String)),
      resolveSolutionRun fuel s acc sol =
        (resolveSolution fuel s.heap acc sol).map fun r => (s, r) := by
  intro sol
  induction sol with
  | nil => intro s acc; rfl
  | cons row rest ih =>
    intro s acc
    simp only [resolveSolutionRun, resolveSolution, resolveRowRun_eq]
    cases h1 : resolveRow s.heap row row fuel [] with
    | none => rfl
    | some r =>
      simp only [Option.map_some', obind_some]
      exact ih s _

theorem resolveLoopRun_eq (fuel : Nat) :
    ∀ (sols : List (List Nat)) (s : ResolveState) (acc : List (List (List String))),
      resolveLoopRun fuel s acc sols =
        (resolveLoop fuel s.heap acc sols).map fun r => (s, r) := by
  intro sols
  induction sols with
  | nil => intro s acc; rfl
  | cons sol rest ih =>
    intro s acc
    simp only [resolveLoopRun, resolveLoop, resolveSolutionRun_eq]
    cases h1 : resolveSolution fuel s.heap [] sol with
    | none => rfl
    | some r =>
      simp only [Option.map_some', obind_some]
      exact ih s _

/-- A run of `ResolveSolutions` returns when the function `ResolveSolutions` of the
embedding does, with the same output, and the state that it leaves is the state that it
found. -/
theorem ResolveSolutionsRun_eq (fuel : Nat) (s : ResolveState) :
    ResolveSolutionsRun fuel s =
      (ResolveSolutions fuel s.heap s.solutions).map fun out => (s, out) :=
  resolveLoopRun_eq fuel s.solutions s []

end Dlx

namespace Dlx

/-! ## The properties of the specification, continued -/

set_option maxRecDepth 100000 in
/-- C11, the code at the matrix with the rows `[1]` and `[1]` and the column `a`:
`SearchFunction(true)` returns two solutions, and both are the cell of row 1; the cell of
row 0, which was the first solution when it was recorded, is not in the list any more.
The recorded slice is no copy: it shares its backing array with the slice of the caller,
whose next `append` writes the cell of row 1 into it. -/
theorem searchAll_records_no_copy :
    searchResult growslice 20 true [[true], [true]] ["a"] =
      some [[cellAddr (entry [[true], [true]]) 1 1 0],
            [cellAddr (entry [[true], [true]]) 1 1 0]] ∧
    cellAddr (entry [[true], [true]]) 1 0 0 ≠ cellAddr (entry [[true], [true]]) 1 1 0 ∧
    ExactCover (entry [[true], [true]]) 2 1 [0] ∧
    ExactCover (entry [[true], [true]]) 2 1 [1] := by
  decide

set_option maxRecDepth 100000 in
/-- C12, the code at the matrix with the one row `[1]` and the column `a`: the function of
one `SearchFunction(true)` is called on the root twice, the second time on the structure as
the first call leaves it, which is the structure as built. The first call returns one
solution and the second call returns two: the list `solutions` is a variable of
`SearchFunction`, not of the returned function, and keeps the solutions of the first call. -/
theorem searchAll_second_call_accumulates :
    searchTwice growslice 20 [[true]] ["a"] =
      some ([[cellAddr (entry [[true]]) 1 0 0]],
            [[cellAddr (entry [[true]]) 1 0 0], [cellAddr (entry [[true]]) 1 0 0]]) ∧
    (coverSets (entry [[true]]) 1 1 []).card = 1 := by
  decide

/-- C13: for every rectangular matrix with at least one row and one column and as many
names as columns that has an exact cover, `SearchFunction(false)` called on the freshly
built root returns, and in the memory that it leaves `right` of the root is the root: the
header ring holds the root only, while in the built structure `right` of the root is the
first column header; so the memory is not the one that was built. -/
theorem searchOnly_leaves_columns_covered (grow : Nat → Nat) (matrix : List (List Bool))
    (names : List String) (fuel : Nat) (hR : 0 < matrix.length) (hK : 0 < names.length)
    (hrect : Rectangular matrix names.length)
    (hf : searchFuel matrix.length names.length ≤ fuel)
    (hex : ∃ rows, ExactCover (entry matrix) matrix.length names.length rows) :
    ∃ h r, Initialize fuel matrix names = some (h, rootAddr, none) ∧
      (SearchFunction false).call grow fuel h [] rootAddr = some r ∧
      getRight h rootAddr = some (colAddr 0) ∧
      getRight r.heap rootAddr = some rootAddr ∧
      r.heap ≠ h := by
  have hfuel := searchFuel_le matrix.length names.length
  obtain ⟨h, hinit, hr⟩ := Initialize_repr hR hK hrect (by omega : matrix.length ≤ fuel)
  obtain ⟨r, res, hcall, _, hheap, hcase⟩ := call_only_spec grow hr hf
  have hh : h.right rootAddr = colAddr 0 := by
    have hring := hr.hring
    rw [actCols_nil] at hring
    have := hring.chain.next_head
    obtain ⟨k, hk⟩ : ∃ k, names.length = k + 1 := ⟨names.length - 1, by omega⟩
    rw [hk, List.range_succ_eq_map] at this
    simpa using this
  rcases hcase with ⟨_, hroot, _⟩ | ⟨_, _, _, hno⟩
  · refine ⟨h, r, hinit, hcall, ?_, ?_, ?_⟩
    · simp only [getRight, hh]
      simp [rootAddr]
    · rw [hheap]
      simp only [getRight, hroot]
      simp [rootAddr]
    · intro heq
      rw [hheap] at heq
      rw [heq, hh] at hroot
      simp [colAddr, rootAddr] at hroot
  · obtain ⟨rows, hrows⟩ := hex
    exact absurd ⟨_, ((exactCover_iff _ _ _ _).1 hrows).2⟩ hno

/-- C13 at the matrix with the rows `[1,0]`, `[0,1]`, `[1,1]`. -/
theorem searchOnly_leaves_columns_covered_witness :
    0 < [[true, false], [false, true], [true, true]].length ∧
    0 < ["a", "b"].length ∧
    Rectangular [[true, false], [false, true], [true, true]] ["a", "b"].length ∧
    searchFuel [[true, false], [false, true], [true, true]].length ["a", "b"].length ≤ 20 ∧
    (∃ rows, ExactCover (entry [[true, false], [false, true], [true, true]])
      [[true, false], [false, true], [true, true]].length ["a", "b"].length rows) ∧
    ∃ h r, Initialize 20 [[true, false], [false, true], [true, true]] ["a", "b"] =
        some (h, rootAddr, none) ∧
      (SearchFunction false).call growslice 20 h [] rootAddr = some r ∧
      getRight h rootAddr = some (colAddr 0) ∧
      getRight r.heap rootAddr = some rootAddr ∧
      r.heap ≠ h :=
  ⟨by decide, by decide, by decide, by decide, ⟨[2], by decide⟩,
    searchOnly_leaves_columns_covered growslice
      [[true, false], [false, true], [true, true]] ["a", "b"] 20
      (by decide) (by decide) (by decide) (by decide) ⟨[2], by decide⟩⟩

/-- On a rectangular matrix: for every structure that `Initialize` and then calls of
`coverColumn` on columns that are active when they are covered give, `searchAllSolution`
called on the root, with any partial solution and any list of recorded solutions, returns
and leaves the memory of the structure as it was at the call: every link field and every
size has the value it had. In particular the memory after the call of the function of
`SearchFunction(true)` on the freshly built structure is the memory that was built. -/
theorem searchAll_restores_structure (grow : Nat → Nat) (matrix : List (List Bool))
    (names : List String) (fuel : Nat) (cs : List Nat) (hR : 0 < matrix.length)
    (hK : 0 < names.length) (hrect : Rectangular matrix names.length)
    (hf : searchFuel matrix.length names.length ≤ fuel)
    (hnd : cs.Nodup) (hcs : ∀ c ∈ cs, c < names.length) :
    ∃ h0 h, Initialize fuel matrix names = some (h0, rootAddr, none) ∧
      coverSeq fuel h0 (cs.map colAddr) = some h ∧
      (∀ (arrays : Arrays) (solutions : List Slice) (solution : Slice),
        ∃ st1, searchAllSolution grow fuel
            { heap := h, arrays := arrays, solutions := solutions } rootAddr solution =
            some st1 ∧ st1.heap = h) ∧
      ∃ r, (SearchFunction true).call grow fuel h0 [] rootAddr = some r ∧ r.heap = h0 := by
  have hfuel := searchFuel_le matrix.length names.length
  obtain ⟨h0, hinit, hr0⟩ := Initialize_repr hR hK hrect (by omega : matrix.length ≤ fuel)
  obtain ⟨h, hseq, hr⟩ :=
    coverSeq_repr (by omega : matrix.length < fuel) (by omega : names.length ≤ fuel)
      cs [] h0 hr0 hnd (fun c hc => ⟨hcs c hc, by simp⟩)
  rw [List.nil_append] at hr
  obtain ⟨r, hcall, hheap, _⟩ := call_all_spec grow hr0 hf
  refine ⟨h0, h, hinit, hseq, ?_, r, hcall, hheap⟩
  intro arrays solutions solution
  obtain ⟨st1, hrun, hh, _⟩ :=
    searchAllSolution_spec grow names.length cs
      { heap := h, arrays := arrays, solutions := solutions } solution fuel
      (actCols_length_le _ _) hr (by omega)
  exact ⟨st1, hrun, hh⟩

set_option maxRecDepth 100000 in
/-- C19, the code at the matrix with the rows `[0,1]` and `[1,1,0,1]` and the column names
`a`, `b`, on which `Initialize` gives no error: the function of `SearchFunction(true)`
called on the built structure returns two solutions, and the memory that it leaves is not
the one that was built: the size of the header `a` was 2 and is 5, the size of the header
`b` was 2 and is 3. -/
theorem searchAll_leaves_other_sizes :
    (Initialize 30 [[false, true], [true, true, false, true]] ["a", "b"]).map
        (fun b => b.2.2) = some none ∧
    (obind (Initialize 30 [[false, true], [true, true, false, true]] ["a", "b"]) fun b =>
      obind ((SearchFunction true).call growslice 30 b.1 [] b.2.1) fun r =>
      some (r.result, [getSize b.1 (colAddr 0), getSize r.heap (colAddr 0),
        getSize b.1 (colAddr 1), getSize r.heap (colAddr 1)])) =
      some ([[5, 4], [7]], [some 2, some 5, some 2, some 3]) := by
  decide

/-- C14: a call of `ResolveSolutions`, run statement by statement on the memory of the mesh
and on `*solutions`, returns exactly when the function `ResolveSolutions` does, with its
output; whenever it returns, the state that it leaves is the state that it found: no link
field, size or name and no solution has changed; and a second call, run on the state that
the first one leaves, returns the same output. On a solution set made of cells whose
`column` is a column header, as are the cells of a built structure, it does return. -/
theorem ResolveSolutions_changes_nothing (fuel : Nat) (s : ResolveState) :
    ResolveSolutionsRun fuel s =
        (ResolveSolutions fuel s.heap s.solutions).map (fun out => (s, out)) ∧
      (∀ s1 out, ResolveSolutionsRun fuel s = some (s1, out) →
        s1 = s ∧ resolveTwiceRun fuel s = some (out, out)) ∧
      (0 < fuel →
        (∀ sol ∈ s.solutions, ∀ v ∈ sol,
          v ≠ 0 ∧ s.heap.column v ≠ 0 ∧ s.heap.isColumn (s.heap.column v) = true) →
        ∃ out, ResolveSolutionsRun fuel s = some (s, out) ∧
          resolveTwiceRun fuel s = some (out, out)) := by
  have heq := ResolveSolutionsRun_eq fuel s
  have hframe : ∀ s1 out, ResolveSolutionsRun fuel s = some (s1, out) →
      s1 = s ∧ resolveTwiceRun fuel s = some (out, out) := by
    intro s1 out hrun
    have h1 := hrun
    rw [heq] at h1
    cases h2 : ResolveSolutions fuel s.heap s.solutions with
    | none => rw [h2] at h1; cases h1
    | some out1 =>
      rw [h2, Option.map_some'] at h1
      have h3 := Option.some.inj h1
      have hs : s = s1 := congrArg Prod.fst h3
      have ho : out1 = out := congrArg Prod.snd h3
      subst hs
      subst ho
      refine ⟨rfl, ?_⟩
      simp only [resolveTwiceRun, hrun, obind_some]
  refine ⟨heq, hframe, ?_⟩
  intro hf hcells
  have hres := ResolveSolutions_cells hf s.solutions hcells
  have hrun : ResolveSolutionsRun fuel s =
      some (s, s.solutions.map fun sol => sol.map fun v => [s.heap.name (s.heap.column v)]) := by
    rw [heq, hres, Option.map_some']
  exact ⟨_, hrun, (hframe _ _ hrun).2⟩

/-- C14 at the structure of the matrix with the rows `[1,1]` and `[1,0]`, for the solution
set made of the solution with the cell of row 0 in column `a` and of the solution with
the cell of row 1. -/
theorem ResolveSolutions_changes_nothing_witness :
    0 < 1 ∧
    (∀ sol ∈ (ResolveState.mk exampleHeap [[4], [6]]).solutions, ∀ v ∈ sol,
      v ≠ 0 ∧ (ResolveState.mk exampleHeap [[4], [6]]).heap.column v ≠ 0 ∧
        (ResolveState.mk exampleHeap [[4], [6]]).heap.isColumn
          ((ResolveState.mk exampleHeap [[4], [6]]).heap.column v) = true) ∧
    ∃ out, ResolveSolutionsRun 1 (ResolveState.mk exampleHeap [[4], [6]]) =
        some (ResolveState.mk exampleHeap [[4], [6]], out) ∧
      resolveTwiceRun 1 (ResolveState.mk exampleHeap [[4], [6]]) = some (out, out) :=
  ⟨by decide, by decide,
    (ResolveSolutions_changes_nothing 1 (ResolveState.mk exampleHeap [[4], [6]])).2.2
      (by decide) (by decide)⟩

/-- The effect of `coverColumn` on the structure of a rectangular matrix: for every
structure that `Initialize` and then calls of `coverColumn` on active columns give, and
every active column `d`, `coverColumn` on `d` returns, and after it
(1) the header ring is the ring as it was with `d` taken out, the other headers in their
order; (2) for every other column `j`, the column ring of `j` holds the cells that it held,
in their order, but for those of the rows that have a cell in the column ring of `d`; (3)
the size of `j` is less by the number of these cells; the column ring of `d` itself is as
it was, and so are `left` and `right` of every cell. -/
theorem coverColumn_effect (matrix : List (List Bool)) (names : List String)
    (fuel : Nat) (cs : List Nat) (hR : 0 < matrix.length) (hK : 0 < names.length)
    (hrect : Rectangular matrix names.length)
    (hf : searchFuel matrix.length names.length ≤ fuel)
    (hnd : cs.Nodup) (hcs : ∀ c ∈ cs, c < names.length) :
    ∃ h0 h, Initialize fuel matrix names = some (h0, rootAddr, none) ∧
      coverSeq fuel h0 (cs.map colAddr) = some h ∧
      ∀ d ∈ actCols names.length cs, ∃ h1, coverColumn fuel h (colAddr d) = some h1 ∧
        Ring h.right h.left (rootAddr :: (actCols names.length cs).map colAddr) ∧
        Ring h1.right h1.left (rootAddr :: ((actCols names.length cs).erase d).map colAddr) ∧
        (∀ j, j < names.length → j ≠ d →
          Ring h.down h.up (colAddr j :: (colRows (entry matrix) matrix.length cs j).map
            fun i => cellAddr (entry matrix) names.length i j) ∧
          Ring h1.down h1.up (colAddr j ::
            ((colRows (entry matrix) matrix.length cs j).filter
              fun i => decide (i ∉ colRows (entry matrix) matrix.length cs d)).map
            fun i => cellAddr (entry matrix) names.length i j) ∧
          h1.size (colAddr j) = h.size (colAddr j) -
            (((colRows (entry matrix) matrix.length cs j).filter
              fun i => decide (i ∈ colRows (entry matrix) matrix.length cs d)).length : Int)) ∧
        Ring h.down h.up (colAddr d :: (colRows (entry matrix) matrix.length cs d).map
          fun i => cellAddr (entry matrix) names.length i d) ∧
        Ring h1.down h1.up (colAddr d :: (colRows (entry matrix) matrix.length cs d).map
          fun i => cellAddr (entry matrix) names.length i d) ∧
        ∀ i j, j < names.length → entry matrix i j = true →
          h1.left (cellAddr (entry matrix) names.length i j) =
            h.left (cellAddr (entry matrix) names.length i j) ∧
          h1.right (cellAddr (entry matrix) names.length i j) =
            h.right (cellAddr (entry matrix) names.length i j) := by
  have hfuel := searchFuel_le matrix.length names.length
  obtain ⟨h0, hinit, hr0⟩ := Initialize_repr hR hK hrect (by omega : matrix.length ≤ fuel)
  obtain ⟨h, hseq, hr⟩ :=
    coverSeq_repr (by omega : matrix.length < fuel) (by omega : names.length ≤ fuel)
      cs [] h0 hr0 hnd (fun c hc => ⟨hcs c hc, by simp⟩)
  rw [List.nil_append] at hr
  refine ⟨h0, h, hinit, hseq, ?_⟩
  intro d hd
  obtain ⟨hdK, hdC⟩ := mem_actCols.1 hd
  obtain ⟨hcov, hr1, _⟩ :=
    hr.cover hdK hdC (by omega : matrix.length < fuel) (by omega : names.length ≤ fuel)
  obtain ⟨_, _, _, _, hlr⟩ := hr.cover_frame hdK hdC
  refine ⟨_, hcov, hr.hring, ?_, ?_, hr.vring d hdK, ?_, fun i j _ _ => hlr i j⟩
  · have := hr1.hring
    rwa [actCols_snoc] at this
  · intro j hj hjd
    have hv1 := hr1.vring j hj
    have hs1 := hr1.size j hj
    rw [colRows_snoc_filter hdC hj hjd] at hv1 hs1
    refine ⟨hr.vring j hj, hv1, ?_⟩
    rw [hs1, hr.size j hj]
    have := length_filter_not (fun i => i ∈ colRows (entry matrix) matrix.length cs d)
      (colRows (entry matrix) matrix.length cs j)
    omega
  · have := hr1.vring d hdK
    rwa [colRows_snoc_self hdC] at this

set_option maxRecDepth 100000 in
/-- C15, the code at the matrix with the rows `[0,1]` and `[1,1,0,1]` and the column names
`a`, `b`: `Initialize` gives no error (the second row is not measured), and the entry of
index 3 of the second row has its cell in column `a`, as has the entry of index 0. The
objects are, in the order of their allocation, the root 1, the headers `a` = 2 and `b` =
3, and the cells 4 (row 0), 5, 6 and 7 (row 1, indices 0, 1 and 3). The column ring of `a`
is `a`, 5, 7 and its size is 2. After `coverColumn` on `a` the column ring of `a` is `a`,
5 and its size is 1: the cell 7, which is in the row of the cell 5, has been taken out of
the ring of the covered column itself, which the claim says is unchanged. -/
theorem coverColumn_changes_own_ring :
    (Initialize 20 [[false, true], [true, true, false, true]] ["a", "b"]).map
        (fun b => (b.2.2, [getDown b.1 (colAddr 0), getDown b.1 5, getDown b.1 7],
          getSize b.1 (colAddr 0))) =
      some (none, [some 5, some 7, some (colAddr 0)], some 2) ∧
    (obind (Initialize 20 [[false, true], [true, true, false, true]] ["a", "b"]) fun b =>
      obind (coverColumn 20 b.1 (colAddr 0)) fun h1 =>
      some ([getDown h1 (colAddr 0), getDown h1 5], getSize h1 (colAddr 0))) =
      some ([some 5, some (colAddr 0)], some 1) := by
  decide

/-- C16: for every rectangular matrix with at least one row and one column and as many
names as columns, `Initialize` returns the root and a structure where (1) the ring of the
root by `right` is the root and then the headers in the order of the names, each with its
name; (2) the ring of the header of column `j` by `down` is the header and then the cells
of the rows with a true entry in column `j`, in increasing order of the rows; (3) the ring
of a cell of row `i` by `right` is made of the cells of the true entries of row `i`, in
increasing order of the columns, and every cell refers to the header of its column; (4)
`left` and `up` lead back along these rings; (5) the objects are the root, the headers and
one cell for each true entry, so a row without a true entry has no cell. -/
theorem Initialize_represents_matrix (matrix : List (List Bool)) (names : List String)
    (fuel : Nat) (hR : 0 < matrix.length) (hK : 0 < names.length)
    (hrect : Rectangular matrix names.length) (hf : matrix.length ≤ fuel) :
    ∃ h, Initialize fuel matrix names = some (h, rootAddr, none) ∧
      Ring h.right h.left (rootAddr :: (List.range names.length).map colAddr) ∧
      (∀ j, j < names.length →
        getName h (colAddr j) = some (names.getD j "") ∧
        Ring h.down h.up (colAddr j ::
          ((List.range matrix.length).filter fun i => entry matrix i j).map
            fun i => cellAddr (entry matrix) names.length i j)) ∧
      (∀ i, Ring h.right h.left
        (((List.range names.length).filter fun j => entry matrix i j).map
          fun j => cellAddr (entry matrix) names.length i j)) ∧
      (∀ i j, j < names.length → entry matrix i j = true →
        getColumn h (cellAddr (entry matrix) names.length i j) = some (colAddr j)) ∧
      (∀ i j i1 j1, j < names.length → j1 < names.length → entry matrix i j = true →
        entry matrix i1 j1 = true →
        cellAddr (entry matrix) names.length i j = cellAddr (entry matrix) names.length i1 j1 →
        i = i1 ∧ j = j1) ∧
      h.count = names.length + 1 +
        ((List.range matrix.length).map fun i =>
          ((List.range names.length).filter fun j => entry matrix i j).length).sum := by
  obtain ⟨h, hinit, hr, hcount⟩ := Initialize_repr_count hR hK hrect hf
  have ok := cellAddr_ok (entry matrix) names.length
  refine ⟨h, hinit, ?_, ?_, ?_, ?_, ok.inj, hcount⟩
  · have := hr.hring
    rwa [actCols_nil] at this
  · intro j hj
    constructor
    · rw [getName, if_neg (colAddr_ne_zero j), hr.col_is j hj, if_pos rfl, hr.col_name j hj]
    · have := hr.vring j hj
      rwa [colRows_nil] at this
  · intro i
    exact hr.rring i
  · intro i j hj he
    rw [getColumn, if_neg (ok.ne_zero i j), hr.cell_col i j hj he]

/-- C16 at the matrix with the rows `[1,0,1]`, `[0,0,0]`, `[1,1,0]`. -/
theorem Initialize_represents_matrix_witness :
    0 < [[true, false, true], [false, false, false], [true, true, false]].length ∧
    0 < ["a", "b", "c"].length ∧
    Rectangular [[true, false, true], [false, false, false], [true, true, false]]
      ["a", "b", "c"].length ∧
    [[true, false, true], [false, false, false], [true, true, false]].length ≤ 3 ∧
    ∃ h, Initialize 3 [[true, false, true], [false, false, false], [true, true, false]]
        ["a", "b", "c"] = some (h, rootAddr, none) ∧
      Ring h.right h.left (rootAddr :: (List.range ["a", "b", "c"].length).map colAddr) ∧
      (∀ j, j < ["a", "b", "c"].length →
        getName h (colAddr j) = some (["a", "b", "c"].getD j "") ∧
        Ring h.down h.up (colAddr j ::
          ((List.range
              [[true, false, true], [false, false, false], [true, true, false]].length).filter
            fun i =>
              entry [[true, false, true], [false, false, false], [true, true, false]] i j).map
            fun i => cellAddr
              (entry [[true, false, true], [false, false, false], [true, true, false]])
              ["a", "b", "c"].length i j)) ∧
      (∀ i, Ring h.right h.left
        (((List.range ["a", "b", "c"].length).filter fun j =>
            entry [[true, false, true], [false, false, false], [true, true, false]] i j).map
          fun j => cellAddr
            (entry [[true, false, true], [false, false, false], [true, true, false]])
            ["a", "b", "c"].length i j)) ∧
      (∀ i j, j < ["a", "b", "c"].length →
        entry [[true, false, true], [false, false, false], [true, true, false]] i j = true →
        getColumn h (cellAddr
          (entry [[true, false, true], [false, false, false], [true, true, false]])
          ["a", "b", "c"].length i j) = some (colAddr j)) ∧
      (∀ i j i1 j1, j < ["a", "b", "c"].length → j1 < ["a", "b", "c"].length →
        entry [[true, false, true], [false, false, false], [true, true, false]] i j = true →
        entry [[true, false, true], [false, false, false], [true, true, false]] i1 j1 = true →
        cellAddr (entry [[true, false, true], [false, false, false], [true, true, false]])
            ["a", "b", "c"].length i j =
          cellAddr (entry [[true, false, true], [false, false, false], [true, true, false]])
            ["a", "b", "c"].length i1 j1 →
        i = i1 ∧ j = j1) ∧
      h.count = ["a", "b", "c"].length + 1 +
        ((List.range
            [[true, false, true], [false, false, false], [true, true, false]].length).map
          fun i => ((List.range ["a", "b", "c"].length).filter fun j =>
            entry [[true, false, true], [false, false, false], [true, true, false]]
              i j).length).sum :=
  ⟨by decide, by decide, by decide, by decide,
    Initialize_represents_matrix
      [[true, false, true], [false, false, false], [true, true, false]] ["a", "b", "c"] 3
      (by decide) (by decide) (by decide) (by decide)⟩

/-- On a rectangular matrix, the size invariant (every header of the ring of the root has
for size the number of cells of its column ring) holds of the structure that `Initialize`
builds; it holds
after calls of `coverColumn` on columns that are active when they are covered; after one
more `coverColumn` on an active column it holds again, and the matching `uncoverColumn`
gives back the memory before that cover, of which it holds. So it holds of the memory
that every call of `searchAllSolution` and of `searchOnlySolution` finds, in the search
from the built structure, before `chooseColumn` is called. -/
theorem size_invariant (grow : Nat → Nat) (matrix : List (List Bool)) (names : List String)
    (fuel : Nat) (cs : List Nat) (hR : 0 < matrix.length) (hK : 0 < names.length)
    (hrect : Rectangular matrix names.length)
    (hf : searchFuel matrix.length names.length ≤ fuel)
    (hnd : cs.Nodup) (hcs : ∀ c ∈ cs, c < names.length) :
    ∃ h0 h, Initialize fuel matrix names = some (h0, rootAddr, none) ∧
      SizeInv h0 rootAddr ∧
      coverSeq fuel h0 (cs.map colAddr) = some h ∧ SizeInv h rootAddr ∧
      (∀ d ∈ actCols names.length cs, ∃ h1, coverColumn fuel h (colAddr d) = some h1 ∧
        SizeInv h1 rootAddr ∧ uncoverColumn fuel h1 (colAddr d) = some h) ∧
      (∃ w, searchAllTrace grow fuel 0 (AllState.mk h0 [] [], []) rootAddr Slice.empty =
          some w ∧
        searchAllSolution grow fuel (AllState.mk h0 [] []) rootAddr Slice.empty = some w.1 ∧
        ∀ e ∈ w.2, SizeInv e.heap rootAddr) ∧
      ∃ res log, searchOnlyTrace fuel 0 h0 [] rootAddr = some (res, log) ∧
        searchOnlySolution fuel h0 rootAddr = some res ∧
        ∀ e ∈ log, SizeInv e.heap rootAddr := by
  have hfuel := searchFuel_le matrix.length names.length
  obtain ⟨h0, hinit, hr0⟩ := Initialize_repr hR hK hrect (by omega : matrix.length ≤ fuel)
  obtain ⟨h, hseq, hr⟩ :=
    coverSeq_repr (by omega : matrix.length < fuel) (by omega : names.length ≤ fuel)
      cs [] h0 hr0 hnd (fun c hc => ⟨hcs c hc, by simp⟩)
  rw [List.nil_append] at hr
  obtain ⟨w, _, hrunA, heraseA, _, _, _, _, hlogA⟩ := searchAll_run grow hr0 hf
  obtain ⟨res, log, _, hrunO, heraseO, _, _, _, _, _, hlogO⟩ := searchOnly_run grow hr0 hf
  refine ⟨h0, h, hinit, hr0.sizeInv, hseq, hr.sizeInv, ?_, ⟨w, hrunA, heraseA, ?_⟩,
    res, log, hrunO, heraseO, ?_⟩
  · intro d hd
    obtain ⟨hdK, hdC⟩ := mem_actCols.1 hd
    obtain ⟨hcov, hr1, hunc⟩ :=
      hr.cover hdK hdC (by omega : matrix.length < fuel) (by omega : names.length ≤ fuel)
    exact ⟨_, hcov, hr1.sizeInv, hunc⟩
  · intro e he
    obtain ⟨C1, h1, _⟩ := hlogA e he
    exact h1.sizeInv
  · intro e he
    obtain ⟨C1, h1, _⟩ := hlogO e he
    exact h1.sizeInv

set_option maxRecDepth 100000 in
/-- C17, the code at the matrix with the rows `[0,1]` and `[1,1,0,1]` and the column names
`a`, `b`, on which `Initialize` gives no error: the calls of `searchAllSolution` in the
search from the built structure, each with its depth, with `right` of the root, `down` of
the header `b` = 3, `down` of the cell 4, and the size of `b`, in the memory that the call
finds. The call at depth 1 finds the header `b` in the ring of the root, with the one
cell 4 in its column ring and the size 0: the invariant does not hold where `chooseColumn`
is called next. The row of the chosen cell has two cells in column `a`, so
`coverColumn` runs on `a` a second time, puts `b` back into the ring of the root and
decreases the size of `b` again. -/
theorem size_invariant_broken_in_search :
    (Initialize 30 [[false, true], [true, true, false, true]] ["a", "b"]).map
        (fun b => b.2.2) = some none ∧
    (obind (Initialize 30 [[false, true], [true, true, false, true]] ["a", "b"]) fun b =>
      obind (searchAllTrace growslice 30 0 (AllState.mk b.1 [] [], []) rootAddr Slice.empty)
        fun w => some (w.2.map fun e => (e.depth, [getRight e.heap rootAddr,
          getDown e.heap (colAddr 1), getDown e.heap 4], getSize e.heap (colAddr 1)))) =
      some [(0, [some (colAddr 0), some 4, some 6], some 2),
        (1, [some (colAddr 1), some 4, some (colAddr 1)], some 0),
        (2, [some rootAddr, some 4, some (colAddr 1)], some 0),
        (1, [some rootAddr, some 4, some (colAddr 1)], some 0)] := by
  decide

/-- C18: for every rectangular matrix with at least one row and one column and as many
names as columns, the all-solutions search on the freshly built structure returns; every
call of `searchAllSolution` that is made, at depth `t` of the recursion, finds a header
ring with at most `K - t` active columns, so no call is deeper than `K`; and every
returned solution has at most `K` rows. -/
theorem searchAll_depth_bound (grow : Nat → Nat) (matrix : List (List Bool))
    (names : List String) (fuel : Nat) (hR : 0 < matrix.length) (hK : 0 < names.length)
    (hrect : Rectangular matrix names.length)
    (hf : searchFuel matrix.length names.length ≤ fuel) :
    ∃ h w r, Initialize fuel matrix names = some (h, rootAddr, none) ∧
      searchAllTrace grow fuel 0 (AllState.mk h [] [], []) rootAddr Slice.empty = some w ∧
      searchAllSolution grow fuel (AllState.mk h [] []) rootAddr Slice.empty = some w.1 ∧
      (SearchFunction true).call grow fuel h [] rootAddr = some r ∧
      r.result = w.1.solutions.map (Slice.elems w.1.arrays) ∧
      (∀ e ∈ w.2, e.depth ≤ names.length ∧
        ∃ cols, Ring e.heap.right e.heap.left (rootAddr :: cols) ∧
          cols.length + e.depth ≤ names.length) ∧
      ∀ sol ∈ r.result, sol.length ≤ names.length := by
  have hfuel := searchFuel_le matrix.length names.length
  obtain ⟨h, hinit, hr⟩ := Initialize_repr hR hK hrect (by omega : matrix.length ≤ fuel)
  obtain ⟨w, r, hrun, herase, hcall, _, hres, hsols, hlog⟩ := searchAll_run grow hr hf
  refine ⟨h, w, r, hinit, hrun, herase, hcall, hres, ?_, fun sol hs => (hsols sol hs).1⟩
  intro e he
  obtain ⟨C1, h1, h2⟩ := hlog e he
  refine ⟨by omega, (actCols names.length C1).map colAddr, h1.hring, ?_⟩
  rw [List.length_map]
  exact h2

/-- C18 at the matrix with the rows `[1,0]`, `[0,1]`, `[1,1]`. -/
theorem searchAll_depth_bound_witness :
    0 < [[true, false], [false, true], [true, true]].length ∧
    0 < ["a", "b"].length ∧
    Rectangular [[true, false], [false, true], [true, true]] ["a", "b"].length ∧
    searchFuel [[true, false], [false, true], [true, true]].length ["a", "b"].length ≤ 20 ∧
    ∃ h w r, Initialize 20 [[true, false], [false, true], [true, true]] ["a", "b"] =
        some (h, rootAddr, none) ∧
      searchAllTrace growslice 20 0 (AllState.mk h [] [], []) rootAddr Slice.empty = some w ∧
      searchAllSolution growslice 20 (AllState.mk h [] []) rootAddr Slice.empty = some w.1 ∧
      (SearchFunction true).call growslice 20 h [] rootAddr = some r ∧
      r.result = w.1.solutions.map (Slice.elems w.1.arrays) ∧
      (∀ e ∈ w.2, e.depth ≤ ["a", "b"].length ∧
        ∃ cols, Ring e.heap.right e.heap.left (rootAddr :: cols) ∧
          cols.length + e.depth ≤ ["a", "b"].length) ∧
      ∀ sol ∈ r.result, sol.length ≤ ["a", "b"].length :=
  ⟨by decide, by decide, by decide, by decide,
    searchAll_depth_bound growslice [[true, false], [false, true], [true, true]] ["a", "b"] 20
      (by decide) (by decide) (by decide) (by decide)⟩

/-- C20: for every rectangular matrix with at least one row and one column and as many
names as columns, `Initialize`, the call of each of the two search functions on the built
structure, and `ResolveSolutions` on what each of them returns, all return a result: no
step is the call of a method on nil or of a header-only accessor on a plain cell, which
are the steps where the embedding gives no result. -/
theorem no_runtime_failure (grow : Nat → Nat) (matrix : List (List Bool))
    (names : List String) (fuel : Nat) (hR : 0 < matrix.length) (hK : 0 < names.length)
    (hrect : Rectangular matrix names.length)
    (hf : searchFuel matrix.length names.length ≤ fuel) :
    ∃ h rAll outAll rOnly outOnly,
      Initialize fuel matrix names = some (h, rootAddr, none) ∧
      (SearchFunction true).call grow fuel h [] rootAddr = some rAll ∧
      ResolveSolutions fuel rAll.heap rAll.result = some outAll ∧
      (SearchFunction false).call grow fuel h [] rootAddr = some rOnly ∧
      ResolveSolutions fuel rOnly.heap rOnly.result = some outOnly := by
  have hfuel := searchFuel_le matrix.length names.length
  obtain ⟨h, hinit, hr⟩ := Initialize_repr hR hK hrect (by omega : matrix.length ≤ fuel)
  obtain ⟨_, rAll, _, _, hcallA, hheapA, _, hsolsA, _⟩ := searchAll_run grow hr hf
  obtain ⟨res, _, rOnly, _, _, hcallO, _, hresO, ⟨C1, hfin⟩, hcellsO, _⟩ :=
    searchOnly_run grow hr hf
  have hfpos : 0 < fuel := by
    have : 0 < searchFuel matrix.length names.length := by
      unfold searchFuel; omega
    omega
  have hA := hr.resolve hfpos rAll.result (fun sol hs => (hsolsA sol hs).2)
  have hO := hfin.resolve hfpos rOnly.result (by
    intro sol hs
    rw [hresO] at hs
    simp only [List.mem_singleton] at hs
    subst hs
    exact hcellsO)
  rw [← hheapA] at hA
  exact ⟨h, rAll, _, rOnly, _, hinit, hcallA, hA, hcallO, hO⟩

/-- C20 at the matrix with the rows `[1,0]`, `[0,1]`, `[1,1]`. -/
theorem no_runtime_failure_witness :
    0 < [[true, false], [false, true], [true, true]].length ∧
    0 < ["a", "b"].length ∧
    Rectangular [[true, false], [false, true], [true, true]] ["a", "b"].length ∧
    searchFuel [[true, false], [false, true], [true, true]].length ["a", "b"].length ≤ 20 ∧
    ∃ h rAll outAll rOnly outOnly,
      Initialize 20 [[true, false], [false, true], [true, true]] ["a", "b"] =
        some (h, rootAddr, none) ∧
      (SearchFunction true).call growslice 20 h [] rootAddr = some rAll ∧
      ResolveSolutions 20 rAll.heap rAll.result = some outAll ∧
      (SearchFunction false).call growslice 20 h [] rootAddr = some rOnly ∧
      ResolveSolutions 20 rOnly.heap rOnly.result = some outOnly :=
  ⟨by decide, by decide, by decide, by decide,
    no_runtime_failure growslice [[true, false], [false, true], [true, true]] ["a", "b"] 20
      (by decide) (by decide) (by decide) (by decide)⟩

end Dlx
